import Mathlib

/-!
# Gobang engine (`gobang_ai.c`): shallow embedding and verified properties

The C program keeps one global `GameState game`.  Here the state is passed
explicitly.  C `int` values are modelled by mathematical integers (`Int`);
the division `/` of C is `Int.tdiv` (truncation toward zero).

* `Board` is the array `int board[12][12]`: its 144 cells in memory order
  (row-major), so `board[x][y]` is the cell at offset `12 * x + y`.  Every read
  in the source is guarded by the bounds test, and so is every read here.
* The `while` loops of `check_win` and `count_line` walk along a line of the
  board; they are modelled by `line_loop` with an iteration budget of
  `BOARD_SIZE`, and `line_loop_fuel_enough` shows that for the unit steps used
  by the program this budget is never the reason the loop stops.
* `clock()` is the only input from the environment.  Each comparison
  `elapsed > limit` is answered by an oracle `late : Nat → Bool` applied to the
  number of comparisons made so far (`GameState.ticks`), so that theorems
  quantified over `late` cover every behaviour of the clock.
* `minimax` receives `depth` as a natural number: `get_best_move` passes
  `MAX_DEPTH - 1` and every recursive call passes `depth - 1` after the
  `depth == 0` test, so no negative depth occurs.
* A `for` loop with an early `return` or `break` is a recursive function over
  the list of candidates (`max_loop`, `min_loop`, `win_scan`, `block_scan`,
  `root_loop`) or a `List.any`.
-/

namespace Gobang

/-! ## Constants -/

abbrev BOARD_SIZE : Int := 12
abbrev EMPTY : Int := 0
abbrev BLACK : Int := 1
abbrev WHITE : Int := 2
abbrev MAX_DEPTH : Nat := 6
abbrev WIN_SCORE : Int := 1000000
abbrev INT_MIN : Int := -2147483648
abbrev INT_MAX : Int := 2147483647

/-- The direction vectors `(dx[dir], dy[dir])` for `dir = 0, 1, 2, 3`. -/
def dirs : List (Int × Int) := [(0, 1), (1, 0), (1, 1), (1, -1)]

/-! ## State -/

/-- The array `board[BOARD_SIZE][BOARD_SIZE]`: 144 cells in row-major order. -/
structure Board where
  cells : List Int
  size_eq : cells.length = 144
deriving DecidableEq

/-- The read `board[x][y]`. -/
def Board.cell (b : Board) (x y : Int) : Int :=
  b.cells.getD (x * BOARD_SIZE + y).toNat 0

/-- The global `game`; `ticks` counts the deadline comparisons made so far. -/
structure GameState where
  board : Board
  my_color : Int
  opponent_color : Int
  ticks : Nat

/-- The cells `(i, j)` in the order of the nested loops
`for i < BOARD_SIZE, for j < BOARD_SIZE` (row-major). -/
def cells : List (Int × Int) :=
  (List.range BOARD_SIZE.toNat).flatMap fun (i : Nat) =>
    (List.range BOARD_SIZE.toNat).map fun (j : Nat) => ((i : Int), (j : Int))

/-- The assignment `board[x][y] = color`. -/
def set_cell (b : Board) (x y color : Int) : Board :=
  ⟨b.cells.set (x * BOARD_SIZE + y).toNat color, by rw [List.length_set]; exact b.size_eq⟩

/-! ## Board model and line scanning -/

/-- Source: `is_valid_move`. -/
def is_valid_move (b : Board) (x y : Int) : Bool :=
  decide (x ≥ 0 ∧ x < BOARD_SIZE ∧ y ≥ 0 ∧ y < BOARD_SIZE ∧ b.cell x y = EMPTY)

/-- The loop `while (in bounds && board[nx][ny] == color) { count++; nx += dx; ny += dy; }`
with at most `fuel` iterations. -/
def line_loop (b : Board) (dx dy color : Int) : Nat → Int → Int → Int → Int
  | 0, _, _, count => count
  | fuel + 1, nx, ny, count =>
    if nx ≥ 0 ∧ nx < BOARD_SIZE ∧ ny ≥ 0 ∧ ny < BOARD_SIZE ∧ b.cell nx ny = color then
      line_loop b dx dy color fuel (nx + dx) (ny + dy) (count + 1)
    else count

/-- Iteration budget of the line loops: a line of the board has at most
`BOARD_SIZE` cells. -/
abbrev LINE_FUEL : Nat := BOARD_SIZE.toNat

/-- The body of the `for dir` loop of `check_win`: the count along one axis. -/
def win_count (b : Board) (x y color : Int) (d : Int × Int) : Int :=
  let count := 1
  let count := line_loop b d.1 d.2 color LINE_FUEL (x + d.1) (y + d.2) count
  line_loop b (-d.1) (-d.2) color LINE_FUEL (x - d.1) (y - d.2) count

/-- Source: `check_win`. -/
def check_win (b : Board) (x y color : Int) : Bool :=
  dirs.any fun d => decide (win_count b x y color d ≥ 5)

/-- Source: `count_line`. -/
def count_line (b : Board) (x y dx dy color : Int) : Int :=
  line_loop b dx dy color LINE_FUEL x y 0

/-! ## Evaluation -/

/-- The test `fx < 0 || fx >= BOARD_SIZE || fy < 0 || fy >= BOARD_SIZE ||
board[fx][fy] == 3 - color` of `evaluate_position`. -/
def end_blocked (b : Board) (fx fy color : Int) : Bool :=
  decide (fx < 0 ∨ fx ≥ BOARD_SIZE ∨ fy < 0 ∨ fy ≥ BOARD_SIZE ∨ b.cell fx fy = 3 - color)

/-- The `if / else if` chain adding the score of a line of length `total`. -/
def add_line_score (score total : Int) : Int :=
  if total ≥ 5 then score + WIN_SCORE
  else if total = 4 then score + 10000
  else if total = 3 then score + 1000
  else if total = 2 then score + 100
  else if total = 1 then score + 10
  else score

/-- One iteration of the `for dir` loop of `evaluate_position`, acting on the
running `score`. -/
def eval_dir_step (b : Board) (x y color : Int) (score : Int) (d : Int × Int) : Int :=
  let forward := count_line b x y d.1 d.2 color
  let backward := count_line b x y (-d.1) (-d.2) color
  let total := forward + backward - 1
  let score := add_line_score score total
  let fx := x + forward * d.1
  let fy := y + forward * d.2
  let bx := x - backward * d.1
  let by_ := y - backward * d.2
  let blocked : Int :=
    if end_blocked b fx fy color && end_blocked b bx by_ color then 2
    else if end_blocked b fx fy color || end_blocked b bx by_ color then 1
    else 0
  if blocked = 2 then Int.tdiv score 10
  else if blocked = 1 then Int.tdiv score 3
  else score

/-- Source: `evaluate_position`. -/
def evaluate_position (b : Board) (x y color : Int) : Int :=
  dirs.foldl (eval_dir_step b x y color) 0

/-- One iteration of the inner loop of `evaluate_board`, acting on the pair
`(my_score, opponent_score)`. -/
def eval_board_step (s : GameState) (acc : Int × Int) (p : Int × Int) : Int × Int :=
  if s.board.cell p.1 p.2 = s.my_color then
    (acc.1 + evaluate_position s.board p.1 p.2 s.my_color, acc.2)
  else if s.board.cell p.1 p.2 = s.opponent_color then
    (acc.1, acc.2 + evaluate_position s.board p.1 p.2 s.opponent_color)
  else acc

/-- Source: `evaluate_board`. -/
def evaluate_board (s : GameState) : Int :=
  let acc := cells.foldl (eval_board_step s) (0, 0)
  acc.1 - acc.2

/-! ## Move generation -/

/-- Source: `has_adjacent_stone`. -/
def has_adjacent_stone (b : Board) (x y : Int) : Bool :=
  ([-1, 0, 1] : List Int).any fun i =>
    ([-1, 0, 1] : List Int).any fun j =>
      if i = 0 ∧ j = 0 then false
      else decide (x + i ≥ 0 ∧ x + i < BOARD_SIZE ∧ y + j ≥ 0 ∧ y + j < BOARD_SIZE ∧
        b.cell (x + i) (y + j) ≠ EMPTY)

/-- Source: `generate_moves`; the list is `moves[0 .. move_count)`. -/
def generate_moves (b : Board) : List (Int × Int) :=
  let empty_count := cells.countP fun p => decide (b.cell p.1 p.2 = EMPTY)
  if (empty_count : Int) = BOARD_SIZE * BOARD_SIZE then
    [(BOARD_SIZE / 2, BOARD_SIZE / 2)]
  else
    cells.filter fun p => is_valid_move b p.1 p.2 && has_adjacent_stone b p.1 p.2

/-- Source: `make_move`. -/
def make_move (s : GameState) (x y color : Int) : GameState :=
  { s with board := set_cell s.board x y color }

/-- Source: `undo_move`. -/
def undo_move (s : GameState) (x y : Int) : GameState :=
  { s with board := set_cell s.board x y EMPTY }

/-- One reading of the clock followed by a comparison with the limit. -/
def tick (s : GameState) : GameState :=
  { s with ticks := s.ticks + 1 }

/-! ## Search -/

/-- The `for` loop of the maximizing branch of `minimax`; `search alpha beta`
is the recursive call `minimax(depth - 1, alpha, beta, 0, time_limit)`. -/
def max_loop (search : Int → Int → GameState → Int × GameState) :
    List (Int × Int) → Int → Int → Int → GameState → Int × GameState
  | [], max_eval, _, _, s => (max_eval, s)
  | (x, y) :: rest, max_eval, alpha, beta, s =>
    let s1 := make_move s x y s.my_color
    if check_win s1.board x y s1.my_color then
      (WIN_SCORE, undo_move s1 x y)
    else
      let r := search alpha beta s1
      let eval := r.1
      let s2 := undo_move r.2 x y
      let max_eval := if eval > max_eval then eval else max_eval
      let alpha := if alpha > eval then alpha else eval
      if beta ≤ alpha then (max_eval, s2)
      else max_loop search rest max_eval alpha beta s2

/-- The `for` loop of the minimizing branch of `minimax`. -/
def min_loop (search : Int → Int → GameState → Int × GameState) :
    List (Int × Int) → Int → Int → Int → GameState → Int × GameState
  | [], min_eval, _, _, s => (min_eval, s)
  | (x, y) :: rest, min_eval, alpha, beta, s =>
    let s1 := make_move s x y s.opponent_color
    if check_win s1.board x y s1.opponent_color then
      (-WIN_SCORE, undo_move s1 x y)
    else
      let r := search alpha beta s1
      let eval := r.1
      let s2 := undo_move r.2 x y
      let min_eval := if eval < min_eval then eval else min_eval
      let beta := if beta < eval then beta else eval
      if beta ≤ alpha then (min_eval, s2)
      else min_loop search rest min_eval alpha beta s2

/-- Source: `minimax`.  Returns the value and the state left behind. -/
def minimax (late : Nat → Bool) :
    Nat → Int → Int → Bool → GameState → Int × GameState
  | 0, _, _, _, s =>
    let s0 := tick s
    if late s.ticks then (evaluate_board s0, s0)
    else (evaluate_board s0, s0)
  | depth + 1, alpha, beta, is_maximizing, s =>
    let s0 := tick s
    if late s.ticks then (evaluate_board s0, s0)
    else
      let moves := generate_moves s0.board
      if moves.length = 0 then (evaluate_board s0, s0)
      else if is_maximizing then
        max_loop (fun a b t => minimax late depth a b false t) moves INT_MIN alpha beta s0
      else
        min_loop (fun a b t => minimax late depth a b true t) moves INT_MAX alpha beta s0

/-- First loop of `get_best_move`: the first candidate that wins at once for
my side, if any. -/
def win_scan : List (Int × Int) → GameState → Option (Int × Int) × GameState
  | [], s => (none, s)
  | (x, y) :: rest, s =>
    let s1 := make_move s x y s.my_color
    if check_win s1.board x y s1.my_color then (some (x, y), undo_move s1 x y)
    else win_scan rest (undo_move s1 x y)

/-- Second loop of `get_best_move`: the first candidate at which the opponent
would win at once, if any. -/
def block_scan : List (Int × Int) → GameState → Option (Int × Int) × GameState
  | [], s => (none, s)
  | (x, y) :: rest, s =>
    let s1 := make_move s x y s.opponent_color
    if check_win s1.board x y s1.opponent_color then (some (x, y), undo_move s1 x y)
    else block_scan rest (undo_move s1 x y)

/-- Third loop of `get_best_move`; `search` is the call
`minimax(MAX_DEPTH - 1, INT_MIN, INT_MAX, 0, TIMEOUT_THRESHOLD)`.  Returns
`best_score`, `(best_x, best_y)` and the state. -/
def root_loop (late : Nat → Bool) (search : GameState → Int × GameState) :
    List (Int × Int) → Int → Int × Int → GameState → Int × (Int × Int) × GameState
  | [], best_score, best, s => (best_score, best, s)
  | (x, y) :: rest, best_score, best, s =>
    let s1 := make_move s x y s.my_color
    let r := search s1
    let score := r.1
    let best := if score > best_score then (x, y) else best
    let best_score := if score > best_score then score else best_score
    let s2 := undo_move r.2 x y
    if late s2.ticks then (best_score, best, tick s2)
    else root_loop late search rest best_score best (tick s2)

/-- Source: `get_best_move`, with the search procedure as a parameter.
Returns `(best_x, best_y)` and the state. -/
def get_best_move_with (late : Nat → Bool) (search : GameState → Int × GameState)
    (s : GameState) : (Int × Int) × GameState :=
  let moves := generate_moves s.board
  if moves.length = 0 then ((BOARD_SIZE / 2, BOARD_SIZE / 2), s)
  else
    let best := moves.headD (0, 0)
    let w := win_scan moves s
    match w.1 with
    | some p => (p, w.2)
    | none =>
      let k := block_scan moves w.2
      match k.1 with
      | some p => (p, k.2)
      | none => (root_loop late search moves INT_MIN best k.2).2

/-- Source: `get_best_move`. -/
def get_best_move (late : Nat → Bool) (s : GameState) : (Int × Int) × GameState :=
  get_best_move_with late (minimax late (MAX_DEPTH - 1) INT_MIN INT_MAX false) s

/-- The `TURN` branch of `main`: the printed coordinate (if any) and the new
state. -/
def turn_step (late : Nat → Bool) (s : GameState) : Option (Int × Int) × GameState :=
  let r := get_best_move late s
  let x := r.1.1
  let y := r.1.2
  let s1 := r.2
  if is_valid_move s1.board x y then
    (some (x, y), { s1 with board := set_cell s1.board x y s1.my_color })
  else
    match cells.find? fun p => is_valid_move s1.board p.1 p.2 with
    | some p => (some p, { s1 with board := set_cell s1.board p.1 p.2 s1.my_color })
    | none => (none, s1)

/-- The `PLACE` branch of `main`: `if (is_valid_move(x, y)) board[x][y] = opponent_color`. -/
def place_step (s : GameState) (x y : Int) : GameState :=
  if is_valid_move s.board x y then
    { s with board := set_cell s.board x y s.opponent_color }
  else s

/-! ## The unpruned reference search

The same recursion as `minimax`, with the same candidate order, the same
deadline test and the same immediate-win shortcut, but without the
`beta <= alpha` cutoff (so `alpha` and `beta` are not needed). -/

/-- The maximizing loop of `minimax` without the cutoff. -/
def max_loop_unpruned (search : GameState → Int × GameState) :
    List (Int × Int) → Int → GameState → Int × GameState
  | [], max_eval, s => (max_eval, s)
  | (x, y) :: rest, max_eval, s =>
    let s1 := make_move s x y s.my_color
    if check_win s1.board x y s1.my_color then
      (WIN_SCORE, undo_move s1 x y)
    else
      let r := search s1
      let eval := r.1
      let s2 := undo_move r.2 x y
      let max_eval := if eval > max_eval then eval else max_eval
      max_loop_unpruned search rest max_eval s2

/-- The minimizing loop of `minimax` without the cutoff. -/
def min_loop_unpruned (search : GameState → Int × GameState) :
    List (Int × Int) → Int → GameState → Int × GameState
  | [], min_eval, s => (min_eval, s)
  | (x, y) :: rest, min_eval, s =>
    let s1 := make_move s x y s.opponent_color
    if check_win s1.board x y s1.opponent_color then
      (-WIN_SCORE, undo_move s1 x y)
    else
      let r := search s1
      let eval := r.1
      let s2 := undo_move r.2 x y
      let min_eval := if eval < min_eval then eval else min_eval
      min_loop_unpruned search rest min_eval s2

/-- Full minimax to the given depth: `minimax` without the cutoff. -/
def minimax_unpruned (late : Nat → Bool) : Nat → Bool → GameState → Int × GameState
  | 0, _, s =>
    let s0 := tick s
    if late s.ticks then (evaluate_board s0, s0)
    else (evaluate_board s0, s0)
  | depth + 1, is_maximizing, s =>
    let s0 := tick s
    if late s.ticks then (evaluate_board s0, s0)
    else
      let moves := generate_moves s0.board
      if moves.length = 0 then (evaluate_board s0, s0)
      else if is_maximizing then
        max_loop_unpruned (fun t => minimax_unpruned late depth false t) moves INT_MIN s0
      else
        min_loop_unpruned (fun t => minimax_unpruned late depth true t) moves INT_MAX s0

/-- The clock that never passes the deadline. -/
def never_late : Nat → Bool := fun _ => false

/-! ## Specification-side notions and concrete positions -/

/-- The coordinate pair `(x, y)` lies on the board. -/
def in_board (x y : Int) : Prop := x ≥ 0 ∧ x < BOARD_SIZE ∧ y ≥ 0 ∧ y < BOARD_SIZE

instance (x y : Int) : Decidable (in_board x y) := by
  unfold in_board; infer_instance

/-- The cell `(x, y)` lies on the board and holds `c`. -/
def holds (b : Board) (c x y : Int) : Prop :=
  x ≥ 0 ∧ x < BOARD_SIZE ∧ y ≥ 0 ∧ y < BOARD_SIZE ∧ b.cell x y = c

instance (b : Board) (c x y : Int) : Decidable (holds b c x y) := by
  unfold holds; infer_instance

/-- Along one of the four axes (horizontal, vertical, the two diagonals) there
are at least 5 consecutive on-board cells holding `c`, one of which is
`(x, y)`: the cells `(x, y) + t * d` for `-p ≤ t ≤ q`. -/
def five_through (b : Board) (x y c : Int) : Prop :=
  ∃ d : Int × Int, (d = (0, 1) ∨ d = (1, 0) ∨ d = (1, 1) ∨ d = (1, -1)) ∧
    ∃ p q : Nat, p + q + 1 ≥ 5 ∧
      ∀ t : Int, -(p : Int) ≤ t → t ≤ q → holds b c (x + t * d.1) (y + t * d.2)

/-- Four black stones at `(0,1) .. (0,4)`; `(0,0)` is empty. -/
def board_four : Board := ⟨[
  0,1,1,1,1,0,0,0,0,0,0,0,
  0,0,0,0,0,0,0,0,0,0,0,0,
  0,0,0,0,0,0,0,0,0,0,0,0,
  0,0,0,0,0,0,0,0,0,0,0,0,
  0,0,0,0,0,0,0,0,0,0,0,0,
  0,0,0,0,0,0,0,0,0,0,0,0,
  0,0,0,0,0,0,0,0,0,0,0,0,
  0,0,0,0,0,0,0,0,0,0,0,0,
  0,0,0,0,0,0,0,0,0,0,0,0,
  0,0,0,0,0,0,0,0,0,0,0,0,
  0,0,0,0,0,0,0,0,0,0,0,0,
  0,0,0,0,0,0,0,0,0,0,0,0], rfl⟩

/-- Five black stones at `(0,0) .. (0,4)`. -/
def board_five : Board := ⟨[
  1,1,1,1,1,0,0,0,0,0,0,0,
  0,0,0,0,0,0,0,0,0,0,0,0,
  0,0,0,0,0,0,0,0,0,0,0,0,
  0,0,0,0,0,0,0,0,0,0,0,0,
  0,0,0,0,0,0,0,0,0,0,0,0,
  0,0,0,0,0,0,0,0,0,0,0,0,
  0,0,0,0,0,0,0,0,0,0,0,0,
  0,0,0,0,0,0,0,0,0,0,0,0,
  0,0,0,0,0,0,0,0,0,0,0,0,
  0,0,0,0,0,0,0,0,0,0,0,0,
  0,0,0,0,0,0,0,0,0,0,0,0,
  0,0,0,0,0,0,0,0,0,0,0,0], rfl⟩

/-- Placing a stone of colour `c` on the cell `p` makes `check_win` true there. -/
def wins_at (b : Board) (c : Int) (p : Int × Int) : Bool :=
  check_win (set_cell b p.1 p.2 c) p.1 p.2 c

/-- The state `t` has the same board and side assignment as `s`. -/
def same_game (s t : GameState) : Prop :=
  t.board = s.board ∧ t.my_color = s.my_color ∧ t.opponent_color = s.opponent_color

/-- Row-major order on coordinate pairs: `p` comes strictly before `q`. -/
def row_major_lt (p q : Int × Int) : Prop :=
  p.1 < q.1 ∨ (p.1 = q.1 ∧ p.2 < q.2)

instance (p q : Int × Int) : Decidable (row_major_lt p q) := by
  unfold row_major_lt; infer_instance

/-- The cells `(x, y)` and `(u, v)` are Chebyshev-adjacent: distinct and at
distance at most one in each coordinate. -/
def chebyshev_adjacent (x y u v : Int) : Prop :=
  max (u - x).natAbs (v - y).natAbs = 1

instance (x y u v : Int) : Decidable (chebyshev_adjacent x y u v) := by
  unfold chebyshev_adjacent; infer_instance

/-- One of the eight unit steps along the four axes (either orientation). -/
def unit_step (dx dy : Int) : Prop :=
  (dx = -1 ∨ dx = 0 ∨ dx = 1) ∧ (dy = -1 ∨ dy = 0 ∨ dy = 1) ∧ (dx ≠ 0 ∨ dy ≠ 0)

instance (dx dy : Int) : Decidable (unit_step dx dy) := by
  unfold unit_step; infer_instance

/-- The side `opp` has four contiguous stones `(x, y) + k * (dx, dy)`,
`k = 0 .. 3`, with exactly one open end: the cell just beyond the last stone is
on the board and empty, the cell just before the first stone is off the board
or holds a stone of `my`. -/
def open_four (b : Board) (opp my x y dx dy : Int) : Prop :=
  holds b opp x y ∧ holds b opp (x + dx) (y + dy) ∧
    holds b opp (x + 2 * dx) (y + 2 * dy) ∧ holds b opp (x + 3 * dx) (y + 3 * dy) ∧
    holds b 0 (x + 4 * dx) (y + 4 * dy) ∧
    (¬ in_board (x - dx) (y - dy) ∨ holds b my (x - dx) (y - dy))

instance (b : Board) (opp my x y dx dy : Int) : Decidable (open_four b opp my x y dx dy) := by
  unfold open_four; infer_instance

/-- No empty cell of the board is an immediate win for colour `c`. -/
def no_win_for (b : Board) (c : Int) : Prop :=
  ∀ q : Int × Int, holds b 0 q.1 q.2 → wins_at b c q = false

/-- White fours at `(0,0) .. (0,3)` and `(2,0) .. (2,3)`, open at `(0,4)` and
`(2,4)`; one black stone at `(6,6)`. -/
def board_two_fours : Board := ⟨[
  2,2,2,2,0,0,0,0,0,0,0,0,
  0,0,0,0,0,0,0,0,0,0,0,0,
  2,2,2,2,0,0,0,0,0,0,0,0,
  0,0,0,0,0,0,0,0,0,0,0,0,
  0,0,0,0,0,0,0,0,0,0,0,0,
  0,0,0,0,0,0,0,0,0,0,0,0,
  0,0,0,0,0,0,1,0,0,0,0,0,
  0,0,0,0,0,0,0,0,0,0,0,0,
  0,0,0,0,0,0,0,0,0,0,0,0,
  0,0,0,0,0,0,0,0,0,0,0,0,
  0,0,0,0,0,0,0,0,0,0,0,0,
  0,0,0,0,0,0,0,0,0,0,0,0], rfl⟩

/-- One white four at `(2,0) .. (2,3)`, open at `(2,4)`; black stones at
`(6,6)` and `(6,7)`. -/
def board_one_four : Board := ⟨[
  0,0,0,0,0,0,0,0,0,0,0,0,
  0,0,0,0,0,0,0,0,0,0,0,0,
  2,2,2,2,0,0,0,0,0,0,0,0,
  0,0,0,0,0,0,0,0,0,0,0,0,
  0,0,0,0,0,0,0,0,0,0,0,0,
  0,0,0,0,0,0,0,0,0,0,0,0,
  0,0,0,0,0,0,1,1,0,0,0,0,
  0,0,0,0,0,0,0,0,0,0,0,0,
  0,0,0,0,0,0,0,0,0,0,0,0,
  0,0,0,0,0,0,0,0,0,0,0,0,
  0,0,0,0,0,0,0,0,0,0,0,0,
  0,0,0,0,0,0,0,0,0,0,0,0], rfl⟩

/-- The board with all 144 cells empty. -/
def board_empty : Board := ⟨List.replicate 144 0, rfl⟩

/-- Base score of a run of total length `T` (spec §4.3). -/
def base_score (T : Int) : Int :=
  if T ≥ 5 then 1000000
  else if T = 4 then 10000
  else if T = 3 then 1000
  else if T = 2 then 100
  else if T = 1 then 10
  else 0

/-- The per-axis result of C10 for the stone `(x, y)` of side `color` along
the axis `d`: the base score of the run total, divided (truncating) by 10 if
both cells beyond the ends of the run are blocked, by 3 if exactly one is. -/
def axis_result (b : Board) (x y color : Int) (d : Int × Int) : Int :=
  let forward := count_line b x y d.1 d.2 color
  let backward := count_line b x y (-d.1) (-d.2) color
  let T := forward + backward - 1
  let front := end_blocked b (x + forward * d.1) (y + forward * d.2) color
  let back := end_blocked b (x - backward * d.1) (y - backward * d.2) color
  if front && back then Int.tdiv (base_score T) 10
  else if front || back then Int.tdiv (base_score T) 3
  else base_score T

/-- The value C10 claims for `evaluate_position`: the sum of the per-axis
results over the four axes. -/
def per_axis_sum (b : Board) (x y color : Int) : Int :=
  (dirs.map (axis_result b x y color)).sum

/-- A single black stone in the corner `(0, 0)`. -/
def board_corner : Board := ⟨[
  1,0,0,0,0,0,0,0,0,0,0,0,
  0,0,0,0,0,0,0,0,0,0,0,0,
  0,0,0,0,0,0,0,0,0,0,0,0,
  0,0,0,0,0,0,0,0,0,0,0,0,
  0,0,0,0,0,0,0,0,0,0,0,0,
  0,0,0,0,0,0,0,0,0,0,0,0,
  0,0,0,0,0,0,0,0,0,0,0,0,
  0,0,0,0,0,0,0,0,0,0,0,0,
  0,0,0,0,0,0,0,0,0,0,0,0,
  0,0,0,0,0,0,0,0,0,0,0,0,
  0,0,0,0,0,0,0,0,0,0,0,0,
  0,0,0,0,0,0,0,0,0,0,0,0], rfl⟩

/-- A full board except for the corner cells `(0,0)`, `(0,1)`, `(1,0)`,
`(1,1)`.  Black has the diagonal four `(1,2)`, `(2,3)`, `(3,4)`, `(4,5)`, so
`(0,1)` wins for black; black also has a long anti-diagonal, which makes the
static evaluation exceed `WIN_SCORE`. -/
def board_parity : Board := ⟨[
  0,0,1,2,1,2,1,2,1,2,1,2,
  0,0,1,2,1,2,1,2,1,2,1,2,
  2,1,2,1,2,1,2,1,2,1,2,1,
  2,1,2,1,1,1,2,1,2,1,1,1,
  1,2,1,2,1,1,1,2,1,1,1,2,
  1,2,1,2,1,2,2,2,1,2,1,2,
  2,1,2,1,2,1,2,1,2,1,2,1,
  2,1,2,1,2,1,1,1,2,1,2,1,
  1,2,1,2,1,1,1,2,1,2,1,2,
  1,2,1,2,1,2,1,2,1,2,1,2,
  2,1,2,1,2,1,2,1,2,1,2,1,
  2,1,1,1,2,1,2,1,2,1,2,1], rfl⟩

/-- Every static evaluation computed by the unpruned search to depth `d`
from the state `s` (side to move given by `flag`) lies in
`[-WIN_SCORE, WIN_SCORE]`.  At an inner node the candidates are inspected up
to the first immediate win, as the search does. -/
def evals_bounded : Nat → Bool → GameState → Bool
  | 0, _, s => decide (-WIN_SCORE ≤ evaluate_board s ∧ evaluate_board s ≤ WIN_SCORE)
  | d + 1, flag, s =>
    if (generate_moves s.board).length = 0 then
      decide (-WIN_SCORE ≤ evaluate_board s ∧ evaluate_board s ≤ WIN_SCORE)
    else
      ((generate_moves s.board).takeWhile fun p =>
          !wins_at s.board (if flag then s.my_color else s.opponent_color) p).all fun p =>
        evals_bounded d (!flag)
          (make_move s p.1 p.2 (if flag then s.my_color else s.opponent_color))

/-- Relation between the unpruned value `V` of a node and the value `R`
returned by the pruned search with window `(α, β)`. -/
def ab_spec (V R α β : Int) : Prop :=
  -WIN_SCORE ≤ R ∧ R ≤ WIN_SCORE ∧ (V ≤ α → R ≤ α) ∧ (α < V → V < β → R = V) ∧
    (β ≤ V → β ≤ R)

/-- The pruned search `search` and the unpruned search `usearch` agree, in the
sense of `ab_spec`, on every state of the game `c0`. -/
def child_ok (search : Int → Int → GameState → Int × GameState)
    (usearch : GameState → Int × GameState) (c0 : GameState) : Prop :=
  ∀ t u, same_game c0 t → same_game c0 u →
    (-WIN_SCORE ≤ (usearch u).1 ∧ (usearch u).1 ≤ WIN_SCORE) ∧
      ∀ α β, INT_MIN ≤ α → α < β → β ≤ INT_MAX →
        ab_spec (usearch u).1 (search α β t).1 α β

/-- The candidates up to the first immediate win all satisfy `ok`. -/
def loop_ok (win : Int × Int → Bool) (ok : Int × Int → Prop) : List (Int × Int) → Prop
  | [] => True
  | p :: rest => win p = true ∨ (ok p ∧ loop_ok win ok rest)

/-- A full board (no empty cell), with no five in a row. -/
def board_full : Board := ⟨[
  1,2,1,2,1,2,1,2,1,2,1,2,
  1,2,1,2,1,2,1,2,1,2,1,2,
  2,1,2,1,2,1,2,1,2,1,2,1,
  2,1,2,1,2,1,2,1,2,1,2,1,
  1,2,1,2,1,2,1,2,1,2,1,2,
  1,2,1,2,1,2,1,2,1,2,1,2,
  2,1,2,1,2,1,2,1,2,1,2,1,
  2,1,2,1,2,1,2,1,2,1,2,1,
  1,2,1,2,1,2,1,2,1,2,1,2,
  1,2,1,2,1,2,1,2,1,2,1,2,
  2,1,2,1,2,1,2,1,2,1,2,1,
  2,1,2,1,2,1,2,1,2,1,2,1], rfl⟩

/-- The score of the root candidate `p` when the deadline is never exceeded:
the value of `minimax(MAX_DEPTH - 1, INT_MIN, INT_MAX, 0, ...)` after my stone
is placed at `p`. -/
def root_score (s : GameState) (p : Int × Int) : Int :=
  (minimax never_late (MAX_DEPTH - 1) INT_MIN INT_MAX false
    (make_move s p.1 p.2 s.my_color)).1

/-- The only stones of `b` are three stones of `c` at `(x, y) + k * (dx, dy)`,
`k = 0, 1, 2`: every other cell of the board is empty. -/
def lone_three (b : Board) (c x y dx dy : Int) : Prop :=
  holds b c x y ∧ holds b c (x + dx) (y + dy) ∧ holds b c (x + 2 * dx) (y + 2 * dy) ∧
    ∀ p ∈ cells, ¬ (p.1 = x ∧ p.2 = y) → ¬ (p.1 = x + dx ∧ p.2 = y + dy) →
      ¬ (p.1 = x + 2 * dx ∧ p.2 = y + 2 * dy) → b.cell p.1 p.2 = EMPTY

instance (b : Board) (c x y dx dy : Int) : Decidable (lone_three b c x y dx dy) := by
  unfold lone_three; infer_instance

/-- Three black stones `(0,1), (0,2), (0,3)` along the top border. -/
def board_edge_three : Board := ⟨[
  0,1,1,1,0,0,0,0,0,0,0,0,
  0,0,0,0,0,0,0,0,0,0,0,0,
  0,0,0,0,0,0,0,0,0,0,0,0,
  0,0,0,0,0,0,0,0,0,0,0,0,
  0,0,0,0,0,0,0,0,0,0,0,0,
  0,0,0,0,0,0,0,0,0,0,0,0,
  0,0,0,0,0,0,0,0,0,0,0,0,
  0,0,0,0,0,0,0,0,0,0,0,0,
  0,0,0,0,0,0,0,0,0,0,0,0,
  0,0,0,0,0,0,0,0,0,0,0,0,
  0,0,0,0,0,0,0,0,0,0,0,0,
  0,0,0,0,0,0,0,0,0,0,0,0], rfl⟩

/-- Three black stones `(5,4), (5,5), (5,6)` away from the border. -/
def board_mid_three : Board := ⟨[
  0,0,0,0,0,0,0,0,0,0,0,0,
  0,0,0,0,0,0,0,0,0,0,0,0,
  0,0,0,0,0,0,0,0,0,0,0,0,
  0,0,0,0,0,0,0,0,0,0,0,0,
  0,0,0,0,0,0,0,0,0,0,0,0,
  0,0,0,0,1,1,1,0,0,0,0,0,
  0,0,0,0,0,0,0,0,0,0,0,0,
  0,0,0,0,0,0,0,0,0,0,0,0,
  0,0,0,0,0,0,0,0,0,0,0,0,
  0,0,0,0,0,0,0,0,0,0,0,0,
  0,0,0,0,0,0,0,0,0,0,0,0,
  0,0,0,0,0,0,0,0,0,0,0,0], rfl⟩

/-- Base score of the run through `(x, y)` along the axis `d`. -/
def axis_base (b : Board) (x y color : Int) (d : Int × Int) : Int :=
  base_score (count_line b x y d.1 d.2 color + count_line b x y (-d.1) (-d.2) color - 1)

/-- Divisor for the axis `d`: 10 if both cells beyond the ends of the run are
blocked, 3 if exactly one is, 1 otherwise. -/
def axis_divisor (b : Board) (x y color : Int) (d : Int × Int) : Int :=
  let forward := count_line b x y d.1 d.2 color
  let backward := count_line b x y (-d.1) (-d.2) color
  let front := end_blocked b (x + forward * d.1) (y + forward * d.2) color
  let back := end_blocked b (x - backward * d.1) (y - backward * d.2) color
  if front && back then 10
  else if front || back then 3
  else 1

/-- The value of the amended C10: one accumulator run over the four axes in
order, starting from 0; for each axis the base score of the axis is added and
the accumulated score is then divided (truncating) by the divisor of the
axis. -/
def accumulated_score (b : Board) (x y color : Int) : Int :=
  dirs.foldl
    (fun acc d => Int.tdiv (acc + axis_base b x y color d) (axis_divisor b x y color d)) 0

/-- A black stone at `(5, 5)` with a white stone next to it at `(5, 6)`. -/
def board_blocked_pair : Board := ⟨[
  0,0,0,0,0,0,0,0,0,0,0,0,
  0,0,0,0,0,0,0,0,0,0,0,0,
  0,0,0,0,0,0,0,0,0,0,0,0,
  0,0,0,0,0,0,0,0,0,0,0,0,
  0,0,0,0,0,0,0,0,0,0,0,0,
  0,0,0,0,0,1,2,0,0,0,0,0,
  0,0,0,0,0,0,0,0,0,0,0,0,
  0,0,0,0,0,0,0,0,0,0,0,0,
  0,0,0,0,0,0,0,0,0,0,0,0,
  0,0,0,0,0,0,0,0,0,0,0,0,
  0,0,0,0,0,0,0,0,0,0,0,0,
  0,0,0,0,0,0,0,0,0,0,0,0], rfl⟩

/-- Number of cells of the board holding `c`. -/
def stones (b : Board) (c : Int) : Nat :=
  cells.countP fun p => decide (b.cell p.1 p.2 = c)

/-! # Theorems -/


/-! ## Board access -/

theorem cell_set_cell (b : Board) (x y v i j : Int)
    (hx : in_board x y) (hi : in_board i j) :
    (set_cell b x y v).cell i j = if i = x ∧ j = y then v else b.cell i j := by
  obtain ⟨h1, h2, h3, h4⟩ := hx
  obtain ⟨h5, h6, h7, h8⟩ := hi
  simp only [BOARD_SIZE] at *
  unfold Board.cell set_cell
  simp only [List.getD_eq_getElem?_getD, List.getElem?_set]
  have hlen := b.size_eq
  by_cases h : i = x ∧ j = y
  · obtain ⟨rfl, rfl⟩ := h
    have : (i * 12 + j).toNat < b.cells.length := by omega
    simp [this]
  · have : (x * 12 + y).toNat ≠ (i * 12 + j).toNat := by
      intro he
      apply h
      omega
    simp [this, h]

theorem board_ext (b c : Board)
    (h : ∀ i j, in_board i j → b.cell i j = c.cell i j) : b = c := by
  obtain ⟨bl, hb⟩ := b
  obtain ⟨cl, hc⟩ := c
  have : bl = cl := by
    apply List.ext_getElem (by rw [hb, hc])
    intro n h1 h2
    have hn : n < 144 := by omega
    have := h ((n / 12 : Nat) : Int) ((n % 12 : Nat) : Int)
      ⟨by omega, by simp only [BOARD_SIZE]; omega, by omega, by simp only [BOARD_SIZE]; omega⟩
    simp only [Board.cell, BOARD_SIZE] at this
    have hidx : ((((n / 12 : Nat) : Int)) * 12 + ((n % 12 : Nat) : Int)).toNat = n := by omega
    rw [hidx] at this
    simpa [List.getD_eq_getElem?_getD, h1, h2] using this
  subst this
  rfl

/-! ## Line scanning -/

theorem line_loop_count (b : Board) (dx dy color : Int) (fuel : Nat) :
    ∀ (nx ny count : Int),
      line_loop b dx dy color fuel nx ny count
        = count + line_loop b dx dy color fuel nx ny 0 := by
  induction fuel with
  | zero => intro nx ny count; simp [line_loop]
  | succ n ih =>
    intro nx ny count
    simp only [line_loop]
    split
    · rw [ih (nx + dx) (ny + dy) (count + 1), ih (nx + dx) (ny + dy) (0 + 1)]
      omega
    · omega

theorem line_loop_nonneg (b : Board) (dx dy color : Int) (fuel : Nat) :
    ∀ (nx ny : Int), 0 ≤ line_loop b dx dy color fuel nx ny 0 ∧
      line_loop b dx dy color fuel nx ny 0 ≤ fuel := by
  induction fuel with
  | zero => intro nx ny; simp [line_loop]
  | succ n ih =>
    intro nx ny
    simp only [line_loop]
    split_ifs with hc
    · rw [line_loop_count]
      have := ih (nx + dx) (ny + dy)
      push_cast
      omega
    · clear hc
      omega

/-- Every cell counted by the loop is on the board and holds `color`. -/
theorem line_loop_holds (b : Board) (dx dy color : Int) (fuel : Nat) :
    ∀ (nx ny : Int) (t : Nat), (t : Int) < line_loop b dx dy color fuel nx ny 0 →
      holds b color (nx + t * dx) (ny + t * dy) := by
  induction fuel with
  | zero => intro nx ny t ht; simp [line_loop] at ht; omega
  | succ n ih =>
    intro nx ny t ht
    simp only [line_loop] at ht
    split at ht
    · rename_i hc
      cases t with
      | zero => simpa [holds] using hc
      | succ t =>
        rw [line_loop_count] at ht
        have := ih (nx + dx) (ny + dy) t (by push_cast at ht; omega)
        have e1 : nx + dx + (t : Int) * dx = nx + ((t + 1 : Nat) : Int) * dx := by
          push_cast; ring
        have e2 : ny + dy + (t : Int) * dy = ny + ((t + 1 : Nat) : Int) * dy := by
          push_cast; ring
        rwa [e1, e2] at this
    · omega

/-- The loop counts at least every initial stretch of `color` cells that fits
in the budget. -/
theorem line_loop_ge (b : Board) (dx dy color : Int) (fuel : Nat) :
    ∀ (nx ny : Int) (q : Nat), q ≤ fuel →
      (∀ t : Nat, t < q → holds b color (nx + t * dx) (ny + t * dy)) →
      (q : Int) ≤ line_loop b dx dy color fuel nx ny 0 := by
  induction fuel with
  | zero =>
    intro nx ny q hq _
    have : q = 0 := by omega
    subst this
    simp [line_loop]
  | succ n ih =>
    intro nx ny q hq h
    cases q with
    | zero => exact (line_loop_nonneg b dx dy color (n + 1) nx ny).1
    | succ q =>
      simp only [line_loop]
      have h0 := h 0 (by omega)
      simp only [holds, Nat.cast_zero, zero_mul, add_zero] at h0
      rw [if_pos h0, line_loop_count]
      have := ih (nx + dx) (ny + dy) q (by omega) (by
        intro t ht
        have := h (t + 1) (by omega)
        have e1 : nx + dx + (t : Int) * dx = nx + ((t + 1 : Nat) : Int) * dx := by
          push_cast; ring
        have e2 : ny + dy + (t : Int) * dy = ny + ((t + 1 : Nat) : Int) * dy := by
          push_cast; ring
        rwa [e1, e2])
      push_cast
      omega

/-- When the loop stops before its budget is used up, it stopped at a cell
failing the loop condition. -/
theorem line_loop_stop (b : Board) (dx dy color : Int) (fuel : Nat) :
    ∀ (nx ny : Int), line_loop b dx dy color fuel nx ny 0 < fuel →
      ¬ holds b color (nx + line_loop b dx dy color fuel nx ny 0 * dx)
        (ny + line_loop b dx dy color fuel nx ny 0 * dy) := by
  induction fuel with
  | zero => intro nx ny h; simp [line_loop] at h
  | succ n ih =>
    intro nx ny h
    simp only [line_loop] at h ⊢
    split at h
    · rename_i hc
      rw [if_pos hc]
      rw [line_loop_count] at h ⊢
      have := ih (nx + dx) (ny + dy) (by push_cast at h; omega)
      have e1 : nx + dx + line_loop b dx dy color n (nx + dx) (ny + dy) 0 * dx
          = nx + (0 + 1 + line_loop b dx dy color n (nx + dx) (ny + dy) 0) * dx := by ring
      have e2 : ny + dy + line_loop b dx dy color n (nx + dx) (ny + dy) 0 * dy
          = ny + (0 + 1 + line_loop b dx dy color n (nx + dx) (ny + dy) 0) * dy := by ring
      rwa [e1, e2] at this
    · rename_i hc
      rw [if_neg hc]
      simpa [holds] using hc

theorem win_count_eq (b : Board) (x y c : Int) (d : Int × Int) :
    win_count b x y c d
      = 1 + line_loop b d.1 d.2 c LINE_FUEL (x + d.1) (y + d.2) 0
        + line_loop b (-d.1) (-d.2) c LINE_FUEL (x - d.1) (y - d.2) 0 := by
  unfold win_count
  simp only
  rw [line_loop_count, line_loop_count b d.1 d.2]

theorem win_count_ge_five_iff (b : Board) (x y c : Int) (d : Int × Int)
    (hxy : holds b c x y) :
    win_count b x y c d ≥ 5 ↔
      ∃ p q : Nat, p + q + 1 ≥ 5 ∧
        ∀ t : Int, -(p : Int) ≤ t → t ≤ q → holds b c (x + t * d.1) (y + t * d.2) := by
  rw [win_count_eq]
  have hF := line_loop_nonneg b d.1 d.2 c LINE_FUEL (x + d.1) (y + d.2)
  have hB := line_loop_nonneg b (-d.1) (-d.2) c LINE_FUEL (x - d.1) (y - d.2)
  constructor
  · intro h
    refine ⟨(line_loop b (-d.1) (-d.2) c LINE_FUEL (x - d.1) (y - d.2) 0).toNat,
      (line_loop b d.1 d.2 c LINE_FUEL (x + d.1) (y + d.2) 0).toNat, by omega, ?_⟩
    intro t ht1 ht2
    rcases lt_trichotomy t 0 with hneg | hz | hpos
    · have := line_loop_holds b (-d.1) (-d.2) c LINE_FUEL (x - d.1) (y - d.2)
        (-t - 1).toNat (by omega)
      have e : (((-t - 1).toNat : Nat) : Int) = -t - 1 := by omega
      rw [e] at this
      have e1 : x - d.1 + (-t - 1) * -d.1 = x + t * d.1 := by ring
      have e2 : y - d.2 + (-t - 1) * -d.2 = y + t * d.2 := by ring
      rwa [e1, e2] at this
    · subst hz
      simpa using hxy
    · have := line_loop_holds b d.1 d.2 c LINE_FUEL (x + d.1) (y + d.2)
        (t - 1).toNat (by omega)
      have e : (((t - 1).toNat : Nat) : Int) = t - 1 := by omega
      rw [e] at this
      have e1 : x + d.1 + (t - 1) * d.1 = x + t * d.1 := by ring
      have e2 : y + d.2 + (t - 1) * d.2 = y + t * d.2 := by ring
      rwa [e1, e2] at this
  · rintro ⟨p, q, hpq, h⟩
    have h1 := line_loop_ge b d.1 d.2 c LINE_FUEL (x + d.1) (y + d.2) (min q 12)
      (by simp [LINE_FUEL]) (by
        intro t ht
        have := h ((t : Int) + 1) (by omega) (by omega)
        have e1 : x + d.1 + (t : Int) * d.1 = x + ((t : Int) + 1) * d.1 := by ring
        have e2 : y + d.2 + (t : Int) * d.2 = y + ((t : Int) + 1) * d.2 := by ring
        rwa [e1, e2])
    have h2 := line_loop_ge b (-d.1) (-d.2) c LINE_FUEL (x - d.1) (y - d.2) (min p 12)
      (by simp [LINE_FUEL]) (by
        intro t ht
        have := h (-(t : Int) - 1) (by omega) (by omega)
        have e1 : x - d.1 + (t : Int) * -d.1 = x + (-(t : Int) - 1) * d.1 := by ring
        have e2 : y - d.2 + (t : Int) * -d.2 = y + (-(t : Int) - 1) * d.2 := by ring
        rwa [e1, e2])
    omega

/-! ## C1: win detection -/

/-- A run of at least five cells of `c` through the stone `(x, y)` along one
of the scanned directions makes `check_win` true. -/
theorem check_win_of_run (b : Board) (x y c : Int) (hxy : holds b c x y) (d : Int × Int)
    (hd : d ∈ dirs) (p q : Nat) (hpq : p + q + 1 ≥ 5)
    (h : ∀ t : Int, -(p : Int) ≤ t → t ≤ q → holds b c (x + t * d.1) (y + t * d.2)) :
    check_win b x y c = true := by
  unfold check_win
  simp only [List.any_eq_true, decide_eq_true_eq]
  exact ⟨d, hd, (win_count_ge_five_iff b x y c d hxy).2 ⟨p, q, hpq, h⟩⟩

/-- C1 (as amended): for every board, every on-board coordinate `(x, y)` and
every side `c` such that the cell `(x, y)` holds `c` (the stone just placed),
`check_win` returns true if and only if along one of the four axes there are
at least 5 consecutive on-board cells that all hold `c` and one of which is
`(x, y)`. -/
theorem check_win_iff_five_through (b : Board) (x y c : Int) (hxy : holds b c x y) :
    check_win b x y c = true ↔ five_through b x y c := by
  unfold check_win five_through
  simp only [List.any_eq_true, decide_eq_true_eq]
  constructor
  · rintro ⟨d, hd, h⟩
    refine ⟨d, ?_, (win_count_ge_five_iff b x y c d hxy).1 h⟩
    simpa [dirs] using hd
  · rintro ⟨d, hd, h⟩
    refine ⟨d, ?_, (win_count_ge_five_iff b x y c d hxy).2 h⟩
    simpa [dirs] using hd

set_option maxRecDepth 1000000 in
/-- Instance of `check_win_iff_five_through` on `board_five` at `(0, 2)`. -/
theorem check_win_iff_five_through_witness :
    holds board_five 1 0 2 ∧
      (check_win board_five 0 2 1 = true ↔ five_through board_five 0 2 1) :=
  ⟨by decide, check_win_iff_five_through board_five 0 2 1 (by decide)⟩

set_option maxRecDepth 1000000 in
/-- C1 as stated fails: on `board_four` the empty cell `(0, 0)` has four black
stones to its right, so `check_win 0 0 BLACK` is true although no five
consecutive black cells contain `(0, 0)`. -/
theorem check_win_not_iff_five_through :
    ¬ ∀ (b : Board) (x y c : Int), check_win b x y c = true ↔ five_through b x y c := by
  intro h
  have h1 : check_win board_four 0 0 1 = true := by decide
  obtain ⟨d, _, p, q, _, hall⟩ := (h board_four 0 0 1).1 h1
  have h0 := hall 0 (by omega) (by omega)
  simp only [zero_mul, add_zero] at h0
  exact absurd h0 (by decide)

/-- With a unit step (each component -1, 0 or 1, not both 0: the eight steps
used by `check_win` and `evaluate_position`) a line loop counts at most
`BOARD_SIZE` cells, whatever its budget. -/
theorem line_loop_le_board (b : Board) (dx dy color : Int) (fuel : Nat) (nx ny : Int)
    (hdx : dx = -1 ∨ dx = 0 ∨ dx = 1) (hdy : dy = -1 ∨ dy = 0 ∨ dy = 1)
    (hd : dx ≠ 0 ∨ dy ≠ 0) :
    line_loop b dx dy color fuel nx ny 0 ≤ 12 := by
  by_contra hlt
  have h0 := line_loop_holds b dx dy color fuel nx ny 0 (by push_cast; omega)
  have h12 := line_loop_holds b dx dy color fuel nx ny 12 (by push_cast; omega)
  simp only [holds, BOARD_SIZE] at h0 h12
  push_cast at h0 h12
  rcases hdx with rfl | rfl | rfl <;> rcases hdy with rfl | rfl | rfl <;> omega

/-- The iteration budget is never what stops a line loop with a unit step:
with any budget of at least `BOARD_SIZE` the loop returns the same count as
with `LINE_FUEL`, and the cell reached after that many steps fails the loop
condition. -/
theorem line_loop_fuel_enough (b : Board) (dx dy color : Int) (fuel : Nat) (nx ny : Int)
    (hdx : dx = -1 ∨ dx = 0 ∨ dx = 1) (hdy : dy = -1 ∨ dy = 0 ∨ dy = 1)
    (hd : dx ≠ 0 ∨ dy ≠ 0) (hfuel : LINE_FUEL ≤ fuel) :
    line_loop b dx dy color fuel nx ny 0 = line_loop b dx dy color LINE_FUEL nx ny 0 ∧
      ¬ holds b color (nx + line_loop b dx dy color LINE_FUEL nx ny 0 * dx)
        (ny + line_loop b dx dy color LINE_FUEL nx ny 0 * dy) := by
  have hL : LINE_FUEL = 12 := rfl
  have hL2 : ((LINE_FUEL : Nat) : Int) = 12 := rfl
  have hk := line_loop_le_board b dx dy color LINE_FUEL nx ny hdx hdy hd
  have hk0 := (line_loop_nonneg b dx dy color LINE_FUEL nx ny).1
  have hstop : ¬ holds b color (nx + line_loop b dx dy color LINE_FUEL nx ny 0 * dx)
      (ny + line_loop b dx dy color LINE_FUEL nx ny 0 * dy) := by
    by_cases hlt : line_loop b dx dy color LINE_FUEL nx ny 0 < (LINE_FUEL : Nat)
    · exact line_loop_stop b dx dy color LINE_FUEL nx ny hlt
    · have h12 : line_loop b dx dy color LINE_FUEL nx ny 0 = 12 := by
        have hc : ((LINE_FUEL : Nat) : Int) = 12 := rfl
        omega
      have h0 := line_loop_holds b dx dy color LINE_FUEL nx ny 0 (by rw [h12]; decide)
      have h11 := line_loop_holds b dx dy color LINE_FUEL nx ny 11 (by rw [h12]; decide)
      rw [h12]
      simp only [holds, BOARD_SIZE] at h0 h11 ⊢
      push_cast at h0 h11
      rcases hdx with rfl | rfl | rfl <;> rcases hdy with rfl | rfl | rfl <;> omega
  refine ⟨?_, hstop⟩
  have hge := line_loop_ge b dx dy color fuel nx ny
    (line_loop b dx dy color LINE_FUEL nx ny 0).toNat (by omega) (by
      intro t ht
      exact line_loop_holds b dx dy color LINE_FUEL nx ny t (by omega))
  by_contra hne
  have hgt : line_loop b dx dy color LINE_FUEL nx ny 0 < line_loop b dx dy color fuel nx ny 0 := by
    omega
  have := line_loop_holds b dx dy color fuel nx ny
    (line_loop b dx dy color LINE_FUEL nx ny 0).toNat (by omega)
  have e : (((line_loop b dx dy color LINE_FUEL nx ny 0).toNat : Nat) : Int)
      = line_loop b dx dy color LINE_FUEL nx ny 0 := by omega
  rw [e] at this
  exact hstop this

/-! ## Cells, candidates and the make/undo frame -/

theorem mem_cells (p : Int × Int) : p ∈ cells ↔ in_board p.1 p.2 := by
  obtain ⟨x, y⟩ := p
  have h12 : BOARD_SIZE.toNat = 12 := rfl
  unfold cells in_board
  rw [h12]
  simp only [BOARD_SIZE, List.mem_flatMap, List.mem_map, List.mem_range, Prod.mk.injEq]
  constructor
  · rintro ⟨i, hi, j, hj, rfl, rfl⟩
    omega
  · rintro ⟨h1, h2, h3, h4⟩
    exact ⟨x.toNat, by omega, y.toNat, by omega, by omega, by omega⟩

set_option maxRecDepth 1000000 in
theorem cells_length : cells.length = 144 := by decide

theorem is_valid_move_iff (b : Board) (x y : Int) :
    is_valid_move b x y = true ↔ holds b 0 x y := by
  simp [is_valid_move, holds]

/-- Placing a stone on an empty on-board cell and clearing the cell again
gives back the board. -/
theorem set_cell_undo (b : Board) (x y c : Int) (h : holds b 0 x y) :
    set_cell (set_cell b x y c) x y EMPTY = b := by
  have hin : in_board x y := ⟨h.1, h.2.1, h.2.2.1, h.2.2.2.1⟩
  apply board_ext
  intro i j hij
  rw [cell_set_cell _ _ _ _ _ _ hin hij, cell_set_cell _ _ _ _ _ _ hin hij]
  split_ifs with hc
  · obtain ⟨rfl, rfl⟩ := hc
    exact h.2.2.2.2.symm
  · rfl

/-- Every candidate produced by `generate_moves` is an empty on-board cell. -/
theorem generate_moves_valid (b : Board) :
    ∀ p ∈ generate_moves b, holds b 0 p.1 p.2 := by
  intro p hp
  unfold generate_moves at hp
  simp only at hp
  split_ifs at hp with hc
  · have hlen : cells.countP (fun p => decide (b.cell p.1 p.2 = EMPTY)) = cells.length := by
      rw [cells_length]
      simp only [BOARD_SIZE] at hc
      omega
    rw [List.countP_eq_length] at hlen
    simp only [List.mem_singleton] at hp
    subst hp
    have hm : ((6 : Int), (6 : Int)) ∈ cells := (mem_cells (6, 6)).2 (by decide)
    have := hlen _ hm
    simp only [decide_eq_true_eq] at this
    exact ⟨by decide, by decide, by decide, by decide, this⟩
  · simp only [List.mem_filter, Bool.and_eq_true] at hp
    exact (is_valid_move_iff b p.1 p.2).1 hp.2.1

theorem same_game_refl (s : GameState) : same_game s s := ⟨rfl, rfl, rfl⟩

theorem same_game_trans {s t u : GameState} (h1 : same_game s t) (h2 : same_game t u) :
    same_game s u :=
  ⟨h2.1.trans h1.1, h2.2.1.trans h1.2.1, h2.2.2.trans h1.2.2⟩

theorem same_game_tick (s : GameState) : same_game s (tick s) := ⟨rfl, rfl, rfl⟩

/-- Undoing a move after any computation that preserved the game started from
the position with the move made gives back the game before the move. -/
theorem same_game_undo (s t : GameState) (x y c : Int) (h : holds s.board 0 x y)
    (ht : same_game (make_move s x y c) t) : same_game s (undo_move t x y) := by
  obtain ⟨h1, h2, h3⟩ := ht
  refine ⟨?_, h2, h3⟩
  show set_cell t.board x y EMPTY = s.board
  rw [h1]
  exact set_cell_undo s.board x y c h

theorem max_loop_same_game (search : Int → Int → GameState → Int × GameState)
    (hs : ∀ a b t, same_game t (search a b t).2) :
    ∀ (moves : List (Int × Int)) (m a b : Int) (s : GameState),
      (∀ p ∈ moves, holds s.board 0 p.1 p.2) →
      same_game s (max_loop search moves m a b s).2 := by
  intro moves
  induction moves with
  | nil => intro m a b s _; exact same_game_refl s
  | cons p rest ih =>
    intro m a b s hv
    obtain ⟨x, y⟩ := p
    have hxy := hv (x, y) (List.mem_cons_self _ _)
    have hu : same_game s (undo_move (make_move s x y s.my_color) x y) :=
      same_game_undo s _ x y _ hxy (same_game_refl _)
    have hu2 : same_game s
        (undo_move (search a b (make_move s x y s.my_color)).2 x y) :=
      same_game_undo s _ x y _ hxy (hs _ _ _)
    have hrest : ∀ q ∈ rest,
        holds (undo_move (search a b (make_move s x y s.my_color)).2 x y).board 0 q.1 q.2 := by
      intro q hq
      rw [hu2.1]
      exact hv q (List.mem_cons_of_mem _ hq)
    simp only [max_loop]
    split_ifs <;>
      first
        | exact hu
        | exact hu2
        | exact same_game_trans hu2 (ih _ _ _ _ hrest)

theorem min_loop_same_game (search : Int → Int → GameState → Int × GameState)
    (hs : ∀ a b t, same_game t (search a b t).2) :
    ∀ (moves : List (Int × Int)) (m a b : Int) (s : GameState),
      (∀ p ∈ moves, holds s.board 0 p.1 p.2) →
      same_game s (min_loop search moves m a b s).2 := by
  intro moves
  induction moves with
  | nil => intro m a b s _; exact same_game_refl s
  | cons p rest ih =>
    intro m a b s hv
    obtain ⟨x, y⟩ := p
    have hxy := hv (x, y) (List.mem_cons_self _ _)
    have hu : same_game s (undo_move (make_move s x y s.opponent_color) x y) :=
      same_game_undo s _ x y _ hxy (same_game_refl _)
    have hu2 : same_game s
        (undo_move (search a b (make_move s x y s.opponent_color)).2 x y) :=
      same_game_undo s _ x y _ hxy (hs _ _ _)
    have hrest : ∀ q ∈ rest,
        holds (undo_move (search a b (make_move s x y s.opponent_color)).2 x y).board 0 q.1 q.2 := by
      intro q hq
      rw [hu2.1]
      exact hv q (List.mem_cons_of_mem _ hq)
    simp only [min_loop]
    split_ifs <;>
      first
        | exact hu
        | exact hu2
        | exact same_game_trans hu2 (ih _ _ _ _ hrest)

theorem minimax_same_game (late : Nat → Bool) :
    ∀ (depth : Nat) (alpha beta : Int) (flag : Bool) (s : GameState),
      same_game s (minimax late depth alpha beta flag s).2 := by
  intro depth
  induction depth with
  | zero =>
    intro alpha beta flag s
    simp only [minimax]
    split_ifs <;> exact same_game_tick s
  | succ d ih =>
    intro alpha beta flag s
    simp only [minimax]
    split_ifs with h1 h2 h3
    · exact same_game_tick s
    · exact same_game_tick s
    · exact same_game_trans (same_game_tick s)
        (max_loop_same_game _ (fun a b t => ih a b false t) _ _ _ _ _
          (generate_moves_valid _))
    · exact same_game_trans (same_game_tick s)
        (min_loop_same_game _ (fun a b t => ih a b true t) _ _ _ _ _
          (generate_moves_valid _))

/-! ## The root procedure `get_best_move` -/

theorem undo_make_eq (s : GameState) (x y c : Int) (h : holds s.board 0 x y) :
    undo_move (make_move s x y c) x y = s := by
  obtain ⟨b, m, o, t⟩ := s
  simp only [undo_move, make_move]
  congr
  exact set_cell_undo b x y c h

/-- The first loop of `get_best_move` finds the first candidate at which my
stone wins at once, and leaves the state as it found it. -/
theorem win_scan_eq :
    ∀ (moves : List (Int × Int)) (s : GameState),
      (∀ p ∈ moves, holds s.board 0 p.1 p.2) →
      win_scan moves s = (moves.find? (wins_at s.board s.my_color), s) := by
  intro moves
  induction moves with
  | nil => intro s _; rfl
  | cons p rest ih =>
    intro s hv
    obtain ⟨x, y⟩ := p
    have hxy := hv (x, y) (List.mem_cons_self _ _)
    simp only [win_scan, List.find?_cons, undo_make_eq s x y _ hxy]
    by_cases hw : check_win (make_move s x y s.my_color).board x y
        (make_move s x y s.my_color).my_color = true
    · have hw2 : wins_at s.board s.my_color (x, y) = true := hw
      rw [if_pos hw, hw2]
    · have hw2 : wins_at s.board s.my_color (x, y) = false := by
        simpa [wins_at, make_move] using hw
      rw [if_neg hw, hw2]
      exact ih s (fun q hq => hv q (List.mem_cons_of_mem _ hq))

/-- The second loop of `get_best_move` finds the first candidate at which an
opponent stone would win at once, and leaves the state as it found it. -/
theorem block_scan_eq :
    ∀ (moves : List (Int × Int)) (s : GameState),
      (∀ p ∈ moves, holds s.board 0 p.1 p.2) →
      block_scan moves s = (moves.find? (wins_at s.board s.opponent_color), s) := by
  intro moves
  induction moves with
  | nil => intro s _; rfl
  | cons p rest ih =>
    intro s hv
    obtain ⟨x, y⟩ := p
    have hxy := hv (x, y) (List.mem_cons_self _ _)
    simp only [block_scan, List.find?_cons, undo_make_eq s x y _ hxy]
    by_cases hw : check_win (make_move s x y s.opponent_color).board x y
        (make_move s x y s.opponent_color).opponent_color = true
    · have hw2 : wins_at s.board s.opponent_color (x, y) = true := hw
      rw [if_pos hw, hw2]
    · have hw2 : wins_at s.board s.opponent_color (x, y) = false := by
        simpa [wins_at, make_move] using hw
      rw [if_neg hw, hw2]
      exact ih s (fun q hq => hv q (List.mem_cons_of_mem _ hq))

/-- The third loop of `get_best_move` preserves the game and returns either
the initial `best` or one of the candidates. -/
theorem root_loop_spec (late : Nat → Bool) (search : GameState → Int × GameState)
    (hs : ∀ t, same_game t (search t).2) :
    ∀ (moves : List (Int × Int)) (bs : Int) (best : Int × Int) (s : GameState),
      (∀ p ∈ moves, holds s.board 0 p.1 p.2) →
      same_game s (root_loop late search moves bs best s).2.2 ∧
        ((root_loop late search moves bs best s).2.1 = best ∨
          (root_loop late search moves bs best s).2.1 ∈ moves) := by
  intro moves
  induction moves with
  | nil => intro bs best s _; exact ⟨same_game_refl s, Or.inl rfl⟩
  | cons p rest ih =>
    intro bs best s hv
    obtain ⟨x, y⟩ := p
    have hxy := hv (x, y) (List.mem_cons_self _ _)
    have hu : same_game s (undo_move (search (make_move s x y s.my_color)).2 x y) :=
      same_game_undo s _ x y _ hxy (hs _)
    have hu2 : same_game s (tick (undo_move (search (make_move s x y s.my_color)).2 x y)) :=
      same_game_trans hu (same_game_tick _)
    have hrest : ∀ q ∈ rest,
        holds (tick (undo_move (search (make_move s x y s.my_color)).2 x y)).board 0
          q.1 q.2 := by
      intro q hq
      rw [hu2.1]
      exact hv q (List.mem_cons_of_mem _ hq)
    simp only [root_loop]
    split_ifs with h1 h2 h3
    · exact ⟨hu2, Or.inr (List.mem_cons_self _ _)⟩
    · exact ⟨hu2, Or.inl rfl⟩
    · obtain ⟨g1, g2⟩ := ih (search (make_move s x y s.my_color)).1 (x, y) _ hrest
      refine ⟨same_game_trans hu2 g1, Or.inr ?_⟩
      rcases g2 with g | g
      · rw [g]; exact List.mem_cons_self _ _
      · exact List.mem_cons_of_mem _ g
    · obtain ⟨g1, g2⟩ := ih bs best _ hrest
      refine ⟨same_game_trans hu2 g1, ?_⟩
      rcases g2 with g | g
      · exact Or.inl g
      · exact Or.inr (List.mem_cons_of_mem _ g)

/-- The exits of `get_best_move` in terms of the candidate list. -/
theorem get_best_move_with_eq (late : Nat → Bool) (search : GameState → Int × GameState)
    (s : GameState) :
    get_best_move_with late search s =
      if (generate_moves s.board).length = 0 then ((BOARD_SIZE / 2, BOARD_SIZE / 2), s)
      else
        match (generate_moves s.board).find? (wins_at s.board s.my_color) with
        | some p => (p, s)
        | none =>
          match (generate_moves s.board).find? (wins_at s.board s.opponent_color) with
          | some p => (p, s)
          | none =>
            (root_loop late search (generate_moves s.board) INT_MIN
              ((generate_moves s.board).headD (0, 0)) s).2 := by
  unfold get_best_move_with
  simp only [win_scan_eq _ s (generate_moves_valid s.board),
    block_scan_eq _ s (generate_moves_valid s.board)]

/-- Whatever the search procedure, `get_best_move` preserves the game, and
when there are candidates it returns one of them. -/
theorem get_best_move_with_spec (late : Nat → Bool) (search : GameState → Int × GameState)
    (hs : ∀ t, same_game t (search t).2) (s : GameState) :
    same_game s (get_best_move_with late search s).2 ∧
      (generate_moves s.board ≠ [] →
        (get_best_move_with late search s).1 ∈ generate_moves s.board) := by
  rw [get_best_move_with_eq]
  split_ifs with h
  · refine ⟨same_game_refl s, fun hne => ?_⟩
    exact absurd (List.length_eq_zero.1 h) hne
  · cases hw : (generate_moves s.board).find? (wins_at s.board s.my_color) with
    | some p => exact ⟨same_game_refl s, fun _ => List.mem_of_find?_eq_some hw⟩
    | none =>
      cases hb : (generate_moves s.board).find? (wins_at s.board s.opponent_color) with
      | some p => exact ⟨same_game_refl s, fun _ => List.mem_of_find?_eq_some hb⟩
      | none =>
        obtain ⟨g1, g2⟩ := root_loop_spec late search hs (generate_moves s.board) INT_MIN
          ((generate_moves s.board).headD (0, 0)) s (generate_moves_valid s.board)
        refine ⟨g1, fun hne => ?_⟩
        rcases g2 with g | g
        · simp only
          rw [g]
          cases hm : generate_moves s.board with
          | nil => exact absurd hm hne
          | cons a l => simp
        · exact g

theorem get_best_move_spec (late : Nat → Bool) (s : GameState) :
    same_game s (get_best_move late s).2 ∧
      (generate_moves s.board ≠ [] → (get_best_move late s).1 ∈ generate_moves s.board) :=
  get_best_move_with_spec late _ (fun t => minimax_same_game late _ _ _ _ t) s

/-! ## C2: make/undo round trip -/

/-- C2: for every board, depth, alpha/beta window, maximizing flag and every
behaviour of the clock, the board after `minimax` returns is cell-for-cell
the board at the call; the same holds for `get_best_move` on every exit path.
Depths are the natural numbers (the program never passes a negative depth);
the side assignment may be any pair of integers. -/
theorem search_restores_board (late : Nat → Bool) (s : GameState) :
    (∀ (depth : Nat) (alpha beta : Int) (flag : Bool),
        (minimax late depth alpha beta flag s).2.board = s.board ∧
        (∀ x y, in_board x y →
          (minimax late depth alpha beta flag s).2.board.cell x y = s.board.cell x y)) ∧
      (get_best_move late s).2.board = s.board ∧
      (∀ x y, in_board x y → (get_best_move late s).2.board.cell x y = s.board.cell x y) := by
  refine ⟨fun depth alpha beta flag => ?_, ?_, ?_⟩
  · have h := (minimax_same_game late depth alpha beta flag s).1
    exact ⟨h, fun x y _ => by rw [h]⟩
  · exact (get_best_move_spec late s).1.1
  · intro x y _
    rw [(get_best_move_spec late s).1.1]

/-! ## Candidates and immediate wins -/

theorem has_adjacent_stone_iff (b : Board) (x y : Int) :
    has_adjacent_stone b x y = true ↔
      ∃ u v : Int, in_board u v ∧ chebyshev_adjacent x y u v ∧ b.cell u v ≠ EMPTY := by
  unfold has_adjacent_stone
  simp only [List.any_eq_true]
  constructor
  · rintro ⟨i, hi, j, hj, h⟩
    simp only [List.mem_cons, List.mem_singleton, List.not_mem_nil, or_false] at hi hj
    split_ifs at h with h0
    simp only [decide_eq_true_eq] at h
    refine ⟨x + i, y + j, ⟨h.1, h.2.1, h.2.2.1, h.2.2.2.1⟩, ?_, h.2.2.2.2⟩
    unfold chebyshev_adjacent
    omega
  · rintro ⟨u, v, hin, hadj, hne⟩
    unfold chebyshev_adjacent at hadj
    refine ⟨u - x, ?_, v - y, ?_, ?_⟩
    · simp only [List.mem_cons, List.mem_singleton, List.not_mem_nil, or_false]
      omega
    · simp only [List.mem_cons, List.mem_singleton, List.not_mem_nil, or_false]
      omega
    · have h0 : ¬ (u - x = 0 ∧ v - y = 0) := by omega
      rw [if_neg h0]
      have e1 : x + (u - x) = u := by ring
      have e2 : y + (v - y) = v := by ring
      rw [e1, e2]
      simp only [decide_eq_true_eq]
      exact ⟨hin.1, hin.2.1, hin.2.2.1, hin.2.2.2, hne⟩

/-- A cell at which a stone of colour `c ≠ EMPTY` wins at once has a
neighbouring stone. -/
theorem wins_at_adjacent (b : Board) (c : Int) (p : Int × Int) (hc : c ≠ EMPTY)
    (hp : in_board p.1 p.2) (hw : wins_at b c p = true) :
    has_adjacent_stone b p.1 p.2 = true := by
  obtain ⟨x, y⟩ := p
  simp only [wins_at, check_win, List.any_eq_true, decide_eq_true_eq] at hw
  obtain ⟨d, hd, h5⟩ := hw
  rw [win_count_eq] at h5
  rw [has_adjacent_stone_iff]
  have hF := line_loop_nonneg (set_cell b x y c) d.1 d.2 c LINE_FUEL (x + d.1) (y + d.2)
  have hB := line_loop_nonneg (set_cell b x y c) (-d.1) (-d.2) c LINE_FUEL (x - d.1) (y - d.2)
  have hd2 : (d.1 = 0 ∨ d.1 = 1) ∧ (d.2 = -1 ∨ d.2 = 0 ∨ d.2 = 1) ∧ (d.1 ≠ 0 ∨ d.2 ≠ 0) := by
    simp only [dirs, List.mem_cons, List.mem_singleton, List.not_mem_nil, or_false] at hd
    rcases hd with rfl | rfl | rfl | rfl <;> simp
  by_cases h1 : 1 ≤ line_loop (set_cell b x y c) d.1 d.2 c LINE_FUEL (x + d.1) (y + d.2) 0
  · have h := line_loop_holds (set_cell b x y c) d.1 d.2 c LINE_FUEL (x + d.1) (y + d.2) 0
      (by push_cast; omega)
    simp only [Nat.cast_zero, zero_mul, add_zero] at h
    have hin : in_board (x + d.1) (y + d.2) := ⟨h.1, h.2.1, h.2.2.1, h.2.2.2.1⟩
    have hcell := h.2.2.2.2
    rw [cell_set_cell _ _ _ _ _ _ hp hin] at hcell
    have hne : ¬ (x + d.1 = x ∧ y + d.2 = y) := by omega
    rw [if_neg hne] at hcell
    refine ⟨x + d.1, y + d.2, hin, ?_, by rw [hcell]; exact hc⟩
    unfold chebyshev_adjacent
    omega
  · have h := line_loop_holds (set_cell b x y c) (-d.1) (-d.2) c LINE_FUEL (x - d.1) (y - d.2) 0
      (by push_cast; omega)
    simp only [Nat.cast_zero, zero_mul, add_zero] at h
    have hin : in_board (x - d.1) (y - d.2) := ⟨h.1, h.2.1, h.2.2.1, h.2.2.2.1⟩
    have hcell := h.2.2.2.2
    rw [cell_set_cell _ _ _ _ _ _ hp hin] at hcell
    have hne : ¬ (x - d.1 = x ∧ y - d.2 = y) := by omega
    rw [if_neg hne] at hcell
    refine ⟨x - d.1, y - d.2, hin, ?_, by rw [hcell]; exact hc⟩
    unfold chebyshev_adjacent
    omega

theorem find_congr_mem {α : Type} (P Q : α → Bool) :
    ∀ (l : List α), (∀ a ∈ l, P a = Q a) → l.find? P = l.find? Q := by
  intro l
  induction l with
  | nil => intro _; rfl
  | cons a l ih =>
    intro h
    simp only [List.find?_cons]
    rw [h a (List.mem_cons_self _ _), ih (fun x hx => h x (List.mem_cons_of_mem _ hx))]

/-- On a board without stones every on-board cell is empty. -/
theorem all_empty_of_count (b : Board)
    (hc : ((cells.countP fun p => decide (b.cell p.1 p.2 = EMPTY) : Nat) : Int)
      = BOARD_SIZE * BOARD_SIZE) :
    ∀ x y, in_board x y → b.cell x y = EMPTY := by
  intro x y hin
  have hlen : cells.countP (fun p => decide (b.cell p.1 p.2 = EMPTY)) = cells.length := by
    rw [cells_length]
    simp only [BOARD_SIZE] at hc
    omega
  rw [List.countP_eq_length] at hlen
  have := hlen (x, y) ((mem_cells (x, y)).2 hin)
  simpa using this

/-- Searching the candidates for an immediate win of a stone colour finds the
same cell as searching all empty cells of the board in row-major order. -/
theorem find_win_candidates (b : Board) (c : Int) (hc : c ≠ EMPTY) :
    (generate_moves b).find? (wins_at b c)
      = cells.find? (fun q => is_valid_move b q.1 q.2 && wins_at b c q) := by
  unfold generate_moves
  simp only
  split_ifs with h
  · have hall := all_empty_of_count b h
    have hno : ∀ q : Int × Int, in_board q.1 q.2 → wins_at b c q = false := by
      intro q hq
      by_contra hw
      have hadj := wins_at_adjacent b c q hc hq (by simpa using hw)
      rw [has_adjacent_stone_iff] at hadj
      obtain ⟨u, v, hin, _, hne⟩ := hadj
      exact hne (hall u v hin)
    have h1 : ([(BOARD_SIZE / 2, BOARD_SIZE / 2)] : List (Int × Int)).find? (wins_at b c)
        = none := by
      simp only [List.find?_cons, List.find?_nil]
      rw [hno _ (by decide)]
    rw [h1, eq_comm, List.find?_eq_none]
    intro q hq
    rw [hno q ((mem_cells q).1 hq)]
    simp
  · rw [List.find?_filter]
    apply find_congr_mem
    intro q hq
    have hin := (mem_cells q).1 hq
    by_cases hw : wins_at b c q = true
    · have hadj := wins_at_adjacent b c q hc hin hw
      simp [hw, hadj]
    · simp [hw]

/-- The cells are enumerated in strictly increasing row-major order. -/
theorem cells_pairwise : cells.Pairwise row_major_lt := by
  have h12 : BOARD_SIZE.toNat = 12 := rfl
  unfold cells
  rw [h12, List.pairwise_flatMap]
  constructor
  · intro i _
    rw [List.pairwise_map]
    refine List.Pairwise.imp ?_ (List.pairwise_lt_range 12)
    intro a c hac
    right
    exact ⟨rfl, by simpa using hac⟩
  · refine List.Pairwise.imp ?_ (List.pairwise_lt_range 12)
    intro i k hik p hp q hq
    simp only [List.mem_map] at hp hq
    obtain ⟨a, _, rfl⟩ := hp
    obtain ⟨c, _, rfl⟩ := hq
    left
    simpa using hik

/-- In a list sorted by `R`, the element found by `find?` comes before every
other element satisfying the predicate. -/
theorem find_first {α : Type} (R : α → α → Prop) (P : α → Bool) :
    ∀ (l : List α), l.Pairwise R → ∀ p, l.find? P = some p →
      ∀ q ∈ l, P q = true → p = q ∨ R p q := by
  intro l
  induction l with
  | nil => intro _ p hp; simp at hp
  | cons a l ih =>
    intro hpw p hp q hq hPq
    rw [List.pairwise_cons] at hpw
    simp only [List.find?_cons] at hp
    by_cases ha : P a = true
    · rw [ha] at hp
      simp only [Option.some.injEq] at hp
      subst hp
      rcases List.mem_cons.1 hq with h | h
      · exact Or.inl h.symm
      · exact Or.inr (hpw.1 q h)
    · have ha2 : P a = false := by simpa using ha
      rw [ha2] at hp
      rcases List.mem_cons.1 hq with h | h
      · subst h
        exact absurd hPq ha
      · exact ih hpw.2 p hp q h hPq

/-! ## C3: an immediate win is taken -/

/-- C3: for every board on which at least one empty cell would make
`check_win` true for my side when my stone is placed there, `get_best_move`
returns such a cell, namely the first one in row-major order, whatever the
clock does and whatever the opponent threatens; in particular, when exactly
one empty cell completes five, that cell is returned.  My side is a stone
colour (not `EMPTY`). -/
theorem get_best_move_takes_win (late : Nat → Bool) (s : GameState)
    (hmy : s.my_color ≠ EMPTY)
    (hex : ∃ q : Int × Int, holds s.board 0 q.1 q.2 ∧ wins_at s.board s.my_color q = true) :
    holds s.board 0 (get_best_move late s).1.1 (get_best_move late s).1.2 ∧
      wins_at s.board s.my_color (get_best_move late s).1 = true ∧
      (∀ q : Int × Int, holds s.board 0 q.1 q.2 → wins_at s.board s.my_color q = true →
        (get_best_move late s).1 = q ∨ row_major_lt (get_best_move late s).1 q) ∧
      (∀ q : Int × Int, holds s.board 0 q.1 q.2 → wins_at s.board s.my_color q = true →
        (∀ r : Int × Int, holds s.board 0 r.1 r.2 → wins_at s.board s.my_color r = true →
          r = q) →
        (get_best_move late s).1 = q) := by
  obtain ⟨q0, hq0, hw0⟩ := hex
  have hin0 : in_board q0.1 q0.2 := ⟨hq0.1, hq0.2.1, hq0.2.2.1, hq0.2.2.2.1⟩
  have hfind := find_win_candidates s.board s.my_color hmy
  -- the candidate list is not empty and contains a winning cell
  cases hf : cells.find? (fun q => is_valid_move s.board q.1 q.2 && wins_at s.board s.my_color q) with
  | none =>
    rw [List.find?_eq_none] at hf
    have := hf q0 ((mem_cells q0).2 hin0)
    simp [(is_valid_move_iff s.board q0.1 q0.2).2 hq0, hw0] at this
  | some p =>
    rw [hf] at hfind
    have hne : ¬ (generate_moves s.board).length = 0 := by
      intro h0
      rw [List.length_eq_zero.1 h0] at hfind
      simp at hfind
    have hres : (get_best_move late s).1 = p := by
      unfold get_best_move
      rw [get_best_move_with_eq, if_neg hne, hfind]
    rw [hres]
    have hp := List.find?_some hf
    simp only [Bool.and_eq_true] at hp
    have hvalid := (is_valid_move_iff s.board p.1 p.2).1 hp.1
    have hfirst : ∀ q : Int × Int, holds s.board 0 q.1 q.2 →
        wins_at s.board s.my_color q = true → p = q ∨ row_major_lt p q := by
      intro q hq hw
      have hinq : in_board q.1 q.2 := ⟨hq.1, hq.2.1, hq.2.2.1, hq.2.2.2.1⟩
      exact find_first row_major_lt _ cells cells_pairwise p hf q ((mem_cells q).2 hinq)
        (by simp [(is_valid_move_iff s.board q.1 q.2).2 hq, hw])
    refine ⟨hvalid, hp.2, hfirst, ?_⟩
    intro q _ _ huniq
    exact huniq p hvalid hp.2

set_option maxRecDepth 1000000 in
/-- Instance of `get_best_move_takes_win`: black to move on `board_four`. -/
theorem get_best_move_takes_win_witness :
    (get_best_move (fun _ => false) ⟨board_four, BLACK, WHITE, 0⟩).1 = (0, 0) ∨
      row_major_lt (get_best_move (fun _ => false) ⟨board_four, BLACK, WHITE, 0⟩).1 (0, 0) :=
  (get_best_move_takes_win (fun _ => false) ⟨board_four, BLACK, WHITE, 0⟩ (by decide)
    ⟨(0, 0), by decide, by decide⟩).2.2.1 (0, 0) (by decide) (by decide)

/-! ## C4: blocking an open four -/

/-- In a list sorted by `R`, `find?` returns a given element satisfying the
predicate when no element before it satisfies the predicate. -/
theorem find_eq_of_first {α : Type} (R : α → α → Prop) (P : α → Bool) (l : List α)
    (hl : l.Pairwise R) (e : α) (he : e ∈ l) (hP : P e = true)
    (hbefore : ∀ q ∈ l, R q e → P q = false) : l.find? P = some e := by
  cases hf : l.find? P with
  | none =>
    rw [List.find?_eq_none] at hf
    exact absurd hP (hf e he)
  | some p =>
    rcases find_first R P l hl p hf e he hP with h | h
    · rw [h]
    · have h1 := List.find?_some hf
      have h2 := hbefore p (List.mem_of_find?_eq_some hf) h
      rw [h1] at h2
      exact absurd h2 (by simp)

/-- An empty cell at which a stone colour wins at once is a candidate. -/
theorem win_mem_candidates (b : Board) (c : Int) (hc : c ≠ EMPTY) (q : Int × Int)
    (hq : holds b 0 q.1 q.2) (hw : wins_at b c q = true) : q ∈ generate_moves b := by
  have hin : in_board q.1 q.2 := ⟨hq.1, hq.2.1, hq.2.2.1, hq.2.2.2.1⟩
  have hadj := wins_at_adjacent b c q hc hin hw
  unfold generate_moves
  simp only
  split_ifs with h
  · rw [has_adjacent_stone_iff] at hadj
    obtain ⟨u, v, huv, _, hne⟩ := hadj
    exact absurd (all_empty_of_count b h u v huv) hne
  · rw [List.mem_filter]
    refine ⟨(mem_cells q).2 hin, ?_⟩
    simp [(is_valid_move_iff b q.1 q.2).2 hq, hadj]

/-- For a stone colour it is enough to check the candidates: a winning empty
cell always has a neighbouring stone. -/
theorem no_win_for_of_candidates (b : Board) (c : Int) (hc : c ≠ EMPTY)
    (h : (generate_moves b).all (fun q => !wins_at b c q) = true) : no_win_for b c := by
  intro q hq
  by_contra hw
  have hw2 : wins_at b c q = true := by simpa using hw
  rw [List.all_eq_true] at h
  have := h q (win_mem_candidates b c hc q hq hw2)
  simp [hw2] at this

/-- The same check restricted to the cells before `e` in row-major order. -/
theorem no_win_before_of_candidates (b : Board) (c : Int) (hc : c ≠ EMPTY) (e : Int × Int)
    (h : (generate_moves b).all
      (fun q => !decide (row_major_lt q e) || !wins_at b c q) = true) :
    ∀ q : Int × Int, holds b 0 q.1 q.2 → row_major_lt q e → wins_at b c q = false := by
  intro q hq hlt
  by_contra hw
  have hw2 : wins_at b c q = true := by simpa using hw
  rw [List.all_eq_true] at h
  have := h q (win_mem_candidates b c hc q hq hw2)
  simp [hw2, hlt] at this

/-- The open end of a four is an immediate win for the side owning the four. -/
theorem open_four_wins (b : Board) (opp my x y dx dy : Int) (hstep : unit_step dx dy)
    (h4 : open_four b opp my x y dx dy) :
    wins_at b opp (x + 4 * dx, y + 4 * dy) = true := by
  obtain ⟨h0, h1, h2, h3, he, _⟩ := h4
  have hine : in_board (x + 4 * dx) (y + 4 * dy) := ⟨he.1, he.2.1, he.2.2.1, he.2.2.2.1⟩
  -- the five cells `(x, y) + k * (dx, dy)`, `k = 0 .. 4`, on the board with the stone added
  have hcells : ∀ k : Int, 0 ≤ k → k ≤ 4 →
      holds (set_cell b (x + 4 * dx) (y + 4 * dy) opp) opp (x + k * dx) (y + k * dy) := by
    intro k hk0 hk4
    have hk : k = 0 ∨ k = 1 ∨ k = 2 ∨ k = 3 ∨ k = 4 := by omega
    have hb : holds b opp (x + k * dx) (y + k * dy) ∨ k = 4 := by
      rcases hk with rfl | rfl | rfl | rfl | rfl
      · left; simpa using h0
      · left; simpa using h1
      · left; exact h2
      · left; exact h3
      · right; rfl
    rcases hb with hb | rfl
    · have hin : in_board (x + k * dx) (y + k * dy) := ⟨hb.1, hb.2.1, hb.2.2.1, hb.2.2.2.1⟩
      refine ⟨hb.1, hb.2.1, hb.2.2.1, hb.2.2.2.1, ?_⟩
      rw [cell_set_cell _ _ _ _ _ _ hine hin]
      split_ifs
      · rfl
      · exact hb.2.2.2.2
    · refine ⟨he.1, he.2.1, he.2.2.1, he.2.2.2.1, ?_⟩
      rw [cell_set_cell _ _ _ _ _ _ hine hine]
      simp
  unfold wins_at
  have hend := hcells 4 (by omega) (by omega)
  obtain ⟨hdx, hdy, hd⟩ := hstep
  have haxis : (dx, dy) ∈ dirs ∨ (-dx, -dy) ∈ dirs := by
    rcases hdx with rfl | rfl | rfl <;> rcases hdy with rfl | rfl | rfl <;>
      first
        | decide
        | exact absurd hd (by decide)
  rcases haxis with ha | ha
  · refine check_win_of_run _ _ _ _ hend (dx, dy) ha 4 0 (by omega) ?_
    intro t ht1 ht2
    have := hcells (4 + t) (by push_cast at ht1; omega) (by push_cast at ht2; omega)
    have e1 : x + 4 * dx + t * dx = x + (4 + t) * dx := by ring
    have e2 : y + 4 * dy + t * dy = y + (4 + t) * dy := by ring
    simp only
    rwa [e1, e2]
  · refine check_win_of_run _ _ _ _ hend (-dx, -dy) ha 0 4 (by omega) ?_
    intro t ht1 ht2
    have := hcells (4 - t) (by push_cast at ht2; omega) (by push_cast at ht1; omega)
    have e1 : x + 4 * dx + t * -dx = x + (4 - t) * dx := by ring
    have e2 : y + 4 * dy + t * -dy = y + (4 - t) * dy := by ring
    simp only
    rwa [e1, e2]

/-- C4 (as amended): for every board on which the opponent has four
contiguous stones along an axis with exactly one open end, on which no empty
cell is an immediate win for my side, and on which no empty cell that
precedes that open end in row-major order is an immediate win for the
opponent, `get_best_move` returns the coordinate of that open end. -/
theorem get_best_move_blocks_open_four (late : Nat → Bool) (s : GameState)
    (x y dx dy : Int) (hopp : s.opponent_color ≠ EMPTY) (hstep : unit_step dx dy)
    (h4 : open_four s.board s.opponent_color s.my_color x y dx dy)
    (hnowin : no_win_for s.board s.my_color)
    (hfirst : ∀ q : Int × Int, holds s.board 0 q.1 q.2 →
      row_major_lt q (x + 4 * dx, y + 4 * dy) → wins_at s.board s.opponent_color q = false) :
    (get_best_move late s).1 = (x + 4 * dx, y + 4 * dy) := by
  have hwin := open_four_wins s.board _ _ x y dx dy hstep h4
  have he := h4.2.2.2.2.1
  have hine : in_board (x + 4 * dx) (y + 4 * dy) := ⟨he.1, he.2.1, he.2.2.1, he.2.2.2.1⟩
  have hblock : (generate_moves s.board).find? (wins_at s.board s.opponent_color)
      = some (x + 4 * dx, y + 4 * dy) := by
    rw [find_win_candidates s.board _ hopp]
    apply find_eq_of_first row_major_lt _ cells cells_pairwise _ ((mem_cells _).2 hine)
    · simp [(is_valid_move_iff s.board _ _).2 he, hwin]
    · intro q _ hlt
      by_cases hv : is_valid_move s.board q.1 q.2 = true
      · simp [hfirst q ((is_valid_move_iff s.board q.1 q.2).1 hv) hlt]
      · simp [hv]
  have hmine : (generate_moves s.board).find? (wins_at s.board s.my_color) = none := by
    rw [List.find?_eq_none]
    intro q hq
    rw [hnowin q (generate_moves_valid s.board q hq)]
    simp
  have hne : ¬ (generate_moves s.board).length = 0 := by
    intro h0
    rw [List.length_eq_zero.1 h0] at hblock
    simp at hblock
  unfold get_best_move
  rw [get_best_move_with_eq, if_neg hne, hmine, hblock]

set_option maxRecDepth 1000000 in
/-- Instance of `get_best_move_blocks_open_four`: black to move on
`board_one_four` blocks at `(2, 4)`. -/
theorem get_best_move_blocks_open_four_witness :
    (get_best_move (fun _ => false) ⟨board_one_four, BLACK, WHITE, 0⟩).1 = (2, 4) :=
  get_best_move_blocks_open_four (fun _ => false) ⟨board_one_four, BLACK, WHITE, 0⟩
    2 0 0 1 (by decide) (by decide) (by decide)
    (no_win_for_of_candidates _ _ (by decide) (by decide!))
    (no_win_before_of_candidates board_one_four WHITE (by decide) (2, 4) (by decide!))

set_option maxRecDepth 1000000 in
/-- C4 as stated fails: on `board_two_fours` white has an open four in row 2
whose only open end is `(2, 4)` and black has no immediate win, yet
`get_best_move` returns `(0, 4)`, the open end of the other white four, which
comes first in row-major order. -/
theorem get_best_move_not_always_that_end :
    ¬ ∀ (late : Nat → Bool) (s : GameState) (x y dx dy : Int),
        s.my_color = BLACK → s.opponent_color = WHITE → unit_step dx dy →
        open_four s.board s.opponent_color s.my_color x y dx dy →
        no_win_for s.board s.my_color →
        (get_best_move late s).1 = (x + 4 * dx, y + 4 * dy) := by
  intro h
  have h1 := h (fun _ => false) ⟨board_two_fours, BLACK, WHITE, 0⟩ 2 0 0 1 rfl rfl
    (by decide) (by decide) (no_win_for_of_candidates _ _ (by decide) (by decide!))
  have h2 : (get_best_move (fun _ => false) ⟨board_two_fours, BLACK, WHITE, 0⟩).1 = (0, 4) := by
    decide!
  rw [h2] at h1
  exact absurd h1 (by decide)

/-! ## C6: the first move on the empty board -/

set_option maxRecDepth 1000000 in
theorem generate_moves_board_empty : generate_moves board_empty = [(6, 6)] := by decide!

/-- A board all of whose cells are empty is `board_empty`. -/
theorem eq_board_empty (b : Board) (h : ∀ x y, in_board x y → b.cell x y = EMPTY) :
    b = board_empty := by
  apply board_ext
  intro i j hij
  rw [h i j hij]
  show EMPTY = (List.replicate 144 (0 : Int)).getD (i * BOARD_SIZE + j).toNat 0
  rw [List.getD_eq_getElem?_getD, List.getElem?_replicate]
  split_ifs <;> rfl

/-- C6: on the board with all 144 cells empty `get_best_move` returns exactly
`(6, 6) = (BOARD_SIZE / 2, BOARD_SIZE / 2)`, for every side assignment and
every behaviour of the clock. -/
theorem get_best_move_empty_board (late : Nat → Bool) (my opp : Int) (ticks : Nat) :
    (get_best_move late ⟨board_empty, my, opp, ticks⟩).1 = (6, 6) ∧
      ((6 : Int), (6 : Int)) = (BOARD_SIZE / 2, BOARD_SIZE / 2) := by
  have h := (get_best_move_spec late ⟨board_empty, my, opp, ticks⟩).2
  simp only [generate_moves_board_empty] at h
  have h2 := h (by simp)
  simp only [List.mem_singleton] at h2
  exact ⟨h2, by decide⟩

/-! ## C7: the `TURN` step plays a legal move -/

/-- A property of the cells of the grid that agrees on horizontally and
vertically neighbouring cells is constant. -/
theorem grid_const (g : Nat → Nat → Prop)
    (hrow : ∀ i j, i < 12 → j + 1 < 12 → (g i j ↔ g i (j + 1)))
    (hcol : ∀ i j, i + 1 < 12 → j < 12 → (g i j ↔ g (i + 1) j)) :
    ∀ i j, i < 12 → j < 12 → (g i j ↔ g 0 0) := by
  have h0 : ∀ j, j < 12 → (g 0 j ↔ g 0 0) := by
    intro j
    induction j with
    | zero => intro _; rfl
    | succ j ih =>
      intro hj
      exact (hrow 0 j (by omega) hj).symm.trans (ih (by omega))
  intro i
  induction i with
  | zero => intro j _ hj; exact h0 j hj
  | succ i ih =>
    intro j hi hj
    exact (hcol i j hi hj).symm.trans (ih j (by omega) hj)

/-- On a board with an empty cell and a stone, some empty cell has a
neighbouring stone. -/
theorem exists_candidate (b : Board) (hE : ∃ x y, holds b 0 x y)
    (hS : ∃ x y, in_board x y ∧ b.cell x y ≠ EMPTY) :
    ∃ x y, holds b 0 x y ∧ has_adjacent_stone b x y = true := by
  by_contra hno
  have hno2 : ∀ x y u v, in_board x y → in_board u v → chebyshev_adjacent x y u v →
      b.cell x y = 0 → b.cell u v = 0 := by
    intro x y u v hxy huv hadj hz
    by_contra hne
    apply hno
    refine ⟨x, y, ⟨hxy.1, hxy.2.1, hxy.2.2.1, hxy.2.2.2, hz⟩, ?_⟩
    rw [has_adjacent_stone_iff]
    exact ⟨u, v, huv, hadj, hne⟩
  have hconst := grid_const (fun i j => b.cell (i : Int) (j : Int) = 0)
    (by
      intro i j hi hj
      have h1 : in_board (i : Int) (j : Int) := by
        simp only [in_board, BOARD_SIZE]; omega
      have h2 : in_board (i : Int) ((j + 1 : Nat) : Int) := by
        simp only [in_board, BOARD_SIZE]; omega
      constructor
      · exact hno2 _ _ _ _ h1 h2 (by unfold chebyshev_adjacent; omega)
      · exact hno2 _ _ _ _ h2 h1 (by unfold chebyshev_adjacent; omega))
    (by
      intro i j hi hj
      have h1 : in_board (i : Int) (j : Int) := by
        simp only [in_board, BOARD_SIZE]; omega
      have h2 : in_board ((i + 1 : Nat) : Int) (j : Int) := by
        simp only [in_board, BOARD_SIZE]; omega
      constructor
      · exact hno2 _ _ _ _ h1 h2 (by unfold chebyshev_adjacent; omega)
      · exact hno2 _ _ _ _ h2 h1 (by unfold chebyshev_adjacent; omega))
  obtain ⟨x, y, hxy⟩ := hE
  obtain ⟨u, v, huv, hne⟩ := hS
  have hx := hconst x.toNat y.toNat (by have := hxy.2.1; simp only [BOARD_SIZE] at this; omega)
    (by have := hxy.2.2.2.1; simp only [BOARD_SIZE] at this; omega)
  have hu := hconst u.toNat v.toNat (by have := huv.2.1; simp only [BOARD_SIZE] at this; omega)
    (by have := huv.2.2.2; simp only [BOARD_SIZE] at this; omega)
  have ex : ((x.toNat : Nat) : Int) = x := Int.toNat_of_nonneg hxy.1
  have ey : ((y.toNat : Nat) : Int) = y := Int.toNat_of_nonneg hxy.2.2.1
  have eu : ((u.toNat : Nat) : Int) = u := Int.toNat_of_nonneg huv.1
  have ev : ((v.toNat : Nat) : Int) = v := Int.toNat_of_nonneg huv.2.2.1
  simp only [ex, ey] at hx
  simp only [eu, ev] at hu
  exact hne (hu.2 (hx.1 hxy.2.2.2.2))

/-- A board with an empty cell has a candidate move. -/
theorem generate_moves_ne_nil (b : Board) (hE : ∃ x y, holds b 0 x y) :
    generate_moves b ≠ [] := by
  unfold generate_moves
  simp only
  split_ifs with hc
  · simp
  · have hS : ∃ x y, in_board x y ∧ b.cell x y ≠ EMPTY := by
      by_contra hnone
      apply hc
      have hall : ∀ p ∈ cells, decide (b.cell p.1 p.2 = EMPTY) = true := by
        intro p hp
        simp only [decide_eq_true_eq]
        by_contra hne
        exact hnone ⟨p.1, p.2, (mem_cells p).1 hp, hne⟩
      rw [List.countP_eq_length.2 hall, cells_length]
      rfl
    obtain ⟨x, y, hxy, hadj⟩ := exists_candidate b hE hS
    intro hnil
    have hmem : (x, y) ∈ cells.filter
        (fun p => is_valid_move b p.1 p.2 && has_adjacent_stone b p.1 p.2) := by
      rw [List.mem_filter]
      refine ⟨(mem_cells (x, y)).2 ⟨hxy.1, hxy.2.1, hxy.2.2.1, hxy.2.2.2.1⟩, ?_⟩
      simp [(is_valid_move_iff b x y).2 hxy, hadj]
    rw [hnil] at hmem
    simp at hmem

/-- C7: for every board with at least one empty cell and my side a stone
colour, the `TURN` step outputs a coordinate that was on the board and empty
before the step, and the resulting board differs from the previous one at
exactly that cell, which now holds my colour; `get_best_move` itself already
returns that on-board empty cell, so the fallback scan is not taken. -/
theorem turn_step_legal (late : Nat → Bool) (s : GameState) (hmy : s.my_color ≠ EMPTY)
    (hE : ∃ x y, holds s.board 0 x y) :
    ∃ x y, (turn_step late s).1 = some (x, y) ∧ holds s.board 0 x y ∧
      (∀ i j, in_board i j →
        ((turn_step late s).2.board.cell i j ≠ s.board.cell i j ↔ (i = x ∧ j = y))) ∧
      (turn_step late s).2.board.cell x y = s.my_color ∧
      (get_best_move late s).1 = (x, y) ∧
      is_valid_move (get_best_move late s).2.board x y = true := by
  obtain ⟨hsame, hmem⟩ := get_best_move_spec late s
  have hcand := hmem (generate_moves_ne_nil s.board hE)
  have hvalid := generate_moves_valid s.board _ hcand
  have hin : in_board (get_best_move late s).1.1 (get_best_move late s).1.2 :=
    ⟨hvalid.1, hvalid.2.1, hvalid.2.2.1, hvalid.2.2.2.1⟩
  have hv : is_valid_move (get_best_move late s).2.board (get_best_move late s).1.1
      (get_best_move late s).1.2 = true := by
    rw [hsame.1]
    exact (is_valid_move_iff _ _ _).2 hvalid
  refine ⟨(get_best_move late s).1.1, (get_best_move late s).1.2, ?_, hvalid, ?_, ?_, rfl, hv⟩
  · unfold turn_step
    simp only [hv, if_true]
  · intro i j hij
    unfold turn_step
    simp only [hv, if_true]
    rw [hsame.1, cell_set_cell _ _ _ _ _ _ hin hij]
    split_ifs with h
    · obtain ⟨rfl, rfl⟩ := h
      rw [hsame.2.1, hvalid.2.2.2.2]
      simp only [ne_eq, and_self, iff_true]
      exact hmy
    · simp [h]
  · unfold turn_step
    simp only [hv, if_true]
    rw [hsame.1, cell_set_cell _ _ _ _ _ _ hin hin, hsame.2.1]
    simp

set_option maxRecDepth 1000000 in
/-- Instance of `turn_step_legal`: black to move on `board_four`. -/
theorem turn_step_legal_witness :
    ∃ x y, (turn_step (fun _ => false) ⟨board_four, BLACK, WHITE, 0⟩).1 = some (x, y) ∧
      holds board_four 0 x y :=
  (turn_step_legal (fun _ => false) ⟨board_four, BLACK, WHITE, 0⟩ (by decide)
    ⟨0, 0, by decide⟩).imp fun _ h => h.imp fun _ h2 => ⟨h2.1, h2.2.1⟩

/-! ## C8: antisymmetry of the evaluation -/

theorem eval_board_fold_swap (b : Board) (A B : Int) (hAB : A ≠ B) (t u : Nat) :
    ∀ (l : List (Int × Int)) (acc : Int × Int),
      l.foldl (eval_board_step ⟨b, B, A, u⟩) (acc.2, acc.1)
        = ((l.foldl (eval_board_step ⟨b, A, B, t⟩) acc).2,
           (l.foldl (eval_board_step ⟨b, A, B, t⟩) acc).1) := by
  intro l
  induction l with
  | nil => intro acc; rfl
  | cons p l ih =>
    intro acc
    simp only [List.foldl_cons]
    rw [← ih]
    congr 1
    simp only [eval_board_step]
    by_cases h1 : b.cell p.1 p.2 = A
    · have h2 : ¬ b.cell p.1 p.2 = B := fun h => hAB (h1.symm.trans h)
      simp [h1, h2]
      intro h
      exact absurd h hAB
    · by_cases h2 : b.cell p.1 p.2 = B
      · have h3 : ¬ B = A := fun h => hAB h.symm
        simp [h2, h3]
      · simp [h1, h2]

/-- C8: for every board and two distinct colours `A` and `B`, `evaluate_board`
with `my_color = A`, `opponent_color = B` is the negation of `evaluate_board`
on the same board with `my_color = B`, `opponent_color = A`. -/
theorem evaluate_board_antisymmetric (b : Board) (A B : Int) (hAB : A ≠ B) (t u : Nat) :
    evaluate_board ⟨b, A, B, t⟩ = - evaluate_board ⟨b, B, A, u⟩ := by
  unfold evaluate_board
  have h := eval_board_fold_swap b A B hAB t u cells (0, 0)
  simp only at h ⊢
  rw [h]
  omega

/-- Instance of `evaluate_board_antisymmetric` for black and white on
`board_one_four`. -/
theorem evaluate_board_antisymmetric_witness :
    evaluate_board ⟨board_one_four, BLACK, WHITE, 0⟩
      = - evaluate_board ⟨board_one_four, WHITE, BLACK, 0⟩ :=
  evaluate_board_antisymmetric board_one_four BLACK WHITE (by decide) 0 0

/-! ## C9: the candidate list -/

/-- C9: for every board with at least one stone, `generate_moves` returns
exactly the cells that are empty and have at least one occupied cell among
their on-board Chebyshev-adjacent neighbours, each once and in strictly
increasing row-major order; for the all-empty board it returns the single
cell `(6, 6)`. -/
theorem generate_moves_spec (b : Board) (hS : ∃ x y, in_board x y ∧ b.cell x y ≠ EMPTY) :
    (∀ p : Int × Int, p ∈ generate_moves b ↔
        (holds b 0 p.1 p.2 ∧
          ∃ u v, in_board u v ∧ chebyshev_adjacent p.1 p.2 u v ∧ b.cell u v ≠ EMPTY)) ∧
      (generate_moves b).Pairwise row_major_lt ∧ (generate_moves b).Nodup ∧
      generate_moves board_empty = [(6, 6)] := by
  have hc : ¬ ((cells.countP fun p => decide (b.cell p.1 p.2 = EMPTY) : Nat) : Int)
      = BOARD_SIZE * BOARD_SIZE := by
    intro hc
    obtain ⟨x, y, hin, hne⟩ := hS
    exact hne (all_empty_of_count b hc x y hin)
  have heq : generate_moves b
      = cells.filter fun p => is_valid_move b p.1 p.2 && has_adjacent_stone b p.1 p.2 := by
    unfold generate_moves
    simp only
    rw [if_neg hc]
  have hpw : (generate_moves b).Pairwise row_major_lt := by
    rw [heq]
    exact cells_pairwise.filter _
  refine ⟨?_, hpw, ?_, generate_moves_board_empty⟩
  · intro p
    rw [heq, List.mem_filter, Bool.and_eq_true, is_valid_move_iff, has_adjacent_stone_iff,
      mem_cells]
    constructor
    · rintro ⟨_, h1, h2⟩
      exact ⟨h1, h2⟩
    · rintro ⟨h1, h2⟩
      exact ⟨⟨h1.1, h1.2.1, h1.2.2.1, h1.2.2.2.1⟩, h1, h2⟩
  · refine hpw.imp ?_
    intro p q hlt heq2
    subst heq2
    unfold row_major_lt at hlt
    omega

set_option maxRecDepth 1000000 in
/-- Instance of `generate_moves_spec` on `board_corner`. -/
theorem generate_moves_spec_witness :
    (generate_moves board_corner).Pairwise row_major_lt ∧
      generate_moves board_corner = [(0, 1), (1, 0), (1, 1)] :=
  ⟨(generate_moves_spec board_corner ⟨0, 0, by decide, by decide⟩).2.1, by decide⟩

/-! ## C10: the position score -/

set_option maxRecDepth 1000000 in
/-- Counterexample to C10 as stated, on `board_corner`: for the black stone at
`(0, 0)` the per-axis results are 3, 3, 3 and 1, so C10 claims 10;
`evaluate_position` returns 1, because the division for a blocked end is
applied to the running total of all axes handled so far. -/
theorem evaluate_position_corner :
    holds board_corner BLACK 0 0 ∧
      dirs.map (axis_result board_corner 0 0 BLACK) = [3, 3, 3, 1] ∧
      per_axis_sum board_corner 0 0 BLACK = 10 ∧
      evaluate_position board_corner 0 0 BLACK = 1 := by
  decide

/-! ## C5: alpha-beta against the unpruned search -/

theorem max_loop_unpruned_same_game (search : GameState → Int × GameState)
    (hs : ∀ t, same_game t (search t).2) :
    ∀ (moves : List (Int × Int)) (m : Int) (s : GameState),
      (∀ p ∈ moves, holds s.board 0 p.1 p.2) →
      same_game s (max_loop_unpruned search moves m s).2 := by
  intro moves
  induction moves with
  | nil => intro m s _; exact same_game_refl s
  | cons p rest ih =>
    intro m s hv
    obtain ⟨x, y⟩ := p
    have hxy := hv (x, y) (List.mem_cons_self _ _)
    have hu : same_game s (undo_move (make_move s x y s.my_color) x y) :=
      same_game_undo s _ x y _ hxy (same_game_refl _)
    have hu2 : same_game s (undo_move (search (make_move s x y s.my_color)).2 x y) :=
      same_game_undo s _ x y _ hxy (hs _)
    have hrest : ∀ q ∈ rest,
        holds (undo_move (search (make_move s x y s.my_color)).2 x y).board 0 q.1 q.2 := by
      intro q hq
      rw [hu2.1]
      exact hv q (List.mem_cons_of_mem _ hq)
    simp only [max_loop_unpruned]
    split_ifs <;>
      first
        | exact hu
        | exact same_game_trans hu2 (ih _ _ hrest)

theorem min_loop_unpruned_same_game (search : GameState → Int × GameState)
    (hs : ∀ t, same_game t (search t).2) :
    ∀ (moves : List (Int × Int)) (m : Int) (s : GameState),
      (∀ p ∈ moves, holds s.board 0 p.1 p.2) →
      same_game s (min_loop_unpruned search moves m s).2 := by
  intro moves
  induction moves with
  | nil => intro m s _; exact same_game_refl s
  | cons p rest ih =>
    intro m s hv
    obtain ⟨x, y⟩ := p
    have hxy := hv (x, y) (List.mem_cons_self _ _)
    have hu : same_game s (undo_move (make_move s x y s.opponent_color) x y) :=
      same_game_undo s _ x y _ hxy (same_game_refl _)
    have hu2 : same_game s (undo_move (search (make_move s x y s.opponent_color)).2 x y) :=
      same_game_undo s _ x y _ hxy (hs _)
    have hrest : ∀ q ∈ rest,
        holds (undo_move (search (make_move s x y s.opponent_color)).2 x y).board 0
          q.1 q.2 := by
      intro q hq
      rw [hu2.1]
      exact hv q (List.mem_cons_of_mem _ hq)
    simp only [min_loop_unpruned]
    split_ifs <;>
      first
        | exact hu
        | exact same_game_trans hu2 (ih _ _ hrest)

theorem minimax_unpruned_same_game (late : Nat → Bool) :
    ∀ (depth : Nat) (flag : Bool) (s : GameState),
      same_game s (minimax_unpruned late depth flag s).2 := by
  intro depth
  induction depth with
  | zero =>
    intro flag s
    simp only [minimax_unpruned]
    split_ifs <;> exact same_game_tick s
  | succ d ih =>
    intro flag s
    simp only [minimax_unpruned]
    split_ifs with h1 h2 h3
    · exact same_game_tick s
    · exact same_game_tick s
    · exact same_game_trans (same_game_tick s)
        (max_loop_unpruned_same_game _ (fun t => ih false t) _ _ _ (generate_moves_valid _))
    · exact same_game_trans (same_game_tick s)
        (min_loop_unpruned_same_game _ (fun t => ih true t) _ _ _ (generate_moves_valid _))

/-- The static evaluation depends only on the board and the side assignment. -/
theorem evaluate_board_congr (s t : GameState) (h : same_game s t) :
    evaluate_board t = evaluate_board s := by
  obtain ⟨b, m, o, k⟩ := s
  obtain ⟨b2, m2, o2, k2⟩ := t
  obtain ⟨h1, h2, h3⟩ := h
  simp only at h1 h2 h3
  subst h1 h2 h3
  rfl

/-- The ternaries of the search loops as `max` and `min`. -/
theorem ite_gt_eq_max (e m : Int) : (if e > m then e else m) = max e m := by
  split_ifs <;> omega

theorem ite_lt_eq_min (e m : Int) : (if e < m then e else m) = min e m := by
  split_ifs <;> omega

theorem same_game_make (s t : GameState) (x y : Int) (h : same_game s t) :
    same_game (make_move s x y s.my_color) (make_move t x y t.my_color) ∧
      same_game (make_move s x y s.opponent_color) (make_move t x y t.opponent_color) := by
  obtain ⟨h1, h2, h3⟩ := h
  refine ⟨⟨?_, h2, h3⟩, ⟨?_, h2, h3⟩⟩
  · show set_cell t.board x y t.my_color = set_cell s.board x y s.my_color
    rw [h1, h2]
  · show set_cell t.board x y t.opponent_color = set_cell s.board x y s.opponent_color
    rw [h1, h3]

theorem check_win_make_my (s t : GameState) (x y : Int) (h : same_game s t) :
    check_win (make_move t x y t.my_color).board x y (make_move t x y t.my_color).my_color
      = wins_at s.board s.my_color (x, y) := by
  obtain ⟨h1, h2, _⟩ := h
  show check_win (set_cell t.board x y t.my_color) x y t.my_color = _
  rw [h1, h2]
  rfl

theorem check_win_make_opp (s t : GameState) (x y : Int) (h : same_game s t) :
    check_win (make_move t x y t.opponent_color).board x y
        (make_move t x y t.opponent_color).opponent_color
      = wins_at s.board s.opponent_color (x, y) := by
  obtain ⟨h1, _, h3⟩ := h
  show check_win (set_cell t.board x y t.opponent_color) x y t.opponent_color = _
  rw [h1, h3]
  rfl

theorem max_facts (x y : Int) : x ≤ max x y ∧ y ≤ max x y ∧ (max x y = x ∨ max x y = y) := by
  refine ⟨le_max_left _ _, le_max_right _ _, ?_⟩
  rcases le_total x y with h | h
  · exact Or.inr (max_eq_right h)
  · exact Or.inl (max_eq_left h)

theorem min_facts (x y : Int) : min x y ≤ x ∧ min x y ≤ y ∧ (min x y = x ∨ min x y = y) := by
  refine ⟨min_le_left _ _, min_le_right _ _, ?_⟩
  rcases le_total x y with h | h
  · exact Or.inl (min_eq_left h)
  · exact Or.inr (min_eq_right h)

/-- Bounds on the value of the unpruned maximizing loop. -/
theorem max_loop_unpruned_bounds (search : Int → Int → GameState → Int × GameState)
    (usearch : GameState → Int × GameState) (hu : ∀ t, same_game t (usearch t).2)
    (s0 : GameState) :
    ∀ (ms : List (Int × Int)), (∀ p ∈ ms, holds s0.board 0 p.1 p.2) →
      loop_ok (wins_at s0.board s0.my_color)
        (fun p => child_ok search usearch (make_move s0 p.1 p.2 s0.my_color)) ms →
      ∀ (M : Int) (su : GameState), same_game s0 su → M ≤ WIN_SCORE →
        M ≤ (max_loop_unpruned usearch ms M su).1 ∧
          (max_loop_unpruned usearch ms M su).1 ≤ WIN_SCORE ∧
          (ms ≠ [] → -WIN_SCORE ≤ (max_loop_unpruned usearch ms M su).1) := by
  intro ms
  induction ms with
  | nil =>
    intro _ _ M su _ hM
    simp only [max_loop_unpruned]
    exact ⟨le_refl _, hM, fun h => absurd rfl h⟩
  | cons p rest ih =>
    intro hv hok M su hsu hM
    obtain ⟨x, y⟩ := p
    have hxy := hv (x, y) (List.mem_cons_self _ _)
    have hxy2 : holds su.board 0 x y := by rw [hsu.1]; exact hxy
    simp only [max_loop_unpruned, check_win_make_my s0 su x y hsu]
    by_cases hwin : wins_at s0.board s0.my_color (x, y) = true
    · rw [if_pos hwin]
      simp only [WIN_SCORE] at hM ⊢
      refine ⟨hM, le_refl _, fun _ => by omega⟩
    · rw [if_neg hwin]
      rcases hok with hw | ⟨hchild, hrest⟩
      · exact absurd hw hwin
      · have hmk := (same_game_make s0 su x y hsu).1
        obtain ⟨⟨hv1, hv2⟩, _⟩ := hchild _ _ hmk hmk
        have hsu2 : same_game s0 (undo_move (usearch (make_move su x y su.my_color)).2 x y) :=
          same_game_trans hsu (same_game_undo su _ x y _ hxy2 (hu _))
        rw [ite_gt_eq_max]
        have f1 := max_facts (usearch (make_move su x y su.my_color)).1 M
        obtain ⟨g1, g2, _⟩ := ih (fun q hq => hv q (List.mem_cons_of_mem _ hq)) hrest
          (max (usearch (make_move su x y su.my_color)).1 M) _ hsu2
          (by simp only [WIN_SCORE] at *; omega)
        generalize max (usearch (make_move su x y su.my_color)).1 M = M2 at *
        simp only [WIN_SCORE] at *
        refine ⟨by omega, g2, fun _ => by omega⟩

/-- The pruned maximizing loop against the unpruned one. -/
theorem max_loop_ab (search : Int → Int → GameState → Int × GameState)
    (usearch : GameState → Int × GameState)
    (hs : ∀ a b t, same_game t (search a b t).2) (hu : ∀ t, same_game t (usearch t).2)
    (s0 : GameState) :
    ∀ (ms : List (Int × Int)), (∀ p ∈ ms, holds s0.board 0 p.1 p.2) →
      loop_ok (wins_at s0.board s0.my_color)
        (fun p => child_ok search usearch (make_move s0 p.1 p.2 s0.my_color)) ms →
      ∀ (m M a β : Int) (sp su : GameState), same_game s0 sp → same_game s0 su →
        m ≤ a → M ≤ a → a < β → INT_MIN ≤ a → β ≤ INT_MAX → m ≤ WIN_SCORE → M ≤ WIN_SCORE →
        m ≤ (max_loop search ms m a β sp).1 ∧
          (max_loop search ms m a β sp).1 ≤ WIN_SCORE ∧
          (ms ≠ [] → -WIN_SCORE ≤ (max_loop search ms m a β sp).1) ∧
          ((max_loop_unpruned usearch ms M su).1 ≤ a → (max_loop search ms m a β sp).1 ≤ a) ∧
          (a < (max_loop_unpruned usearch ms M su).1 →
            (max_loop_unpruned usearch ms M su).1 < β →
            (max_loop search ms m a β sp).1 = (max_loop_unpruned usearch ms M su).1) ∧
          (β ≤ (max_loop_unpruned usearch ms M su).1 → β ≤ (max_loop search ms m a β sp).1) := by
  intro ms
  induction ms with
  | nil =>
    intro _ _ m M a β sp su _ _ h1 h2 h3 _ _ h6 _
    simp only [max_loop, max_loop_unpruned]
    refine ⟨le_refl _, h6, fun h => absurd rfl h, fun _ => h1, fun h => ?_, fun h => ?_⟩
    · omega
    · omega
  | cons p rest ih =>
    intro hv hok m M a β sp su hsp hsu h1 h2 h3 h4 h5 h6 h7
    obtain ⟨x, y⟩ := p
    have hxy := hv (x, y) (List.mem_cons_self _ _)
    have hxyp : holds sp.board 0 x y := by rw [hsp.1]; exact hxy
    have hxyu : holds su.board 0 x y := by rw [hsu.1]; exact hxy
    simp only [max_loop, max_loop_unpruned, check_win_make_my s0 sp x y hsp,
      check_win_make_my s0 su x y hsu]
    by_cases hwin : wins_at s0.board s0.my_color (x, y) = true
    · simp only [if_pos hwin]
      simp only [WIN_SCORE] at h6 ⊢
      refine ⟨?_, ?_, ?_, ?_, ?_, ?_⟩ <;> intros <;> trivial
    · simp only [if_neg hwin]
      rcases hok with hw | ⟨hchild, hrest⟩
      · exact absurd hw hwin
      · have hmkp := (same_game_make s0 sp x y hsp).1
        have hmku := (same_game_make s0 su x y hsu).1
        obtain ⟨⟨hv1, hv2⟩, hab⟩ := hchild _ _ hmkp hmku
        obtain ⟨hr1, hr2, hr3, hr4, hr5⟩ := hab a β h4 h3 h5
        have hsp2 : same_game s0 (undo_move (search a β (make_move sp x y sp.my_color)).2 x y) :=
          same_game_trans hsp (same_game_undo sp _ x y _ hxyp (hs _ _ _))
        have hsu2 : same_game s0 (undo_move (usearch (make_move su x y su.my_color)).2 x y) :=
          same_game_trans hsu (same_game_undo su _ x y _ hxyu (hu _))
        have hvrest : ∀ q ∈ rest, holds s0.board 0 q.1 q.2 :=
          fun q hq => hv q (List.mem_cons_of_mem _ hq)
        have hU2 := max_loop_unpruned_bounds search usearch hu s0 rest hvrest hrest
          (max (usearch (make_move su x y su.my_color)).1 M) _ hsu2 (max_le hv2 h7)
        simp only [ite_gt_eq_max]
        generalize (search a β (make_move sp x y sp.my_color)).1 = r at *
        generalize (usearch (make_move su x y su.my_color)).1 = v at *
        have d3 : a < v ∨ r ≤ a := by
          rcases le_or_lt v a with h | h
          · exact Or.inr (hr3 h)
          · exact Or.inl h
        have d4 : v ≤ a ∨ β ≤ v ∨ r = v := by
          rcases le_or_lt v a with h | h
          · exact Or.inl h
          · rcases le_or_lt β v with h' | h'
            · exact Or.inr (Or.inl h')
            · exact Or.inr (Or.inr (hr4 h h'))
        have d5 : v < β ∨ β ≤ r := by
          rcases le_or_lt β v with h | h
          · exact Or.inr (hr5 h)
          · exact Or.inl h
        clear hr3 hr4 hr5
        have f1 := max_facts r m
        have f2 := max_facts v M
        have f3 := max_facts a r
        by_cases hcut : β ≤ max a r
        · simp only [if_pos hcut]
          obtain ⟨u1, u2, _⟩ := hU2
          generalize (max_loop_unpruned usearch rest (max v M)
            (undo_move (usearch (make_move su x y su.my_color)).2 x y)).1 = Ru at *
          generalize max r m = m2 at *
          generalize max v M = M2 at *
          generalize max a r = a2 at *
          simp only [WIN_SCORE, INT_MIN, INT_MAX] at *
          refine ⟨by omega, by omega, fun _ => by omega, fun h => by omega, fun h h' => by omega,
            fun h => by omega⟩
        · simp only [if_neg hcut]
          obtain ⟨u1, u2, _⟩ := hU2
          obtain ⟨g1, g2, _, g4, g5, g6⟩ := ih hvrest hrest (max r m) (max v M) (max a r) β _ _
            hsp2 hsu2 (by simp only [WIN_SCORE] at *; omega) (by simp only [WIN_SCORE] at *; omega)
            (by omega) (by simp only [INT_MIN] at *; omega) h5
            (by simp only [WIN_SCORE] at *; omega) (by simp only [WIN_SCORE] at *; omega)
          generalize (max_loop search rest (max r m) (max a r) β
            (undo_move (search a β (make_move sp x y sp.my_color)).2 x y)).1 = Rp at *
          generalize (max_loop_unpruned usearch rest (max v M)
            (undo_move (usearch (make_move su x y su.my_color)).2 x y)).1 = Ru at *
          have e4 : max a r < Ru ∨ Rp ≤ max a r := by
            rcases le_or_lt Ru (max a r) with h | h
            · exact Or.inr (g4 h)
            · exact Or.inl h
          have e5 : Ru ≤ max a r ∨ β ≤ Ru ∨ Rp = Ru := by
            rcases le_or_lt Ru (max a r) with h | h
            · exact Or.inl h
            · rcases le_or_lt β Ru with h' | h'
              · exact Or.inr (Or.inl h')
              · exact Or.inr (Or.inr (g5 h h'))
          have e6 : Ru < β ∨ β ≤ Rp := by
            rcases le_or_lt β Ru with h | h
            · exact Or.inr (g6 h)
            · exact Or.inl h
          clear g4 g5 g6
          generalize max r m = m2 at *
          generalize max v M = M2 at *
          generalize max a r = a2 at *
          simp only [WIN_SCORE, INT_MIN, INT_MAX] at *
          refine ⟨by omega, g2, fun _ => by omega, fun h => by omega, fun h h' => by omega,
            fun h => by omega⟩

/-- Bounds on the value of the unpruned minimizing loop. -/
theorem min_loop_unpruned_bounds (search : Int → Int → GameState → Int × GameState)
    (usearch : GameState → Int × GameState) (hu : ∀ t, same_game t (usearch t).2)
    (s0 : GameState) :
    ∀ (ms : List (Int × Int)), (∀ p ∈ ms, holds s0.board 0 p.1 p.2) →
      loop_ok (wins_at s0.board s0.opponent_color)
        (fun p => child_ok search usearch (make_move s0 p.1 p.2 s0.opponent_color)) ms →
      ∀ (M : Int) (su : GameState), same_game s0 su → -WIN_SCORE ≤ M →
        (min_loop_unpruned usearch ms M su).1 ≤ M ∧
          -WIN_SCORE ≤ (min_loop_unpruned usearch ms M su).1 ∧
          (ms ≠ [] → (min_loop_unpruned usearch ms M su).1 ≤ WIN_SCORE) := by
  intro ms
  induction ms with
  | nil =>
    intro _ _ M su _ hM
    simp only [min_loop_unpruned]
    exact ⟨le_refl _, hM, fun h => absurd rfl h⟩
  | cons p rest ih =>
    intro hv hok M su hsu hM
    obtain ⟨x, y⟩ := p
    have hxy := hv (x, y) (List.mem_cons_self _ _)
    have hxy2 : holds su.board 0 x y := by rw [hsu.1]; exact hxy
    simp only [min_loop_unpruned, check_win_make_opp s0 su x y hsu]
    by_cases hwin : wins_at s0.board s0.opponent_color (x, y) = true
    · rw [if_pos hwin]
      simp only [WIN_SCORE] at hM ⊢
      refine ⟨hM, le_refl _, fun _ => by omega⟩
    · rw [if_neg hwin]
      rcases hok with hw | ⟨hchild, hrest⟩
      · exact absurd hw hwin
      · have hmk := (same_game_make s0 su x y hsu).2
        obtain ⟨⟨hv1, hv2⟩, _⟩ := hchild _ _ hmk hmk
        have hsu2 : same_game s0
            (undo_move (usearch (make_move su x y su.opponent_color)).2 x y) :=
          same_game_trans hsu (same_game_undo su _ x y _ hxy2 (hu _))
        rw [ite_lt_eq_min]
        have f1 := min_facts (usearch (make_move su x y su.opponent_color)).1 M
        obtain ⟨g1, g2, _⟩ := ih (fun q hq => hv q (List.mem_cons_of_mem _ hq)) hrest
          (min (usearch (make_move su x y su.opponent_color)).1 M) _ hsu2
          (by simp only [WIN_SCORE] at *; omega)
        generalize min (usearch (make_move su x y su.opponent_color)).1 M = M2 at *
        simp only [WIN_SCORE] at *
        refine ⟨by omega, g2, fun _ => by omega⟩

/-- The pruned minimizing loop against the unpruned one. -/
theorem min_loop_ab (search : Int → Int → GameState → Int × GameState)
    (usearch : GameState → Int × GameState)
    (hs : ∀ a b t, same_game t (search a b t).2) (hu : ∀ t, same_game t (usearch t).2)
    (s0 : GameState) :
    ∀ (ms : List (Int × Int)), (∀ p ∈ ms, holds s0.board 0 p.1 p.2) →
      loop_ok (wins_at s0.board s0.opponent_color)
        (fun p => child_ok search usearch (make_move s0 p.1 p.2 s0.opponent_color)) ms →
      ∀ (m M α b : Int) (sp su : GameState), same_game s0 sp → same_game s0 su →
        b ≤ m → b ≤ M → α < b → INT_MIN ≤ α → b ≤ INT_MAX → -WIN_SCORE ≤ m → -WIN_SCORE ≤ M →
        (min_loop search ms m α b sp).1 ≤ m ∧
          -WIN_SCORE ≤ (min_loop search ms m α b sp).1 ∧
          (ms ≠ [] → (min_loop search ms m α b sp).1 ≤ WIN_SCORE) ∧
          (b ≤ (min_loop_unpruned usearch ms M su).1 → b ≤ (min_loop search ms m α b sp).1) ∧
          ((min_loop_unpruned usearch ms M su).1 < b →
            α < (min_loop_unpruned usearch ms M su).1 →
            (min_loop search ms m α b sp).1 = (min_loop_unpruned usearch ms M su).1) ∧
          ((min_loop_unpruned usearch ms M su).1 ≤ α → (min_loop search ms m α b sp).1 ≤ α) := by
  intro ms
  induction ms with
  | nil =>
    intro _ _ m M α b sp su _ _ h1 h2 h3 _ _ h6 _
    simp only [min_loop, min_loop_unpruned]
    refine ⟨le_refl _, h6, fun h => absurd rfl h, fun _ => h1, fun h => ?_, fun h => ?_⟩
    · omega
    · omega
  | cons p rest ih =>
    intro hv hok m M α b sp su hsp hsu h1 h2 h3 h4 h5 h6 h7
    obtain ⟨x, y⟩ := p
    have hxy := hv (x, y) (List.mem_cons_self _ _)
    have hxyp : holds sp.board 0 x y := by rw [hsp.1]; exact hxy
    have hxyu : holds su.board 0 x y := by rw [hsu.1]; exact hxy
    simp only [min_loop, min_loop_unpruned, check_win_make_opp s0 sp x y hsp,
      check_win_make_opp s0 su x y hsu]
    by_cases hwin : wins_at s0.board s0.opponent_color (x, y) = true
    · simp only [if_pos hwin]
      simp only [WIN_SCORE] at h6 ⊢
      refine ⟨?_, ?_, ?_, ?_, ?_, ?_⟩ <;> intros <;> trivial
    · simp only [if_neg hwin]
      rcases hok with hw | ⟨hchild, hrest⟩
      · exact absurd hw hwin
      · have hmkp := (same_game_make s0 sp x y hsp).2
        have hmku := (same_game_make s0 su x y hsu).2
        obtain ⟨⟨hv1, hv2⟩, hab⟩ := hchild _ _ hmkp hmku
        obtain ⟨hr1, hr2, hr3, hr4, hr5⟩ := hab α b h4 h3 h5
        have hsp2 : same_game s0
            (undo_move (search α b (make_move sp x y sp.opponent_color)).2 x y) :=
          same_game_trans hsp (same_game_undo sp _ x y _ hxyp (hs _ _ _))
        have hsu2 : same_game s0
            (undo_move (usearch (make_move su x y su.opponent_color)).2 x y) :=
          same_game_trans hsu (same_game_undo su _ x y _ hxyu (hu _))
        have hvrest : ∀ q ∈ rest, holds s0.board 0 q.1 q.2 :=
          fun q hq => hv q (List.mem_cons_of_mem _ hq)
        have hU2 := min_loop_unpruned_bounds search usearch hu s0 rest hvrest hrest
          (min (usearch (make_move su x y su.opponent_color)).1 M) _ hsu2 (le_min hv1 h7)
        simp only [ite_lt_eq_min]
        generalize (search α b (make_move sp x y sp.opponent_color)).1 = r at *
        generalize (usearch (make_move su x y su.opponent_color)).1 = v at *
        have d3 : α < v ∨ r ≤ α := by
          rcases le_or_lt v α with h | h
          · exact Or.inr (hr3 h)
          · exact Or.inl h
        have d4 : v ≤ α ∨ b ≤ v ∨ r = v := by
          rcases le_or_lt v α with h | h
          · exact Or.inl h
          · rcases le_or_lt b v with h' | h'
            · exact Or.inr (Or.inl h')
            · exact Or.inr (Or.inr (hr4 h h'))
        have d5 : v < b ∨ b ≤ r := by
          rcases le_or_lt b v with h | h
          · exact Or.inr (hr5 h)
          · exact Or.inl h
        clear hr3 hr4 hr5
        have f1 := min_facts r m
        have f2 := min_facts v M
        have f3 := min_facts b r
        by_cases hcut : min b r ≤ α
        · simp only [if_pos hcut]
          obtain ⟨u1, u2, _⟩ := hU2
          generalize (min_loop_unpruned usearch rest (min v M)
            (undo_move (usearch (make_move su x y su.opponent_color)).2 x y)).1 = Ru at *
          generalize min r m = m2 at *
          generalize min v M = M2 at *
          generalize min b r = b2 at *
          simp only [WIN_SCORE, INT_MIN, INT_MAX] at *
          refine ⟨by omega, by omega, fun _ => by omega, fun h => by omega, fun h h' => by omega,
            fun h => by omega⟩
        · simp only [if_neg hcut]
          obtain ⟨u1, u2, _⟩ := hU2
          obtain ⟨g1, g2, _, g4, g5, g6⟩ := ih hvrest hrest (min r m) (min v M) α (min b r) _ _
            hsp2 hsu2 (by simp only [WIN_SCORE] at *; omega) (by simp only [WIN_SCORE] at *; omega)
            (by omega) h4 (by simp only [INT_MAX] at *; omega)
            (by simp only [WIN_SCORE] at *; omega) (by simp only [WIN_SCORE] at *; omega)
          generalize (min_loop search rest (min r m) α (min b r)
            (undo_move (search α b (make_move sp x y sp.opponent_color)).2 x y)).1 = Rp at *
          generalize (min_loop_unpruned usearch rest (min v M)
            (undo_move (usearch (make_move su x y su.opponent_color)).2 x y)).1 = Ru at *
          have e4 : Ru < min b r ∨ min b r ≤ Rp := by
            rcases le_or_lt (min b r) Ru with h | h
            · exact Or.inr (g4 h)
            · exact Or.inl h
          have e5 : min b r ≤ Ru ∨ Ru ≤ α ∨ Rp = Ru := by
            rcases le_or_lt (min b r) Ru with h | h
            · exact Or.inl h
            · rcases le_or_lt Ru α with h' | h'
              · exact Or.inr (Or.inl h')
              · exact Or.inr (Or.inr (g5 h h'))
          have e6 : α < Ru ∨ Rp ≤ α := by
            rcases le_or_lt Ru α with h | h
            · exact Or.inr (g6 h)
            · exact Or.inl h
          clear g4 g5 g6
          generalize min r m = m2 at *
          generalize min v M = M2 at *
          generalize min b r = b2 at *
          simp only [WIN_SCORE, INT_MIN, INT_MAX] at *
          refine ⟨by omega, g2, fun _ => by omega, fun h => by omega, fun h h' => by omega,
            fun h => by omega⟩

theorem loop_ok_of_all (win : Int × Int → Bool) (g : Int × Int → Bool)
    (ok : Int × Int → Prop) (hg : ∀ p, g p = true → ok p) :
    ∀ (ms : List (Int × Int)), (ms.takeWhile fun p => !win p).all g = true →
      loop_ok win ok ms := by
  intro ms
  induction ms with
  | nil => intro _; trivial
  | cons p rest ih =>
    intro h
    by_cases hw : win p = true
    · exact Or.inl hw
    · have hw2 : win p = false := by simpa using hw
      simp only [List.takeWhile_cons, hw2, Bool.not_false, if_true, List.all_cons,
        Bool.and_eq_true] at h
      exact Or.inr ⟨hg p h.1, ih h.2⟩

theorem evals_bounded_leaf (s t u : GameState) (α β : Int) (ht : same_game s t)
    (hu : same_game s u)
    (hb : decide (-WIN_SCORE ≤ evaluate_board s ∧ evaluate_board s ≤ WIN_SCORE) = true) :
    (-WIN_SCORE ≤ evaluate_board (tick u) ∧ evaluate_board (tick u) ≤ WIN_SCORE) ∧
      ab_spec (evaluate_board (tick u)) (evaluate_board (tick t)) α β := by
  rw [evaluate_board_congr s (tick t) (same_game_trans ht (same_game_tick t)),
    evaluate_board_congr s (tick u) (same_game_trans hu (same_game_tick u))]
  simp only [decide_eq_true_eq] at hb
  refine ⟨hb, hb.1, hb.2, fun h => h, fun _ _ => rfl, fun h => h⟩

/-- With the deadline never exceeded and all static evaluations within
`[-WIN_SCORE, WIN_SCORE]`, the pruned search relates to the unpruned search as
alpha-beta should, at every node and for every window. -/
theorem minimax_ab :
    ∀ (d : Nat) (flag : Bool) (c0 : GameState), evals_bounded d flag c0 = true →
      child_ok (fun a b t => minimax never_late d a b flag t)
        (fun t => minimax_unpruned never_late d flag t) c0 := by
  intro d
  induction d with
  | zero =>
    intro flag c0 hb t u ht hu
    simp only [minimax, minimax_unpruned, never_late, Bool.false_eq_true, if_false]
    simp only [evals_bounded] at hb
    obtain ⟨g1, g2⟩ := evals_bounded_leaf c0 t u 0 0 ht hu hb
    exact ⟨g1, fun α β _ _ _ => (evals_bounded_leaf c0 t u α β ht hu hb).2⟩
  | succ d ih =>
    intro flag c0 hb t u ht hu
    have htb : (tick t).board = c0.board := ht.1
    have hub : (tick u).board = c0.board := hu.1
    simp only [minimax, minimax_unpruned, never_late, Bool.false_eq_true, if_false, htb, hub]
    simp only [evals_bounded] at hb
    by_cases hlen : (generate_moves c0.board).length = 0
    · simp only [if_pos hlen] at hb ⊢
      exact ⟨(evals_bounded_leaf c0 t u 0 0 ht hu hb).1,
        fun α β _ _ _ => (evals_bounded_leaf c0 t u α β ht hu hb).2⟩
    · simp only [if_neg hlen] at hb ⊢
      have hne : generate_moves c0.board ≠ [] := fun h => hlen (by rw [h]; rfl)
      have hsp : same_game c0 (tick t) := same_game_trans ht (same_game_tick t)
      have hsu : same_game c0 (tick u) := same_game_trans hu (same_game_tick u)
      cases flag with
      | true =>
        simp only [if_true] at hb ⊢
        have hok := loop_ok_of_all (wins_at c0.board c0.my_color) _
          (fun p => child_ok (fun a b t => minimax never_late d a b false t)
            (fun t => minimax_unpruned never_late d false t)
            (make_move c0 p.1 p.2 c0.my_color))
          (fun p hp => ih false _ (by simpa using hp)) _ hb
        have hU := max_loop_unpruned_bounds (fun a b t => minimax never_late d a b false t)
          (fun t => minimax_unpruned never_late d false t)
          (fun t => minimax_unpruned_same_game never_late d false t) c0
          (generate_moves c0.board) (generate_moves_valid c0.board) hok INT_MIN (tick u) hsu
          (by decide)
        refine ⟨⟨hU.2.2 hne, hU.2.1⟩, ?_⟩
        intro α β h1 h2 h3
        obtain ⟨g1, g2, g3, g4, g5, g6⟩ := max_loop_ab
          (fun a b t => minimax never_late d a b false t)
          (fun t => minimax_unpruned never_late d false t)
          (fun a b t => minimax_same_game never_late d a b false t)
          (fun t => minimax_unpruned_same_game never_late d false t) c0
          (generate_moves c0.board) (generate_moves_valid c0.board) hok INT_MIN INT_MIN α β
          (tick t) (tick u) hsp hsu h1 h1 h2 h1 h3 (by decide) (by decide)
        exact ⟨g3 hne, g2, g4, g5, g6⟩
      | false =>
        simp only [Bool.false_eq_true, if_false] at hb ⊢
        have hok := loop_ok_of_all (wins_at c0.board c0.opponent_color) _
          (fun p => child_ok (fun a b t => minimax never_late d a b true t)
            (fun t => minimax_unpruned never_late d true t)
            (make_move c0 p.1 p.2 c0.opponent_color))
          (fun p hp => ih true _ (by simpa using hp)) _ hb
        have hU := min_loop_unpruned_bounds (fun a b t => minimax never_late d a b true t)
          (fun t => minimax_unpruned never_late d true t)
          (fun t => minimax_unpruned_same_game never_late d true t) c0
          (generate_moves c0.board) (generate_moves_valid c0.board) hok INT_MAX (tick u) hsu
          (by decide)
        refine ⟨⟨hU.2.1, hU.2.2 hne⟩, ?_⟩
        intro α β h1 h2 h3
        obtain ⟨g1, g2, g3, g4, g5, g6⟩ := min_loop_ab
          (fun a b t => minimax never_late d a b true t)
          (fun t => minimax_unpruned never_late d true t)
          (fun a b t => minimax_same_game never_late d a b true t)
          (fun t => minimax_unpruned_same_game never_late d true t) c0
          (generate_moves c0.board) (generate_moves_valid c0.board) hok INT_MAX INT_MAX α β
          (tick t) (tick u) hsp hsu h3 h3 h2 h1 h3 (by decide) (by decide)
        exact ⟨g2, g3 hne, g6, fun h h' => g5 h' h, g4⟩

/-- At the full window the pruned and the unpruned search return the same
value, on every pair of states of the same game. -/
theorem minimax_eq_unpruned (d : Nat) (flag : Bool) (c0 t u : GameState)
    (hb : evals_bounded d flag c0 = true) (ht : same_game c0 t) (hu : same_game c0 u) :
    (minimax never_late d INT_MIN INT_MAX flag t).1 = (minimax_unpruned never_late d flag u).1 := by
  obtain ⟨⟨h1, h2⟩, h3⟩ := minimax_ab d flag c0 hb t u ht hu
  obtain ⟨_, _, _, h4, _⟩ := h3 INT_MIN INT_MAX (le_refl _) (by decide) (le_refl _)
  apply h4
  · simp only [INT_MIN, WIN_SCORE] at *; omega
  · simp only [INT_MAX, WIN_SCORE] at *; omega

/-- Two search procedures that return the same values make the root loop
select the same score and move (with the deadline never exceeded). -/
theorem root_loop_congr (search1 search2 : GameState → Int × GameState)
    (h1 : ∀ t, same_game t (search1 t).2) (h2 : ∀ t, same_game t (search2 t).2)
    (s0 : GameState) :
    ∀ (ms : List (Int × Int)), (∀ p ∈ ms, holds s0.board 0 p.1 p.2) →
      (∀ p ∈ ms, ∀ t u, same_game (make_move s0 p.1 p.2 s0.my_color) t →
        same_game (make_move s0 p.1 p.2 s0.my_color) u → (search1 t).1 = (search2 u).1) →
      ∀ (bs : Int) (best : Int × Int) (sp su : GameState), same_game s0 sp → same_game s0 su →
        (root_loop never_late search1 ms bs best sp).1
            = (root_loop never_late search2 ms bs best su).1 ∧
          (root_loop never_late search1 ms bs best sp).2.1
            = (root_loop never_late search2 ms bs best su).2.1 := by
  intro ms
  induction ms with
  | nil => intro _ _ bs best sp su _ _; exact ⟨rfl, rfl⟩
  | cons p rest ih =>
    intro hv heq bs best sp su hsp hsu
    obtain ⟨x, y⟩ := p
    have hxy := hv (x, y) (List.mem_cons_self _ _)
    have hxyp : holds sp.board 0 x y := by rw [hsp.1]; exact hxy
    have hxyu : holds su.board 0 x y := by rw [hsu.1]; exact hxy
    have e := heq (x, y) (List.mem_cons_self _ _) _ _ (same_game_make s0 sp x y hsp).1
      (same_game_make s0 su x y hsu).1
    have hsp2 : same_game s0 (tick (undo_move (search1 (make_move sp x y sp.my_color)).2 x y)) :=
      same_game_trans (same_game_trans hsp (same_game_undo sp _ x y _ hxyp (h1 _)))
        (same_game_tick _)
    have hsu2 : same_game s0 (tick (undo_move (search2 (make_move su x y su.my_color)).2 x y)) :=
      same_game_trans (same_game_trans hsu (same_game_undo su _ x y _ hxyu (h2 _)))
        (same_game_tick _)
    simp only [root_loop, never_late, Bool.false_eq_true, if_false]
    simp only at e
    rw [e]
    exact ih (fun q hq => hv q (List.mem_cons_of_mem _ hq))
      (fun q hq => heq q (List.mem_cons_of_mem _ hq)) _ _ _ _ hsp2 hsu2

/-- C5 (as amended): with the deadline never exceeded, for every board, depth
and side to move such that every static evaluation computed by the unpruned
search lies in `[-WIN_SCORE, WIN_SCORE]`, `minimax(d, INT_MIN, INT_MAX, flag)`
returns the same value as the unpruned version of the same recursion;
consequently, when this holds below every root candidate to depth
`MAX_DEPTH - 1`, the score and the move selected by the root loop of
`get_best_move`, and the move returned by `get_best_move`, equal those
obtained with the unpruned search. -/
theorem alpha_beta_parity_bounded :
    (∀ (d : Nat) (flag : Bool) (s : GameState), evals_bounded d flag s = true →
        (minimax never_late d INT_MIN INT_MAX flag s).1
          = (minimax_unpruned never_late d flag s).1) ∧
      (∀ s : GameState,
        (∀ p ∈ generate_moves s.board,
          evals_bounded (MAX_DEPTH - 1) false (make_move s p.1 p.2 s.my_color) = true) →
        (root_loop never_late (minimax never_late (MAX_DEPTH - 1) INT_MIN INT_MAX false)
            (generate_moves s.board) INT_MIN ((generate_moves s.board).headD (0, 0)) s).1
          = (root_loop never_late (minimax_unpruned never_late (MAX_DEPTH - 1) false)
            (generate_moves s.board) INT_MIN ((generate_moves s.board).headD (0, 0)) s).1 ∧
        (root_loop never_late (minimax never_late (MAX_DEPTH - 1) INT_MIN INT_MAX false)
            (generate_moves s.board) INT_MIN ((generate_moves s.board).headD (0, 0)) s).2.1
          = (root_loop never_late (minimax_unpruned never_late (MAX_DEPTH - 1) false)
            (generate_moves s.board) INT_MIN ((generate_moves s.board).headD (0, 0)) s).2.1 ∧
        (get_best_move never_late s).1
          = (get_best_move_with never_late
              (minimax_unpruned never_late (MAX_DEPTH - 1) false) s).1) := by
  refine ⟨fun d flag s hb =>
    minimax_eq_unpruned d flag s s s hb (same_game_refl s) (same_game_refl s), ?_⟩
  intro s hb
  have hroot := root_loop_congr (minimax never_late (MAX_DEPTH - 1) INT_MIN INT_MAX false)
    (minimax_unpruned never_late (MAX_DEPTH - 1) false)
    (fun t => minimax_same_game never_late _ _ _ _ t)
    (fun t => minimax_unpruned_same_game never_late _ _ t) s
    (generate_moves s.board) (generate_moves_valid s.board)
    (fun p hp t u ht hu => minimax_eq_unpruned _ _ _ t u (hb p hp) ht hu)
    INT_MIN ((generate_moves s.board).headD (0, 0)) s s (same_game_refl s) (same_game_refl s)
  refine ⟨hroot.1, hroot.2, ?_⟩
  unfold get_best_move
  rw [get_best_move_with_eq, get_best_move_with_eq]
  split_ifs with h
  · rfl
  · cases (generate_moves s.board).find? (wins_at s.board s.my_color) with
    | some p => rfl
    | none =>
      cases (generate_moves s.board).find? (wins_at s.board s.opponent_color) with
      | some p => rfl
      | none => exact hroot.2

/-- The unpruned maximizing loop returns `WIN_SCORE` as soon as one of the
candidates wins at once, whatever the other candidates are worth. -/
theorem max_loop_unpruned_win (usearch : GameState → Int × GameState)
    (hu : ∀ t, same_game t (usearch t).2) (s0 : GameState) :
    ∀ (ms : List (Int × Int)), (∀ p ∈ ms, holds s0.board 0 p.1 p.2) →
      (∃ p ∈ ms, wins_at s0.board s0.my_color p = true) →
      ∀ (M : Int) (su : GameState), same_game s0 su →
        (max_loop_unpruned usearch ms M su).1 = WIN_SCORE := by
  intro ms
  induction ms with
  | nil => intro _ h; obtain ⟨p, hp, _⟩ := h; exact absurd hp (List.not_mem_nil p)
  | cons p rest ih =>
    intro hv hex M su hsu
    obtain ⟨x, y⟩ := p
    have hxy := hv (x, y) (List.mem_cons_self _ _)
    have hxy2 : holds su.board 0 x y := by rw [hsu.1]; exact hxy
    simp only [max_loop_unpruned, check_win_make_my s0 su x y hsu]
    by_cases hwin : wins_at s0.board s0.my_color (x, y) = true
    · rw [if_pos hwin]
    · rw [if_neg hwin]
      have hsu2 : same_game s0 (undo_move (usearch (make_move su x y su.my_color)).2 x y) :=
        same_game_trans hsu (same_game_undo su _ x y _ hxy2 (hu _))
      refine ih (fun q hq => hv q (List.mem_cons_of_mem _ hq)) ?_ _ _ hsu2
      obtain ⟨q, hq, hqw⟩ := hex
      rcases List.mem_cons.1 hq with h | h
      · rw [h] at hqw
        exact absurd hqw hwin
      · exact ⟨q, h, hqw⟩

/-- The unpruned minimizing loop returns at most `W` when the running minimum
is at most `W` or one of the candidates leads to a value of at most `W`. -/
theorem min_loop_unpruned_le (usearch : GameState → Int × GameState)
    (hu : ∀ t, same_game t (usearch t).2) (s0 : GameState) (W : Int)
    (hW : -WIN_SCORE ≤ W) :
    ∀ (ms : List (Int × Int)), (∀ p ∈ ms, holds s0.board 0 p.1 p.2) →
      ∀ (M : Int) (su : GameState), same_game s0 su →
        (M ≤ W ∨ ∃ p ∈ ms, ∀ t,
          same_game (make_move s0 p.1 p.2 s0.opponent_color) t → (usearch t).1 ≤ W) →
        (min_loop_unpruned usearch ms M su).1 ≤ W := by
  intro ms
  induction ms with
  | nil =>
    intro _ M su _ h
    rcases h with h | ⟨p, hp, _⟩
    · exact h
    · exact absurd hp (List.not_mem_nil p)
  | cons p rest ih =>
    intro hv M su hsu h
    obtain ⟨x, y⟩ := p
    have hxy := hv (x, y) (List.mem_cons_self _ _)
    have hxy2 : holds su.board 0 x y := by rw [hsu.1]; exact hxy
    simp only [min_loop_unpruned, check_win_make_opp s0 su x y hsu]
    by_cases hwin : wins_at s0.board s0.opponent_color (x, y) = true
    · rw [if_pos hwin]
      exact hW
    · rw [if_neg hwin]
      have hsu2 : same_game s0
          (undo_move (usearch (make_move su x y su.opponent_color)).2 x y) :=
        same_game_trans hsu (same_game_undo su _ x y _ hxy2 (hu _))
      refine ih (fun q hq => hv q (List.mem_cons_of_mem _ hq)) _ _ hsu2 ?_
      rw [ite_lt_eq_min]
      rcases h with h | ⟨q, hq, hqv⟩
      · exact Or.inl (le_trans (min_le_right _ _) h)
      · rcases List.mem_cons.1 hq with h2 | h2
        · rw [h2] at hqv
          exact Or.inl (le_trans (min_le_left _ _)
            (hqv _ (same_game_make s0 su x y hsu).2))
        · exact Or.inr ⟨q, h2, hqv⟩

theorem minimax_unpruned_min_node (d : Nat) (s : GameState)
    (hlen : ¬ (generate_moves s.board).length = 0) :
    minimax_unpruned never_late (d + 1) false s
      = min_loop_unpruned (fun t => minimax_unpruned never_late d true t)
          (generate_moves s.board) INT_MAX (tick s) := by
  have hsb : (tick s).board = s.board := rfl
  simp only [minimax_unpruned, never_late, Bool.false_eq_true, if_false, hsb, if_neg hlen]

theorem minimax_unpruned_max_node (d : Nat) (s : GameState)
    (hlen : ¬ (generate_moves s.board).length = 0) :
    minimax_unpruned never_late (d + 1) true s
      = max_loop_unpruned (fun t => minimax_unpruned never_late d false t)
          (generate_moves s.board) INT_MIN (tick s) := by
  have hsb : (tick s).board = s.board := rfl
  simp only [minimax_unpruned, never_late, Bool.false_eq_true, if_false, hsb, if_neg hlen,
    if_true]

/-- With the opponent to move and at least two plies to search: if some
candidate `p` of the opponent leaves me a candidate `q` that wins at once, the
unpruned search returns at most `WIN_SCORE`. -/
theorem minimax_unpruned_le_win (d : Nat) (s : GameState) (p q : Int × Int)
    (hp : p ∈ generate_moves s.board)
    (hq : q ∈ generate_moves (set_cell s.board p.1 p.2 s.opponent_color))
    (hw : wins_at (set_cell s.board p.1 p.2 s.opponent_color) s.my_color q = true) :
    (minimax_unpruned never_late (d + 1 + 1) false s).1 ≤ WIN_SCORE := by
  have hlen : ¬ (generate_moves s.board).length = 0 := by
    intro h0
    rw [List.length_eq_zero.1 h0] at hp
    exact absurd hp (List.not_mem_nil p)
  rw [minimax_unpruned_min_node (d + 1) s hlen]
  refine min_loop_unpruned_le _ (fun t => minimax_unpruned_same_game never_late _ _ t) s
    WIN_SCORE (by decide) _ (generate_moves_valid s.board) _ _ (same_game_tick s)
    (Or.inr ⟨p, hp, ?_⟩)
  intro t ht
  have htb : t.board = set_cell s.board p.1 p.2 s.opponent_color := ht.1
  have hlen2 : ¬ (generate_moves t.board).length = 0 := by
    intro h0
    rw [htb, List.length_eq_zero] at h0
    rw [h0] at hq
    exact absurd hq (List.not_mem_nil q)
  have hst : same_game (make_move s p.1 p.2 s.opponent_color) (tick t) :=
    same_game_trans ht (same_game_tick t)
  have hmax := max_loop_unpruned_win (fun t => minimax_unpruned never_late d false t)
    (fun t => minimax_unpruned_same_game never_late d false t)
    (make_move s p.1 p.2 s.opponent_color)
    (generate_moves (set_cell s.board p.1 p.2 s.opponent_color))
    (generate_moves_valid _) ⟨q, hq, hw⟩ INT_MIN (tick t) hst
  rw [minimax_unpruned_max_node d t hlen2, htb]
  exact le_of_eq hmax

set_option maxRecDepth 1000000 in
set_option maxHeartbeats 4000000 in
/-- The value of the pruned search on `board_parity`, white to move, depth 2. -/
theorem board_parity_pruned :
    (minimax never_late 2 INT_MIN INT_MAX false ⟨board_parity, BLACK, WHITE, 0⟩).1
      = 1000888 := by
  decide!

set_option maxRecDepth 1000000 in
/-- C5 as stated fails on `board_parity` with white to move and depth 2.  The
static evaluations exceed `WIN_SCORE`.  After white `(0,1)` black has no win
and the node is worth 1000888.  After white `(1,0)` (and likewise `(1,1)`)
black's first candidate `(0,0)` evaluates to 1001793 (1001783), which is at
least `beta = 1000888`, so the pruned search cuts off and returns it, while
the unpruned search goes on to the candidate `(0,1)`, which wins at once, and
returns `WIN_SCORE`.  The pruned search returns 1000888, the unpruned one at
most `WIN_SCORE = 1000000`. -/
theorem alpha_beta_parity_fails :
    ¬ ∀ (d : Nat) (flag : Bool) (s : GameState),
        (minimax never_late d INT_MIN INT_MAX flag s).1
          = (minimax_unpruned never_late d flag s).1 := by
  intro h
  have h1 : (minimax_unpruned never_late 2 false ⟨board_parity, BLACK, WHITE, 0⟩).1
      ≤ WIN_SCORE :=
    minimax_unpruned_le_win 0 ⟨board_parity, BLACK, WHITE, 0⟩ (1, 0) (0, 1)
      (by decide!) (by decide!) (by decide!)
  have h2 : (1000888 : Int) ≤ WIN_SCORE :=
    le_of_eq_of_le
      (Eq.trans (Eq.symm board_parity_pruned) (h 2 false ⟨board_parity, BLACK, WHITE, 0⟩)) h1
  exact absurd h2 (by decide)

/-! ## C13: the `PLACE` step -/

/-- C13: for every board and every coordinate pair `(x, y)`, the `PLACE` step
leaves the state unchanged when `(x, y)` is out of range or the cell is
occupied; otherwise it changes exactly the cell `(x, y)`, from empty to the
opponent's colour, and leaves every other cell and the side assignment
unchanged.  In particular it never overwrites or removes a stone. -/
theorem place_step_spec (s : GameState) (x y : Int) :
    (¬ holds s.board 0 x y → place_step s x y = s) ∧
      (holds s.board 0 x y →
        (place_step s x y).board.cell x y = s.opponent_color ∧
        (∀ i j, in_board i j → ¬ (i = x ∧ j = y) →
          (place_step s x y).board.cell i j = s.board.cell i j)) ∧
      (place_step s x y).my_color = s.my_color ∧
      (place_step s x y).opponent_color = s.opponent_color ∧
      (∀ i j, in_board i j → s.board.cell i j ≠ EMPTY →
        (place_step s x y).board.cell i j = s.board.cell i j) := by
  by_cases h : holds s.board 0 x y
  · have hv := (is_valid_move_iff s.board x y).2 h
    have hin : in_board x y := ⟨h.1, h.2.1, h.2.2.1, h.2.2.2.1⟩
    have hstep : place_step s x y = { s with board := set_cell s.board x y s.opponent_color } := by
      unfold place_step
      rw [if_pos hv]
    rw [hstep]
    refine ⟨fun hn => absurd h hn, fun _ => ⟨?_, ?_⟩, rfl, rfl, ?_⟩
    · show (set_cell s.board x y s.opponent_color).cell x y = s.opponent_color
      rw [cell_set_cell _ _ _ _ _ _ hin hin]
      simp
    · intro i j hij hne
      show (set_cell s.board x y s.opponent_color).cell i j = s.board.cell i j
      rw [cell_set_cell _ _ _ _ _ _ hin hij, if_neg hne]
    · intro i j hij hne
      show (set_cell s.board x y s.opponent_color).cell i j = s.board.cell i j
      rw [cell_set_cell _ _ _ _ _ _ hin hij]
      split_ifs with hc
      · obtain ⟨rfl, rfl⟩ := hc
        exact absurd h.2.2.2.2 hne
      · rfl
  · have hv : ¬ is_valid_move s.board x y = true := fun hv =>
      h ((is_valid_move_iff s.board x y).1 hv)
    have hstep : place_step s x y = s := by
      unfold place_step
      rw [if_neg hv]
    rw [hstep]
    exact ⟨fun _ => rfl, fun hp => absurd hp h, rfl, rfl, fun _ _ _ _ => rfl⟩

/-! ## C17: the terminal cases of `minimax` -/

set_option maxRecDepth 1000000 in
/-- The full board `board_full` has no candidate. -/
theorem generate_moves_board_full : generate_moves board_full = [] := by
  decide


/-- C17: for every board, window and maximizing flag, `minimax` returns
exactly `evaluate_board` of the current board, with no stone placed (the
state returned is the state at the call with one more clock reading), in each
of three cases: the deadline has passed at entry (for any depth), the depth
is 0, or `generate_moves` yields no candidate. -/
theorem minimax_terminal (late : Nat → Bool) (depth : Nat) (alpha beta : Int) (flag : Bool)
    (s : GameState)
    (h : late s.ticks = true ∨ depth = 0 ∨ generate_moves s.board = []) :
    minimax late depth alpha beta flag s = (evaluate_board s, tick s) ∧
      (minimax late depth alpha beta flag s).2.board = s.board := by
  have he : evaluate_board (tick s) = evaluate_board s := rfl
  have hmain : minimax late depth alpha beta flag s = (evaluate_board s, tick s) := by
    cases depth with
    | zero =>
      simp only [minimax, he]
      split_ifs <;> rfl
    | succ d =>
      simp only [minimax, he]
      rcases h with h | h | h
      · rw [if_pos h]
      · exact absurd h (Nat.succ_ne_zero d)
      · have hb : (tick s).board = s.board := rfl
        rw [hb, h]
        split_ifs <;> first | rfl | simp at *
  exact ⟨hmain, by rw [hmain]; rfl⟩

set_option maxRecDepth 1000000 in
/-- Instance of `minimax_terminal`: depth 0 on `board_corner`, a clock that is
late at entry at depth 3, and depth 3 on `board_full`, which has no candidate. -/
theorem minimax_terminal_witness :
    minimax never_late 0 INT_MIN INT_MAX true ⟨board_corner, BLACK, WHITE, 0⟩
        = (evaluate_board ⟨board_corner, BLACK, WHITE, 0⟩,
            tick ⟨board_corner, BLACK, WHITE, 0⟩) ∧
      minimax (fun _ => true) 3 INT_MIN INT_MAX false ⟨board_corner, BLACK, WHITE, 0⟩
        = (evaluate_board ⟨board_corner, BLACK, WHITE, 0⟩,
            tick ⟨board_corner, BLACK, WHITE, 0⟩) ∧
      minimax never_late 3 INT_MIN INT_MAX true ⟨board_full, BLACK, WHITE, 0⟩
        = (evaluate_board ⟨board_full, BLACK, WHITE, 0⟩,
            tick ⟨board_full, BLACK, WHITE, 0⟩) :=
  ⟨(minimax_terminal never_late 0 INT_MIN INT_MAX true ⟨board_corner, BLACK, WHITE, 0⟩
      (Or.inr (Or.inl rfl))).1,
    (minimax_terminal (fun _ => true) 3 INT_MIN INT_MAX false ⟨board_corner, BLACK, WHITE, 0⟩
      (Or.inl rfl)).1,
    (minimax_terminal never_late 3 INT_MIN INT_MAX true ⟨board_full, BLACK, WHITE, 0⟩
      (Or.inr (Or.inr generate_moves_board_full))).1⟩

/-! ## C14: `count_line` -/

/-- The count of a line loop is determined by the first cell that fails the
loop condition. -/
theorem line_loop_eq (b : Board) (dx dy color : Int) (fuel : Nat) (nx ny : Int) (k : Nat)
    (hk : k ≤ fuel)
    (hall : ∀ t : Nat, t < k → holds b color (nx + t * dx) (ny + t * dy))
    (hstop : ¬ holds b color (nx + k * dx) (ny + k * dy)) :
    line_loop b dx dy color fuel nx ny 0 = k := by
  have hge := line_loop_ge b dx dy color fuel nx ny k hk hall
  by_contra hne
  have hgt : (k : Int) < line_loop b dx dy color fuel nx ny 0 := by omega
  exact hstop (line_loop_holds b dx dy color fuel nx ny k hgt)

/-- C14: for every board, coordinate `(x, y)`, side `c` and each of the eight
unit direction vectors `(dx, dy)`, `count_line(x, y, dx, dy, c)` terminates
(with any iteration budget of at least `BOARD_SIZE` the loop stops at a cell
failing the loop condition and returns the same count) and returns the
largest `k` such that the cells `(x + i*dx, y + i*dy)` for `0 ≤ i < k` are all
on the board and hold `c`; it is 0 when `(x, y)` is off the board or does not
hold `c`, and it never exceeds 12. -/
theorem count_line_spec (b : Board) (x y dx dy c : Int) (hstep : unit_step dx dy) :
    (∀ fuel : Nat, LINE_FUEL ≤ fuel →
        line_loop b dx dy c fuel x y 0 = count_line b x y dx dy c) ∧
      0 ≤ count_line b x y dx dy c ∧ count_line b x y dx dy c ≤ 12 ∧
      (∀ i : Int, 0 ≤ i → i < count_line b x y dx dy c →
        holds b c (x + i * dx) (y + i * dy)) ∧
      ¬ holds b c (x + count_line b x y dx dy c * dx) (y + count_line b x y dx dy c * dy) ∧
      (∀ k : Int, 0 ≤ k → (∀ i : Int, 0 ≤ i → i < k → holds b c (x + i * dx) (y + i * dy)) →
        k ≤ count_line b x y dx dy c) ∧
      (¬ holds b c x y → count_line b x y dx dy c = 0) := by
  obtain ⟨hdx, hdy, hd⟩ := hstep
  have hstop := (line_loop_fuel_enough b dx dy c LINE_FUEL x y hdx hdy hd (le_refl _)).2
  have hnn := (line_loop_nonneg b dx dy c LINE_FUEL x y).1
  have hall : ∀ i : Int, 0 ≤ i → i < count_line b x y dx dy c →
      holds b c (x + i * dx) (y + i * dy) := by
    intro i hi0 hi
    have := line_loop_holds b dx dy c LINE_FUEL x y i.toNat (by
      have : ((i.toNat : Nat) : Int) = i := Int.toNat_of_nonneg hi0
      rw [this]; exact hi)
    rwa [Int.toNat_of_nonneg hi0] at this
  have hmax : ∀ k : Int, 0 ≤ k →
      (∀ i : Int, 0 ≤ i → i < k → holds b c (x + i * dx) (y + i * dy)) →
      k ≤ count_line b x y dx dy c := by
    intro k hk0 hk
    by_contra hlt
    have hlt2 : count_line b x y dx dy c < k := by omega
    exact hstop (hk _ hnn hlt2)
  refine ⟨fun fuel hfuel => (line_loop_fuel_enough b dx dy c fuel x y hdx hdy hd hfuel).1,
    hnn, line_loop_le_board b dx dy c LINE_FUEL x y hdx hdy hd, hall, hstop, hmax, ?_⟩
  intro hno
  by_contra hne
  have hpos : (0 : Int) < count_line b x y dx dy c := by
    have : 0 ≤ count_line b x y dx dy c := hnn
    omega
  have := hall 0 (le_refl _) hpos
  simp only [zero_mul, add_zero] at this
  exact hno this

set_option maxRecDepth 1000000 in
/-- Instance of `count_line_spec`: the run of four on `board_four`, counted
from `(0, 1)` to the right. -/
theorem count_line_spec_witness :
    unit_step 0 1 ∧ count_line board_four 0 1 0 1 BLACK = 4 ∧
      ¬ holds board_four BLACK (0 + count_line board_four 0 1 0 1 BLACK * 0)
        (1 + count_line board_four 0 1 0 1 BLACK * 1) :=
  ⟨by decide, by decide, (count_line_spec board_four 0 1 0 1 BLACK (by decide)).2.2.2.2.1⟩

/-! ## C18 and C19: when and how many candidates exist -/

/-- On a board without empty cell there is no candidate. -/
theorem generate_moves_full (b : Board) (h : ∀ x y, in_board x y → b.cell x y ≠ EMPTY) :
    generate_moves b = [] := by
  cases hg : generate_moves b with
  | nil => rfl
  | cons p l =>
    have hp := generate_moves_valid b p (by rw [hg]; exact List.mem_cons_self _ _)
    exact absurd hp.2.2.2.2 (h p.1 p.2 ⟨hp.1, hp.2.1, hp.2.2.1, hp.2.2.2.1⟩)

/-- A board without candidate has no empty cell. -/
theorem full_of_generate_moves_nil (b : Board) (h : generate_moves b = []) :
    ∀ x y, in_board x y → b.cell x y ≠ EMPTY := by
  intro x y hin he
  exact generate_moves_ne_nil b ⟨x, y, hin.1, hin.2.1, hin.2.2.1, hin.2.2.2, he⟩ h

/-- C18: for every board, `generate_moves` produces an empty candidate list
if and only if the board is full; every board with at least one stone and at
least one empty cell has an empty cell adjacent (8-neighbourhood) to a stone,
and the all-empty board yields the centre; hence the `move_count == 0` exit of
`get_best_move` is taken only on a full board, where the centre is not a legal
move. -/
theorem generate_moves_nil_iff_full (b : Board) :
    (generate_moves b = [] ↔ ∀ x y, in_board x y → b.cell x y ≠ EMPTY) ∧
      ((∃ x y, in_board x y ∧ b.cell x y ≠ EMPTY) → (∃ x y, holds b 0 x y) →
        ∃ x y, holds b 0 x y ∧
          ∃ u v, in_board u v ∧ chebyshev_adjacent x y u v ∧ b.cell u v ≠ EMPTY) ∧
      generate_moves board_empty = [(BOARD_SIZE / 2, BOARD_SIZE / 2)] ∧
      ((generate_moves b).length = 0 →
        (∀ x y, in_board x y → b.cell x y ≠ EMPTY) ∧
        is_valid_move b (BOARD_SIZE / 2) (BOARD_SIZE / 2) = false ∧
        ∀ (late : Nat → Bool) (my opp : Int) (ticks : Nat),
          get_best_move late ⟨b, my, opp, ticks⟩
            = ((BOARD_SIZE / 2, BOARD_SIZE / 2), ⟨b, my, opp, ticks⟩)) := by
  refine ⟨⟨full_of_generate_moves_nil b, generate_moves_full b⟩, ?_,
    generate_moves_board_empty, ?_⟩
  · intro hS hE
    obtain ⟨x, y, hxy, hadj⟩ := exists_candidate b hE hS
    exact ⟨x, y, hxy, (has_adjacent_stone_iff b x y).1 hadj⟩
  · intro hlen
    have hnil := List.length_eq_zero.1 hlen
    have hfull := full_of_generate_moves_nil b hnil
    refine ⟨hfull, ?_, ?_⟩
    · by_contra hv
      have hv2 : is_valid_move b (BOARD_SIZE / 2) (BOARD_SIZE / 2) = true := by
        simpa using hv
      have hh := (is_valid_move_iff b _ _).1 hv2
      exact hfull _ _ ⟨hh.1, hh.2.1, hh.2.2.1, hh.2.2.2.1⟩ hh.2.2.2.2
    · intro late my opp ticks
      unfold get_best_move
      rw [get_best_move_with_eq]
      simp only [hlen, if_true]

/-- C19: for every board, the number of candidates written by
`generate_moves` is at most 143 on a board with a stone and exactly 1 on the
empty board, so every write index into the arrays `moves[144][2]` is below
144, and every candidate coordinate lies in `[0, 12) x [0, 12)`. -/
theorem generate_moves_length (b : Board) :
    ((∃ x y, in_board x y ∧ b.cell x y ≠ EMPTY) → (generate_moves b).length ≤ 143) ∧
      (generate_moves board_empty).length = 1 ∧
      (∀ i : Nat, i < (generate_moves b).length → i < 144) ∧
      (∀ p ∈ generate_moves b,
        0 ≤ p.1 ∧ p.1 < BOARD_SIZE ∧ 0 ≤ p.2 ∧ p.2 < BOARD_SIZE) := by
  have hstone : (∃ x y, in_board x y ∧ b.cell x y ≠ EMPTY) →
      (generate_moves b).length ≤ 143 := by
    rintro ⟨x, y, hin, hne⟩
    have hc : ¬ ((cells.countP fun p => decide (b.cell p.1 p.2 = EMPTY) : Nat) : Int)
        = BOARD_SIZE * BOARD_SIZE := fun hc => hne (all_empty_of_count b hc x y hin)
    have heq : generate_moves b
        = cells.filter fun p => is_valid_move b p.1 p.2 && has_adjacent_stone b p.1 p.2 := by
      unfold generate_moves
      simp only
      rw [if_neg hc]
    have hlt : (cells.filter
        fun p => is_valid_move b p.1 p.2 && has_adjacent_stone b p.1 p.2).length
        < cells.length := by
      rw [List.length_filter_lt_length_iff_exists]
      refine ⟨(x, y), (mem_cells (x, y)).2 hin, ?_⟩
      intro hp
      simp only [Bool.and_eq_true] at hp
      exact hne ((is_valid_move_iff b x y).1 hp.1).2.2.2.2
    rw [heq]
    rw [cells_length] at hlt
    omega
  have hlen : (generate_moves b).length ≤ 143 := by
    by_cases hS : ∃ x y, in_board x y ∧ b.cell x y ≠ EMPTY
    · exact hstone hS
    · have hall : ∀ x y, in_board x y → b.cell x y = EMPTY := by
        intro x y hin
        by_contra hne
        exact hS ⟨x, y, hin, hne⟩
      rw [eq_board_empty b hall, generate_moves_board_empty]
      decide
  refine ⟨hstone, by rw [generate_moves_board_empty]; rfl, fun i hi => by omega, ?_⟩
  intro p hp
  have := generate_moves_valid b p hp
  exact ⟨this.1, this.2.1, this.2.2.1, this.2.2.2.1⟩

/-! ## C12: the evaluation stays inside the 32-bit range -/

/-- The `if / else if` chain adds between 0 and `WIN_SCORE`. -/
theorem add_line_score_bounds (score total : Int) :
    score ≤ add_line_score score total ∧ add_line_score score total ≤ score + WIN_SCORE := by
  unfold add_line_score
  simp only [WIN_SCORE]
  split_ifs <;> omega

/-- C division of a non-negative number by a positive one. -/
theorem tdiv_bounds (a k : Int) (ha : 0 ≤ a) (hk : 0 < k) : 0 ≤ a.tdiv k ∧ a.tdiv k ≤ a := by
  rw [Int.tdiv_eq_ediv ha (le_of_lt hk)]
  exact ⟨Int.ediv_nonneg ha (le_of_lt hk), Int.ediv_le_self k ha⟩

/-- One axis of `evaluate_position` keeps the running score non-negative and
adds at most `WIN_SCORE`. -/
theorem eval_dir_step_bounds (b : Board) (x y color score : Int) (d : Int × Int)
    (h : 0 ≤ score) :
    0 ≤ eval_dir_step b x y color score d ∧
      eval_dir_step b x y color score d ≤ score + WIN_SCORE := by
  have ha := add_line_score_bounds score
    (count_line b x y d.1 d.2 color + count_line b x y (-d.1) (-d.2) color - 1)
  unfold eval_dir_step
  simp only
  generalize add_line_score score
    (count_line b x y d.1 d.2 color + count_line b x y (-d.1) (-d.2) color - 1) = a at ha ⊢
  have h10 := tdiv_bounds a 10 (by omega) (by decide)
  have h3 := tdiv_bounds a 3 (by omega) (by decide)
  split_ifs <;> omega

/-- Bounds of the running score of `evaluate_position` over any list of axes. -/
theorem eval_dirs_fold_bounds (b : Board) (x y color : Int) :
    ∀ (l : List (Int × Int)) (score : Int), 0 ≤ score →
      0 ≤ l.foldl (eval_dir_step b x y color) score ∧
        l.foldl (eval_dir_step b x y color) score ≤ score + l.length * WIN_SCORE := by
  intro l
  induction l with
  | nil => intro score h; simp [h]
  | cons d rest ih =>
    intro score h
    have h1 := eval_dir_step_bounds b x y color score d h
    have h2 := ih _ h1.1
    simp only [List.foldl_cons, List.length_cons, Nat.cast_add, Nat.cast_one]
    simp only [WIN_SCORE] at *
    constructor
    · exact h2.1
    · have := h2.2
      linarith

/-- The value of `evaluate_position` lies in `[0, 4 * WIN_SCORE]`. -/
theorem evaluate_position_bounds (b : Board) (x y color : Int) :
    0 ≤ evaluate_position b x y color ∧ evaluate_position b x y color ≤ 4 * WIN_SCORE := by
  have h := eval_dirs_fold_bounds b x y color dirs 0 (le_refl 0)
  have hl : (dirs.length : Int) = 4 := rfl
  rw [hl] at h
  unfold evaluate_position
  simp only [WIN_SCORE] at *
  omega

/-- One cell of `evaluate_board` adds between 0 and `4 * WIN_SCORE` to one of
the two sums and leaves the other one unchanged. -/
theorem eval_board_step_bounds (s : GameState) (acc : Int × Int) (p : Int × Int) :
    acc.1 ≤ (eval_board_step s acc p).1 ∧ (eval_board_step s acc p).1 ≤ acc.1 + 4 * WIN_SCORE ∧
      acc.2 ≤ (eval_board_step s acc p).2 ∧
      (eval_board_step s acc p).2 ≤ acc.2 + 4 * WIN_SCORE := by
  have h1 := evaluate_position_bounds s.board p.1 p.2 s.my_color
  have h2 := evaluate_position_bounds s.board p.1 p.2 s.opponent_color
  unfold eval_board_step
  simp only [WIN_SCORE] at *
  split_ifs <;> omega

/-- Bounds of the two running sums of `evaluate_board` over any list of cells. -/
theorem eval_board_fold_bounds (s : GameState) :
    ∀ (l : List (Int × Int)) (acc : Int × Int), 0 ≤ acc.1 → 0 ≤ acc.2 →
      0 ≤ (l.foldl (eval_board_step s) acc).1 ∧
        (l.foldl (eval_board_step s) acc).1 ≤ acc.1 + l.length * (4 * WIN_SCORE) ∧
        0 ≤ (l.foldl (eval_board_step s) acc).2 ∧
        (l.foldl (eval_board_step s) acc).2 ≤ acc.2 + l.length * (4 * WIN_SCORE) := by
  intro l
  induction l with
  | nil => intro acc h1 h2; simp [h1, h2]
  | cons p rest ih =>
    intro acc h1 h2
    have hs := eval_board_step_bounds s acc p
    have h := ih (eval_board_step s acc p) (le_trans h1 hs.1) (le_trans h2 hs.2.2.1)
    simp only [List.foldl_cons, List.length_cons, Nat.cast_add, Nat.cast_one]
    simp only [WIN_SCORE] at *
    refine ⟨h.1, ?_, h.2.2.1, ?_⟩
    · have := h.2.1
      linarith [hs.2.1]
    · have := h.2.2.2
      linarith [hs.2.2.2]

/-- The value of `evaluate_board` lies in `[-144 * 4 * WIN_SCORE, 144 * 4 * WIN_SCORE]`. -/
theorem evaluate_board_bounds (s : GameState) :
    -(144 * 4 * WIN_SCORE) ≤ evaluate_board s ∧ evaluate_board s ≤ 144 * 4 * WIN_SCORE := by
  have h := eval_board_fold_bounds s cells (0, 0) (le_refl 0) (le_refl 0)
  have hl : (cells.length : Int) = 144 := by rw [cells_length]; rfl
  rw [hl] at h
  unfold evaluate_board
  simp only [WIN_SCORE] at *
  omega

/-- The maximizing loop returns a value in `[-B, B]` when the search below
does, provided the running maximum is in that range or is the initial
`INT_MIN` with at least one candidate to inspect. -/
theorem max_loop_bounded (search : Int → Int → GameState → Int × GameState) (B : Int)
    (hB : WIN_SCORE ≤ B)
    (hs : ∀ a b t, -B ≤ (search a b t).1 ∧ (search a b t).1 ≤ B) :
    ∀ (moves : List (Int × Int)) (max_eval alpha beta : Int) (s : GameState),
      ((max_eval = INT_MIN ∧ moves ≠ []) ∨ (-B ≤ max_eval ∧ max_eval ≤ B)) →
      -B ≤ (max_loop search moves max_eval alpha beta s).1 ∧
        (max_loop search moves max_eval alpha beta s).1 ≤ B := by
  intro moves
  induction moves with
  | nil =>
    intro max_eval alpha beta s h
    rcases h with h | h
    · exact absurd rfl h.2
    · simpa [max_loop] using h
  | cons p rest ih =>
    intro max_eval alpha beta s h
    obtain ⟨x, y⟩ := p
    have he := hs alpha beta (make_move s x y s.my_color)
    have hm : -B ≤ (if (search alpha beta (make_move s x y s.my_color)).1 > max_eval
        then (search alpha beta (make_move s x y s.my_color)).1 else max_eval) ∧
        (if (search alpha beta (make_move s x y s.my_color)).1 > max_eval
        then (search alpha beta (make_move s x y s.my_color)).1 else max_eval) ≤ B := by
      simp only [WIN_SCORE, INT_MIN] at *
      split_ifs <;> omega
    simp only [max_loop]
    generalize (if (search alpha beta (make_move s x y s.my_color)).1 > max_eval
        then (search alpha beta (make_move s x y s.my_color)).1 else max_eval) = m at hm ⊢
    have hw : -B ≤ WIN_SCORE ∧ WIN_SCORE ≤ B := by
      simp only [WIN_SCORE] at *
      constructor <;> omega
    split_ifs <;> first | exact hw | exact hm | exact ih _ _ _ _ (Or.inr hm)

/-- The minimizing loop returns a value in `[-B, B]` when the search below
does, provided the running minimum is in that range or is the initial
`INT_MAX` with at least one candidate to inspect. -/
theorem min_loop_bounded (search : Int → Int → GameState → Int × GameState) (B : Int)
    (hB : WIN_SCORE ≤ B)
    (hs : ∀ a b t, -B ≤ (search a b t).1 ∧ (search a b t).1 ≤ B) :
    ∀ (moves : List (Int × Int)) (min_eval alpha beta : Int) (s : GameState),
      ((min_eval = INT_MAX ∧ moves ≠ []) ∨ (-B ≤ min_eval ∧ min_eval ≤ B)) →
      -B ≤ (min_loop search moves min_eval alpha beta s).1 ∧
        (min_loop search moves min_eval alpha beta s).1 ≤ B := by
  intro moves
  induction moves with
  | nil =>
    intro min_eval alpha beta s h
    rcases h with h | h
    · exact absurd rfl h.2
    · simpa [min_loop] using h
  | cons p rest ih =>
    intro min_eval alpha beta s h
    obtain ⟨x, y⟩ := p
    have he := hs alpha beta (make_move s x y s.opponent_color)
    have hm : -B ≤ (if (search alpha beta (make_move s x y s.opponent_color)).1 < min_eval
        then (search alpha beta (make_move s x y s.opponent_color)).1 else min_eval) ∧
        (if (search alpha beta (make_move s x y s.opponent_color)).1 < min_eval
        then (search alpha beta (make_move s x y s.opponent_color)).1 else min_eval) ≤ B := by
      simp only [WIN_SCORE, INT_MAX] at *
      split_ifs <;> omega
    simp only [min_loop]
    generalize (if (search alpha beta (make_move s x y s.opponent_color)).1 < min_eval
        then (search alpha beta (make_move s x y s.opponent_color)).1 else min_eval) = m at hm ⊢
    have hw : -B ≤ -WIN_SCORE ∧ -WIN_SCORE ≤ B := by
      simp only [WIN_SCORE] at *
      constructor <;> omega
    split_ifs <;> first | exact hw | exact hm | exact ih _ _ _ _ (Or.inr hm)

/-- Every value returned by `minimax` lies in
`[-144 * 4 * WIN_SCORE, 144 * 4 * WIN_SCORE]`. -/
theorem minimax_bounds (late : Nat → Bool) :
    ∀ (depth : Nat) (alpha beta : Int) (flag : Bool) (s : GameState),
      -(144 * 4 * WIN_SCORE) ≤ (minimax late depth alpha beta flag s).1 ∧
        (minimax late depth alpha beta flag s).1 ≤ 144 * 4 * WIN_SCORE := by
  intro depth
  induction depth with
  | zero =>
    intro alpha beta flag s
    simp only [minimax, ite_self]
    exact evaluate_board_bounds _
  | succ d ih =>
    intro alpha beta flag s
    simp only [minimax]
    split_ifs with h1 h2 h3
    · exact evaluate_board_bounds _
    · exact evaluate_board_bounds _
    · exact max_loop_bounded _ (144 * 4 * WIN_SCORE) (by decide)
        (fun a b t => ih a b false t) _ _ _ _ _
        (Or.inl ⟨rfl, fun hn => h2 (by rw [hn]; rfl)⟩)
    · exact min_loop_bounded _ (144 * 4 * WIN_SCORE) (by decide)
        (fun a b t => ih a b true t) _ _ _ _ _
        (Or.inl ⟨rfl, fun hn => h2 (by rw [hn]; rfl)⟩)

/-- C12: for every board, the sums of `evaluate_position` and
`evaluate_board` stay inside the range of a 32-bit signed `int`: each line
length `forward + backward - 1` lies in `[-1, 23]`, the running score of
`evaluate_position` after each axis (before and after the blocked-end
division) lies in `[0, 4 * WIN_SCORE]` and so does its result, the running
`my_score` and `opponent_score` of `evaluate_board` lie in
`[0, 144 * 4 * WIN_SCORE]` after each cell, the result of `evaluate_board` lies
strictly between `INT_MIN` and `INT_MAX`, and every value returned by
`minimax` (a leaf value, `WIN_SCORE` or `-WIN_SCORE`) lies strictly between
`INT_MIN` and `INT_MAX`, so it differs from both sentinels. -/
theorem evaluation_no_overflow (b : Board) (x y color : Int) (s : GameState) :
    (∀ d ∈ dirs,
        -1 ≤ count_line b x y d.1 d.2 color + count_line b x y (-d.1) (-d.2) color - 1 ∧
        count_line b x y d.1 d.2 color + count_line b x y (-d.1) (-d.2) color - 1 ≤ 23) ∧
      (∀ l : List (Int × Int), l <+: dirs → ∀ total : Int,
        0 ≤ l.foldl (eval_dir_step b x y color) 0 ∧
        l.foldl (eval_dir_step b x y color) 0 ≤ 4 * WIN_SCORE ∧
        (l ≠ dirs →
          0 ≤ add_line_score (l.foldl (eval_dir_step b x y color) 0) total ∧
          add_line_score (l.foldl (eval_dir_step b x y color) 0) total ≤ 4 * WIN_SCORE)) ∧
      (0 ≤ evaluate_position b x y color ∧ evaluate_position b x y color ≤ 4 * WIN_SCORE) ∧
      (∀ l : List (Int × Int), l <+: cells →
        0 ≤ (l.foldl (eval_board_step s) (0, 0)).1 ∧
        (l.foldl (eval_board_step s) (0, 0)).1 ≤ 144 * 4 * WIN_SCORE ∧
        0 ≤ (l.foldl (eval_board_step s) (0, 0)).2 ∧
        (l.foldl (eval_board_step s) (0, 0)).2 ≤ 144 * 4 * WIN_SCORE) ∧
      (INT_MIN < evaluate_board s ∧ evaluate_board s < INT_MAX) ∧
      (INT_MIN < -WIN_SCORE ∧ WIN_SCORE < INT_MAX) ∧
      (∀ (late : Nat → Bool) (depth : Nat) (alpha beta : Int) (flag : Bool),
        INT_MIN < (minimax late depth alpha beta flag s).1 ∧
        (minimax late depth alpha beta flag s).1 < INT_MAX) := by
  refine ⟨?_, ?_, evaluate_position_bounds b x y color, ?_, ?_, by decide, ?_⟩
  · intro d hd
    have hu : unit_step d.1 d.2 := by
      simp only [dirs, List.mem_cons, List.mem_singleton, List.not_mem_nil, or_false] at hd
      rcases hd with h | h | h | h <;> rw [h] <;> decide
    have hv : unit_step (-d.1) (-d.2) := by
      simp only [dirs, List.mem_cons, List.mem_singleton, List.not_mem_nil, or_false] at hd
      rcases hd with h | h | h | h <;> rw [h] <;> decide
    have f0 := (line_loop_nonneg b d.1 d.2 color LINE_FUEL x y).1
    have f1 := line_loop_le_board b d.1 d.2 color LINE_FUEL x y hu.1 hu.2.1 hu.2.2
    have b0 := (line_loop_nonneg b (-d.1) (-d.2) color LINE_FUEL x y).1
    have b1 := line_loop_le_board b (-d.1) (-d.2) color LINE_FUEL x y hv.1 hv.2.1 hv.2.2
    unfold count_line
    constructor <;> omega
  · intro l hl total
    have h := eval_dirs_fold_bounds b x y color l 0 (le_refl 0)
    have hlen : l.length ≤ dirs.length := hl.length_le
    have hd : dirs.length = 4 := rfl
    have ha := add_line_score_bounds (l.foldl (eval_dir_step b x y color) 0) total
    have hlt : l ≠ dirs → l.length < 4 := by
      intro hne
      rcases Nat.lt_or_ge l.length 4 with h4 | h4
      · exact h4
      · exact absurd (hl.eq_of_length (by omega)) hne
    have hcast : (l.length : Int) ≤ 4 := by omega
    simp only [WIN_SCORE] at *
    refine ⟨h.1, by omega, ?_⟩
    intro hne
    have h3 : (l.length : Int) < 4 := by have := hlt hne; omega
    constructor <;> omega
  · intro l hl
    have h := eval_board_fold_bounds s l (0, 0) (le_refl 0) (le_refl 0)
    have hlen : l.length ≤ cells.length := hl.length_le
    rw [cells_length] at hlen
    have hcast : (l.length : Int) ≤ 144 := by omega
    simp only [WIN_SCORE] at *
    refine ⟨h.1, by omega, h.2.2.1, by omega⟩
  · have h := evaluate_board_bounds s
    simp only [WIN_SCORE, INT_MIN, INT_MAX] at *
    constructor <;> omega
  · intro late depth alpha beta flag
    have h := minimax_bounds late depth alpha beta flag s
    simp only [WIN_SCORE, INT_MIN, INT_MAX] at *
    constructor <;> omega

/-! ## C15: an immediate win at an inner node -/

/-- With `beta = INT_MAX`, `alpha` below it and search values below it, the
maximizing loop is never cut off, so it returns `WIN_SCORE` as soon as one of
the candidates wins at once. -/
theorem max_loop_win (search : Int → Int → GameState → Int × GameState)
    (hg : ∀ a b t, same_game t (search a b t).2) (hv : ∀ a b t, (search a b t).1 < INT_MAX)
    (s0 : GameState) :
    ∀ (ms : List (Int × Int)), (∀ p ∈ ms, holds s0.board 0 p.1 p.2) →
      (∃ p ∈ ms, wins_at s0.board s0.my_color p = true) →
      ∀ (M alpha : Int) (su : GameState), same_game s0 su → alpha < INT_MAX →
        (max_loop search ms M alpha INT_MAX su).1 = WIN_SCORE := by
  intro ms
  induction ms with
  | nil => intro _ h; obtain ⟨p, hp, _⟩ := h; exact absurd hp (List.not_mem_nil p)
  | cons p rest ih =>
    intro hvalid hex M alpha su hsu halpha
    obtain ⟨x, y⟩ := p
    have hxy := hvalid (x, y) (List.mem_cons_self _ _)
    have hxy2 : holds su.board 0 x y := by rw [hsu.1]; exact hxy
    simp only [max_loop, check_win_make_my s0 su x y hsu]
    by_cases hwin : wins_at s0.board s0.my_color (x, y) = true
    · rw [if_pos hwin]
    · rw [if_neg hwin]
      have he := hv alpha INT_MAX (make_move su x y su.my_color)
      have ha : (if alpha > (search alpha INT_MAX (make_move su x y su.my_color)).1 then alpha
          else (search alpha INT_MAX (make_move su x y su.my_color)).1) < INT_MAX := by
        split_ifs
        · exact halpha
        · exact he
      rw [if_neg (not_le.2 ha)]
      have hsu2 : same_game s0
          (undo_move (search alpha INT_MAX (make_move su x y su.my_color)).2 x y) :=
        same_game_trans hsu (same_game_undo su _ x y _ hxy2 (hg _ _ _))
      refine ih (fun q hq => hvalid q (List.mem_cons_of_mem _ hq)) ?_ _ _ _ hsu2 ha
      obtain ⟨q, hq, hqw⟩ := hex
      rcases List.mem_cons.1 hq with h | h
      · rw [h] at hqw
        exact absurd hqw hwin
      · exact ⟨q, h, hqw⟩

/-- With `alpha = INT_MIN`, `beta` above it and search values above it, the
minimizing loop is never cut off, so it returns `-WIN_SCORE` as soon as one of
the candidates wins at once for the opponent. -/
theorem min_loop_win (search : Int → Int → GameState → Int × GameState)
    (hg : ∀ a b t, same_game t (search a b t).2) (hv : ∀ a b t, INT_MIN < (search a b t).1)
    (s0 : GameState) :
    ∀ (ms : List (Int × Int)), (∀ p ∈ ms, holds s0.board 0 p.1 p.2) →
      (∃ p ∈ ms, wins_at s0.board s0.opponent_color p = true) →
      ∀ (M beta : Int) (su : GameState), same_game s0 su → INT_MIN < beta →
        (min_loop search ms M INT_MIN beta su).1 = -WIN_SCORE := by
  intro ms
  induction ms with
  | nil => intro _ h; obtain ⟨p, hp, _⟩ := h; exact absurd hp (List.not_mem_nil p)
  | cons p rest ih =>
    intro hvalid hex M beta su hsu hbeta
    obtain ⟨x, y⟩ := p
    have hxy := hvalid (x, y) (List.mem_cons_self _ _)
    have hxy2 : holds su.board 0 x y := by rw [hsu.1]; exact hxy
    simp only [min_loop, check_win_make_opp s0 su x y hsu]
    by_cases hwin : wins_at s0.board s0.opponent_color (x, y) = true
    · rw [if_pos hwin]
    · rw [if_neg hwin]
      have he := hv INT_MIN beta (make_move su x y su.opponent_color)
      have hb : INT_MIN < (if beta < (search INT_MIN beta
          (make_move su x y su.opponent_color)).1 then beta
          else (search INT_MIN beta (make_move su x y su.opponent_color)).1) := by
        split_ifs
        · exact hbeta
        · exact he
      rw [if_neg (not_le.2 hb)]
      have hsu2 : same_game s0
          (undo_move (search INT_MIN beta (make_move su x y su.opponent_color)).2 x y) :=
        same_game_trans hsu (same_game_undo su _ x y _ hxy2 (hg _ _ _))
      refine ih (fun q hq => hvalid q (List.mem_cons_of_mem _ hq)) ?_ _ _ _ hsu2 hb
      obtain ⟨q, hq, hqw⟩ := hex
      rcases List.mem_cons.1 hq with h | h
      · rw [h] at hqw
        exact absurd hqw hwin
      · exact ⟨q, h, hqw⟩

/-- C15: for every board, every depth of at least 1 and the full window
`(INT_MIN, INT_MAX)`, if the deadline has not passed at entry of the node and
some empty cell would be an immediate win for the side to move (a stone
colour), `minimax` returns exactly `WIN_SCORE` at a maximizing node and exactly
`-WIN_SCORE` at a minimizing node, whatever the clock does afterwards. -/
theorem minimax_immediate_win (late : Nat → Bool) (depth : Nat) (s : GameState)
    (hdepth : 1 ≤ depth) (hlate : late s.ticks = false) :
    (s.my_color ≠ EMPTY →
        (∃ q : Int × Int, holds s.board 0 q.1 q.2 ∧ wins_at s.board s.my_color q = true) →
        (minimax late depth INT_MIN INT_MAX true s).1 = WIN_SCORE) ∧
      (s.opponent_color ≠ EMPTY →
        (∃ q : Int × Int, holds s.board 0 q.1 q.2 ∧
          wins_at s.board s.opponent_color q = true) →
        (minimax late depth INT_MIN INT_MAX false s).1 = -WIN_SCORE) := by
  obtain ⟨d, rfl⟩ : ∃ d, depth = d + 1 := ⟨depth - 1, by omega⟩
  have hvalid : ∀ p ∈ generate_moves (tick s).board, holds s.board 0 p.1 p.2 :=
    fun p hp => generate_moves_valid s.board p hp
  constructor
  · intro hc hex
    obtain ⟨q, hq, hw⟩ := hex
    have hmem : q ∈ generate_moves (tick s).board := win_mem_candidates s.board _ hc q hq hw
    have hne : ¬ (generate_moves (tick s).board).length = 0 := by
      intro h0
      rw [List.length_eq_zero.1 h0] at hmem
      exact absurd hmem (List.not_mem_nil q)
    simp only [minimax, hlate, if_neg hne, if_true, Bool.false_eq_true, if_false]
    exact max_loop_win _ (fun a b t => minimax_same_game late d a b false t)
      (fun a b t => by
        have h := (minimax_bounds late d a b false t).2
        simp only [WIN_SCORE, INT_MAX] at *
        omega)
      s _ hvalid ⟨q, hmem, hw⟩ _ _ _ (same_game_tick s) (by decide)
  · intro hc hex
    obtain ⟨q, hq, hw⟩ := hex
    have hmem : q ∈ generate_moves (tick s).board := win_mem_candidates s.board _ hc q hq hw
    have hne : ¬ (generate_moves (tick s).board).length = 0 := by
      intro h0
      rw [List.length_eq_zero.1 h0] at hmem
      exact absurd hmem (List.not_mem_nil q)
    simp only [minimax, hlate, if_neg hne, Bool.false_eq_true, if_false]
    exact min_loop_win _ (fun a b t => minimax_same_game late d a b true t)
      (fun a b t => by
        have h := (minimax_bounds late d a b true t).1
        simp only [WIN_SCORE, INT_MIN] at *
        omega)
      s _ hvalid ⟨q, hmem, hw⟩ _ _ _ (same_game_tick s) (by decide)

set_option maxRecDepth 1000000 in
/-- Instance of `minimax_immediate_win`: on `board_four` black completes five at
`(0, 0)`; black is my side at the maximizing node and the opponent at the
minimizing node; depth 3, the clock is late at every reading after the first. -/
theorem minimax_immediate_win_witness :
    (minimax (fun n => decide (0 < n)) 3 INT_MIN INT_MAX true
        ⟨board_four, BLACK, WHITE, 0⟩).1 = WIN_SCORE ∧
      (minimax (fun n => decide (0 < n)) 3 INT_MIN INT_MAX false
        ⟨board_four, WHITE, BLACK, 0⟩).1 = -WIN_SCORE :=
  ⟨(minimax_immediate_win (fun n => decide (0 < n)) 3 ⟨board_four, BLACK, WHITE, 0⟩
      (by decide) (by decide)).1 (by decide) ⟨(0, 0), by decide, by decide⟩,
    (minimax_immediate_win (fun n => decide (0 < n)) 3 ⟨board_four, WHITE, BLACK, 0⟩
      (by decide) (by decide)).2 (by decide) ⟨(0, 0), by decide, by decide⟩⟩

/-! ## C16: the root loop keeps the first candidate of maximal score -/

/-- The candidates are generated in strictly increasing row-major order. -/
theorem generate_moves_pairwise (b : Board) : (generate_moves b).Pairwise row_major_lt := by
  unfold generate_moves
  simp only
  split_ifs
  · exact List.pairwise_singleton _ _
  · exact cells_pairwise.filter _

/-- Two states of the same game are states of the same game as each other. -/
theorem same_game_of_common {s0 s t : GameState} (hs : same_game s0 s) (ht : same_game s0 t) :
    same_game s t :=
  ⟨ht.1.trans hs.1.symm, ht.2.1.trans hs.2.1.symm, ht.2.2.trans hs.2.2.symm⟩

/-- The value of the maximizing loop depends on the game only, when this is
so for the search below. -/
theorem max_loop_congr (search : Int → Int → GameState → Int × GameState)
    (hg : ∀ a b t, same_game t (search a b t).2)
    (hc : ∀ a b t u, same_game t u → (search a b t).1 = (search a b u).1) (s0 : GameState) :
    ∀ (ms : List (Int × Int)), (∀ p ∈ ms, holds s0.board 0 p.1 p.2) →
      ∀ (M a b : Int) (s t : GameState), same_game s0 s → same_game s0 t →
        (max_loop search ms M a b s).1 = (max_loop search ms M a b t).1 := by
  intro ms
  induction ms with
  | nil => intro _ M a b s t _ _; rfl
  | cons p rest ih =>
    intro hv M a b s t hs ht
    obtain ⟨x, y⟩ := p
    have hxy := hv (x, y) (List.mem_cons_self _ _)
    have hxys : holds s.board 0 x y := by rw [hs.1]; exact hxy
    have hxyt : holds t.board 0 x y := by rw [ht.1]; exact hxy
    have e : (search a b (make_move t x y t.my_color)).1
        = (search a b (make_move s x y s.my_color)).1 :=
      (hc a b _ _ (same_game_make s t x y (same_game_of_common hs ht)).1).symm
    have hs2 : same_game s0 (undo_move (search a b (make_move s x y s.my_color)).2 x y) :=
      same_game_trans hs (same_game_undo s _ x y _ hxys (hg _ _ _))
    have ht2 : same_game s0 (undo_move (search a b (make_move t x y t.my_color)).2 x y) :=
      same_game_trans ht (same_game_undo t _ x y _ hxyt (hg _ _ _))
    have hrec := ih (fun q hq => hv q (List.mem_cons_of_mem _ hq))
    simp only [max_loop, check_win_make_my s0 s x y hs, check_win_make_my s0 t x y ht, e]
    split_ifs <;> first | rfl | exact hrec _ _ _ _ _ hs2 ht2

/-- The value of the minimizing loop depends on the game only, when this is
so for the search below. -/
theorem min_loop_congr (search : Int → Int → GameState → Int × GameState)
    (hg : ∀ a b t, same_game t (search a b t).2)
    (hc : ∀ a b t u, same_game t u → (search a b t).1 = (search a b u).1) (s0 : GameState) :
    ∀ (ms : List (Int × Int)), (∀ p ∈ ms, holds s0.board 0 p.1 p.2) →
      ∀ (M a b : Int) (s t : GameState), same_game s0 s → same_game s0 t →
        (min_loop search ms M a b s).1 = (min_loop search ms M a b t).1 := by
  intro ms
  induction ms with
  | nil => intro _ M a b s t _ _; rfl
  | cons p rest ih =>
    intro hv M a b s t hs ht
    obtain ⟨x, y⟩ := p
    have hxy := hv (x, y) (List.mem_cons_self _ _)
    have hxys : holds s.board 0 x y := by rw [hs.1]; exact hxy
    have hxyt : holds t.board 0 x y := by rw [ht.1]; exact hxy
    have e : (search a b (make_move t x y t.opponent_color)).1
        = (search a b (make_move s x y s.opponent_color)).1 :=
      (hc a b _ _ (same_game_make s t x y (same_game_of_common hs ht)).2).symm
    have hs2 : same_game s0
        (undo_move (search a b (make_move s x y s.opponent_color)).2 x y) :=
      same_game_trans hs (same_game_undo s _ x y _ hxys (hg _ _ _))
    have ht2 : same_game s0
        (undo_move (search a b (make_move t x y t.opponent_color)).2 x y) :=
      same_game_trans ht (same_game_undo t _ x y _ hxyt (hg _ _ _))
    have hrec := ih (fun q hq => hv q (List.mem_cons_of_mem _ hq))
    simp only [min_loop, check_win_make_opp s0 s x y hs, check_win_make_opp s0 t x y ht, e]
    split_ifs <;> first | rfl | exact hrec _ _ _ _ _ hs2 ht2

/-- With the deadline never exceeded, the value of `minimax` depends on the
board and the side assignment only, not on the number of clock readings. -/
theorem minimax_never_late_congr :
    ∀ (depth : Nat) (alpha beta : Int) (flag : Bool) (s t : GameState), same_game s t →
      (minimax never_late depth alpha beta flag s).1
        = (minimax never_late depth alpha beta flag t).1 := by
  intro depth
  induction depth with
  | zero =>
    intro alpha beta flag s t h
    simp only [minimax, ite_self]
    exact (evaluate_board_congr (tick s) (tick t) ⟨h.1, h.2.1, h.2.2⟩).symm
  | succ d ih =>
    intro alpha beta flag s t h
    have hb : (tick t).board = (tick s).board := h.1
    have hvalid : ∀ p ∈ generate_moves (tick s).board, holds s.board 0 p.1 p.2 :=
      fun p hp => generate_moves_valid s.board p hp
    simp only [minimax, never_late, Bool.false_eq_true, if_false, hb]
    split_ifs
    · exact (evaluate_board_congr (tick s) (tick t) ⟨h.1, h.2.1, h.2.2⟩).symm
    · exact max_loop_congr _ (fun a b u => minimax_same_game never_late d a b false u)
        (fun a b u v huv => ih a b false u v huv) s _ hvalid _ _ _ _ _ (same_game_tick s)
        (same_game_trans h (same_game_tick t))
    · exact min_loop_congr _ (fun a b u => minimax_same_game never_late d a b true u)
        (fun a b u v huv => ih a b true u v huv) s _ hvalid _ _ _ _ _ (same_game_tick s)
        (same_game_trans h (same_game_tick t))

/-- With the deadline never exceeded, the third loop of `get_best_move` either
keeps the incoming `best` (no candidate scores above `bs`) or returns the
first candidate of maximal score, which is above `bs`. -/
theorem root_loop_argmax (search : GameState → Int × GameState)
    (hg : ∀ t, same_game t (search t).2) (score : Int × Int → Int) (s0 : GameState) :
    ∀ (ms : List (Int × Int)), (∀ p ∈ ms, holds s0.board 0 p.1 p.2) →
      (∀ p ∈ ms, ∀ t, same_game (make_move s0 p.1 p.2 s0.my_color) t → (search t).1 = score p) →
      ms.Pairwise row_major_lt →
      ∀ (bs : Int) (best : Int × Int) (su : GameState), same_game s0 su →
        ((root_loop never_late search ms bs best su).1 = bs ∧
            (root_loop never_late search ms bs best su).2.1 = best ∧
            ∀ q ∈ ms, score q ≤ bs) ∨
          ((root_loop never_late search ms bs best su).2.1 ∈ ms ∧
            (root_loop never_late search ms bs best su).1
              = score (root_loop never_late search ms bs best su).2.1 ∧
            bs < (root_loop never_late search ms bs best su).1 ∧
            (∀ q ∈ ms, score q ≤ (root_loop never_late search ms bs best su).1) ∧
            (∀ q ∈ ms, score q = (root_loop never_late search ms bs best su).1 →
              (root_loop never_late search ms bs best su).2.1 = q ∨
              row_major_lt (root_loop never_late search ms bs best su).2.1 q)) := by
  intro ms
  induction ms with
  | nil =>
    intro _ _ _ bs best su _
    exact Or.inl ⟨rfl, rfl, fun q hq => absurd hq (List.not_mem_nil q)⟩
  | cons p rest ih =>
    intro hv hsc hpw bs best su hsu
    obtain ⟨x, y⟩ := p
    have hxy := hv (x, y) (List.mem_cons_self _ _)
    have hxyu : holds su.board 0 x y := by rw [hsu.1]; exact hxy
    have e : (search (make_move su x y su.my_color)).1 = score (x, y) :=
      hsc (x, y) (List.mem_cons_self _ _) _ (same_game_make s0 su x y hsu).1
    have hsu2 : same_game s0 (tick (undo_move (search (make_move su x y su.my_color)).2 x y)) :=
      same_game_trans (same_game_trans hsu (same_game_undo su _ x y _ hxyu (hg _)))
        (same_game_tick _)
    have hfirst : ∀ q ∈ rest, row_major_lt (x, y) q := (List.pairwise_cons.1 hpw).1
    have hrec := ih (fun q hq => hv q (List.mem_cons_of_mem _ hq))
      (fun q hq => hsc q (List.mem_cons_of_mem _ hq)) (List.pairwise_cons.1 hpw).2
    simp only [root_loop, never_late, Bool.false_eq_true, if_false, e]
    by_cases hgt : score (x, y) > bs
    · simp only [if_pos hgt]
      rcases hrec (score (x, y)) (x, y) _ hsu2 with h | h
      · obtain ⟨h1, h2, h3⟩ := h
        refine Or.inr ⟨?_, ?_, ?_, ?_, ?_⟩
        · rw [h2]; exact List.mem_cons_self _ _
        · rw [h1, h2]
        · rw [h1]; exact hgt
        · intro q hq
          rw [h1]
          rcases List.mem_cons.1 hq with hq | hq
          · rw [hq]
          · exact h3 q hq
        · intro q hq _
          rw [h2]
          rcases List.mem_cons.1 hq with hq | hq
          · exact Or.inl hq.symm
          · exact Or.inr (hfirst q hq)
      · obtain ⟨h1, h2, h3, h4, h5⟩ := h
        refine Or.inr ⟨List.mem_cons_of_mem _ h1, h2, lt_trans hgt h3, ?_, ?_⟩
        · intro q hq
          rcases List.mem_cons.1 hq with hq | hq
          · rw [hq]; exact le_of_lt h3
          · exact h4 q hq
        · intro q hq heq
          rcases List.mem_cons.1 hq with hq | hq
          · rw [hq] at heq
            exact absurd heq (ne_of_lt h3)
          · exact h5 q hq heq
    · simp only [if_neg hgt]
      rcases hrec bs best _ hsu2 with h | h
      · obtain ⟨h1, h2, h3⟩ := h
        refine Or.inl ⟨h1, h2, ?_⟩
        intro q hq
        rcases List.mem_cons.1 hq with hq | hq
        · rw [hq]; exact not_lt.1 hgt
        · exact h3 q hq
      · obtain ⟨h1, h2, h3, h4, h5⟩ := h
        refine Or.inr ⟨List.mem_cons_of_mem _ h1, h2, h3, ?_, ?_⟩
        · intro q hq
          rcases List.mem_cons.1 hq with hq | hq
          · rw [hq]; exact le_of_lt (lt_of_le_of_lt (not_lt.1 hgt) h3)
          · exact h4 q hq
        · intro q hq heq
          rcases List.mem_cons.1 hq with hq | hq
          · rw [hq] at heq
            exact absurd heq (ne_of_lt (lt_of_le_of_lt (not_lt.1 hgt) h3))
          · exact h5 q hq heq

/-- Counterexample to C16 as stated: `board_full` is a non-empty board
without candidates (so no candidate is an immediate win), and with the
deadline never exceeded `get_best_move` returns the centre `(6, 6)`, which is
an occupied cell and not a candidate. -/
theorem get_best_move_full_board :
    board_full.cell 0 0 ≠ EMPTY ∧ generate_moves board_full = [] ∧
      (∀ p ∈ generate_moves board_full,
        wins_at board_full BLACK p = false ∧ wins_at board_full WHITE p = false) ∧
      (get_best_move never_late ⟨board_full, BLACK, WHITE, 0⟩).1 = (6, 6) ∧
      (6, 6) ∉ generate_moves board_full ∧ board_full.cell 6 6 ≠ EMPTY := by
  have hnil : generate_moves board_full = [] := generate_moves_board_full
  refine ⟨by decide, hnil, ?_, ?_, ?_, by decide⟩
  · intro p hp
    rw [hnil] at hp
    exact absurd hp (List.not_mem_nil p)
  · unfold get_best_move
    have h0 : (generate_moves (⟨board_full, BLACK, WHITE, 0⟩ : GameState).board).length = 0 :=
      congrArg List.length hnil
    rw [get_best_move_with_eq, if_pos h0]
    rfl
  · rw [hnil]
    exact List.not_mem_nil _

/-- C16 (amended): for every board with at least one empty cell on which no
candidate is an immediate win for my side or for the opponent, and with the
deadline never exceeded, `get_best_move` returns a candidate whose score
`minimax(MAX_DEPTH - 1, INT_MIN, INT_MAX, minimizing)` after placing my stone
there is the maximum of that score over all candidates, and which comes before
every other candidate of that score in row-major generation order. -/
theorem get_best_move_argmax (s : GameState) (hE : ∃ x y, holds s.board 0 x y)
    (hmy : ∀ p ∈ generate_moves s.board, wins_at s.board s.my_color p = false)
    (hopp : ∀ p ∈ generate_moves s.board, wins_at s.board s.opponent_color p = false) :
    (get_best_move never_late s).1 ∈ generate_moves s.board ∧
      (∀ q ∈ generate_moves s.board,
        root_score s q ≤ root_score s (get_best_move never_late s).1) ∧
      (∀ q ∈ generate_moves s.board,
        root_score s q = root_score s (get_best_move never_late s).1 →
        (get_best_move never_late s).1 = q ∨ row_major_lt (get_best_move never_late s).1 q) := by
  have hne := generate_moves_ne_nil s.board hE
  have hlen : ¬ (generate_moves s.board).length = 0 := fun h => hne (List.length_eq_zero.1 h)
  have hf1 : (generate_moves s.board).find? (wins_at s.board s.my_color) = none :=
    List.find?_eq_none.2 (fun p hp => by rw [hmy p hp]; exact Bool.false_ne_true)
  have hf2 : (generate_moves s.board).find? (wins_at s.board s.opponent_color) = none :=
    List.find?_eq_none.2 (fun p hp => by rw [hopp p hp]; exact Bool.false_ne_true)
  have hr := root_loop_argmax (minimax never_late (MAX_DEPTH - 1) INT_MIN INT_MAX false)
    (fun t => minimax_same_game never_late _ _ _ _ t) (root_score s) s
    (generate_moves s.board) (generate_moves_valid s.board)
    (fun p _ t ht => (minimax_never_late_congr _ _ _ _ _ t ht).symm)
    (generate_moves_pairwise s.board) INT_MIN ((generate_moves s.board).headD (0, 0)) s
    (same_game_refl s)
  have hgb : (get_best_move never_late s).1
      = (root_loop never_late (minimax never_late (MAX_DEPTH - 1) INT_MIN INT_MAX false)
          (generate_moves s.board) INT_MIN ((generate_moves s.board).headD (0, 0)) s).2.1 := by
    unfold get_best_move
    rw [get_best_move_with_eq, if_neg hlen, hf1, hf2]
  rw [hgb]
  rcases hr with h | h
  · exfalso
    obtain ⟨q, hq⟩ := List.exists_mem_of_ne_nil _ hne
    have h1 := h.2.2 q hq
    have h2 := (minimax_bounds never_late (MAX_DEPTH - 1) INT_MIN INT_MAX false
      (make_move s q.1 q.2 s.my_color)).1
    unfold root_score at h1
    simp only [WIN_SCORE, INT_MIN] at *
    omega
  · obtain ⟨h1, h2, _, h4, h5⟩ := h
    refine ⟨h1, ?_, ?_⟩
    · intro q hq
      rw [← h2]
      exact h4 q hq
    · intro q hq heq
      rw [← h2] at heq
      exact h5 q hq heq

set_option maxRecDepth 1000000 in
/-- Instance of `get_best_move_argmax`: black to move on `board_corner`. -/
theorem get_best_move_argmax_witness :
    (get_best_move never_late ⟨board_corner, BLACK, WHITE, 0⟩).1
      ∈ generate_moves board_corner :=
  (get_best_move_argmax ⟨board_corner, BLACK, WHITE, 0⟩ ⟨0, 1, by decide⟩ (by decide)
    (by decide)).1

/-! ## C11: the open three -/

/-- Every cell off the three stones of a lone three is empty. -/
theorem lone_three_empty (b : Board) (c x y dx dy : Int) (h : lone_three b c x y dx dy)
    (i j : Int) (hin : in_board i j) (h0 : ¬ (i = x ∧ j = y))
    (h1 : ¬ (i = x + dx ∧ j = y + dy)) (h2 : ¬ (i = x + 2 * dx ∧ j = y + 2 * dy)) :
    b.cell i j = EMPTY :=
  h.2.2.2 (i, j) ((mem_cells (i, j)).2 hin) h0 h1 h2

/-- From its first stone along its own direction a lone three counts 3. -/
theorem count_line_run (b : Board) (c x y dx dy : Int) (hc : c ≠ EMPTY)
    (hd : unit_step dx dy) (h : lone_three b c x y dx dy) :
    count_line b x y dx dy c = 3 := by
  have hk := line_loop_eq b dx dy c LINE_FUEL x y 3 (by decide)
    (by
      intro t ht
      interval_cases t
      · simpa using h.1
      · simpa using h.2.1
      · simpa using h.2.2.1)
    (by
      intro hh
      have hin : in_board (x + ((3 : Nat) : Int) * dx) (y + ((3 : Nat) : Int) * dy) :=
        ⟨hh.1, hh.2.1, hh.2.2.1, hh.2.2.2.1⟩
      have he := lone_three_empty b c x y dx dy h _ _ hin
        (by unfold unit_step at hd; push_cast; omega)
        (by unfold unit_step at hd; push_cast; omega)
        (by unfold unit_step at hd; push_cast; omega)
      exact hc (hh.2.2.2.2.symm.trans he))
  unfold count_line
  rw [hk]
  rfl

/-- From its first stone along any other direction a lone three counts 1. -/
theorem count_line_off (b : Board) (c x y dx dy e1 e2 : Int) (hc : c ≠ EMPTY)
    (he : unit_step e1 e2) (hne : ¬ (e1 = dx ∧ e2 = dy))
    (h : lone_three b c x y dx dy) :
    count_line b x y e1 e2 c = 1 := by
  have hk := line_loop_eq b e1 e2 c LINE_FUEL x y 1 (by decide)
    (by
      intro t ht
      interval_cases t
      simpa using h.1)
    (by
      intro hh
      have hin : in_board (x + ((1 : Nat) : Int) * e1) (y + ((1 : Nat) : Int) * e2) :=
        ⟨hh.1, hh.2.1, hh.2.2.1, hh.2.2.2.1⟩
      have hz := lone_three_empty b c x y dx dy h _ _ hin
        (by unfold unit_step at he; push_cast; omega)
        (by unfold unit_step at he; push_cast; omega)
        (by unfold unit_step at he; push_cast; omega)
      exact hc (hh.2.2.2.2.symm.trans hz))
  unfold count_line
  rw [hk]
  rfl

/-- An empty on-board cell does not block a line of black or of white. -/
theorem end_blocked_empty (b : Board) (i j c : Int) (hc : c = BLACK ∨ c = WHITE)
    (hin : in_board i j) (h0 : b.cell i j = EMPTY) : end_blocked b i j c = false := by
  unfold end_blocked
  rw [decide_eq_false_iff_not, h0]
  unfold in_board at hin
  simp only [BOARD_SIZE, EMPTY, BLACK, WHITE] at *
  omega

/-- One axis of `evaluate_position` when neither end of the line is blocked. -/
theorem eval_dir_step_open (b : Board) (x y c score : Int) (d : Int × Int) (F B : Int)
    (hF : count_line b x y d.1 d.2 c = F) (hB : count_line b x y (-d.1) (-d.2) c = B)
    (h1 : end_blocked b (x + F * d.1) (y + F * d.2) c = false)
    (h2 : end_blocked b (x - B * d.1) (y - B * d.2) c = false) :
    eval_dir_step b x y c score d = add_line_score score (F + B - 1) := by
  unfold eval_dir_step
  simp only [hF, hB, h1, h2]
  simp

/-- The opposite of a unit step is a unit step. -/
theorem unit_step_neg (dx dy : Int) (h : unit_step dx dy) : unit_step (-dx) (-dy) := by
  unfold unit_step at *
  omega

/-- At the first stone of a lone three of black or white that is not on the
border, with the cell beyond the far end on the board, the axis of the three
adds 1000 and every other axis adds 10, without division. -/
theorem eval_dir_step_lone_three (b : Board) (c x y dx dy score : Int) (a : Int × Int)
    (hc : c = BLACK ∨ c = WHITE) (hd : unit_step dx dy) (ha : unit_step a.1 a.2)
    (h : lone_three b c x y dx dy)
    (hint : 0 < x ∧ x < BOARD_SIZE - 1 ∧ 0 < y ∧ y < BOARD_SIZE - 1)
    (hend : in_board (x + 3 * dx) (y + 3 * dy)) :
    eval_dir_step b x y c score a
      = score + (if (a.1 = dx ∧ a.2 = dy) ∨ (a.1 = -dx ∧ a.2 = -dy) then 1000 else 10) := by
  have hc0 : c ≠ EMPTY := by
    simp only [EMPTY, BLACK, WHITE] at *
    omega
  have hna := unit_step_neg a.1 a.2 ha
  have hempty : ∀ i j, in_board i j → ¬ (i = x ∧ j = y) → ¬ (i = x + dx ∧ j = y + dy) →
      ¬ (i = x + 2 * dx ∧ j = y + 2 * dy) → end_blocked b i j c = false :=
    fun i j hin h0 h1 h2 =>
      end_blocked_empty b i j c hc hin (lone_three_empty b c x y dx dy h i j hin h0 h1 h2)
  unfold unit_step at hd ha
  unfold in_board at hend
  simp only [BOARD_SIZE] at hint hend
  by_cases h1 : a.1 = dx ∧ a.2 = dy
  · have hF : count_line b x y a.1 a.2 c = 3 := by
      rw [h1.1, h1.2]
      exact count_line_run b c x y dx dy hc0 (by unfold unit_step; exact hd) h
    have hB : count_line b x y (-a.1) (-a.2) c = 1 :=
      count_line_off b c x y dx dy _ _ hc0 hna (by omega) h
    rw [eval_dir_step_open b x y c score a 3 1 hF hB
      (hempty _ _ (by unfold in_board; simp only [BOARD_SIZE]; omega) (by omega) (by omega)
        (by omega))
      (hempty _ _ (by unfold in_board; simp only [BOARD_SIZE]; omega) (by omega) (by omega)
        (by omega)),
      if_pos (Or.inl h1)]
    rfl
  · by_cases h2 : a.1 = -dx ∧ a.2 = -dy
    · have hF : count_line b x y a.1 a.2 c = 1 :=
        count_line_off b c x y dx dy _ _ hc0
          (by unfold unit_step; exact ha) (by omega) h
      have hB : count_line b x y (-a.1) (-a.2) c = 3 := by
        have e1 : -a.1 = dx := by omega
        have e2 : -a.2 = dy := by omega
        rw [e1, e2]
        exact count_line_run b c x y dx dy hc0 (by unfold unit_step; exact hd) h
      rw [eval_dir_step_open b x y c score a 1 3 hF hB
        (hempty _ _ (by unfold in_board; simp only [BOARD_SIZE]; omega) (by omega) (by omega)
          (by omega))
        (hempty _ _ (by unfold in_board; simp only [BOARD_SIZE]; omega) (by omega) (by omega)
          (by omega)),
        if_pos (Or.inr h2)]
      rfl
    · have hF : count_line b x y a.1 a.2 c = 1 :=
        count_line_off b c x y dx dy _ _ hc0
          (by unfold unit_step; exact ha) h1 h
      have hB : count_line b x y (-a.1) (-a.2) c = 1 :=
        count_line_off b c x y dx dy _ _ hc0 hna (by omega) h
      rw [eval_dir_step_open b x y c score a 1 1 hF hB
        (hempty _ _ (by unfold in_board; simp only [BOARD_SIZE]; omega) (by omega) (by omega)
          (by omega))
        (hempty _ _ (by unfold in_board; simp only [BOARD_SIZE]; omega) (by omega) (by omega)
          (by omega)),
        if_neg (not_or.2 ⟨h1, h2⟩)]
      rfl

/-- At the first stone of a lone three of black or white that is not on the
border, with the cell beyond the far end on the board, `evaluate_position` is
1030. -/
theorem evaluate_position_lone_three (b : Board) (c x y dx dy : Int)
    (hc : c = BLACK ∨ c = WHITE) (hd : unit_step dx dy) (h : lone_three b c x y dx dy)
    (hint : 0 < x ∧ x < BOARD_SIZE - 1 ∧ 0 < y ∧ y < BOARD_SIZE - 1)
    (hend : in_board (x + 3 * dx) (y + 3 * dy)) :
    evaluate_position b x y c = 1030 := by
  have hM := fun (score : Int) (a : Int × Int) (ha : unit_step a.1 a.2) =>
    eval_dir_step_lone_three b c x y dx dy score a hc hd ha h hint hend
  unfold evaluate_position
  simp only [dirs, List.foldl]
  rw [hM 0 (0, 1) (by decide), hM _ (1, 0) (by decide), hM _ (1, 1) (by decide),
    hM _ (1, -1) (by decide)]
  obtain ⟨h1, h2, h3⟩ := hd
  clear hM h hint hend hc
  rcases h1 with h1 | h1 | h1 <;> rcases h2 with h2 | h2 | h2 <;> subst h1 <;> subst h2 <;>
    first
    | decide
    | exact absurd rfl (h3.elim id id)

/-- A lone three read from its other end. -/
theorem lone_three_reverse (b : Board) (c x y dx dy : Int) (h : lone_three b c x y dx dy) :
    lone_three b c (x + 2 * dx) (y + 2 * dy) (-dx) (-dy) := by
  have e1 : x + 2 * dx + -dx = x + dx := by ring
  have e2 : y + 2 * dy + -dy = y + dy := by ring
  have e3 : x + 2 * dx + 2 * -dx = x := by ring
  have e4 : y + 2 * dy + 2 * -dy = y := by ring
  unfold lone_three
  rw [e1, e2, e3, e4]
  exact ⟨h.2.2.1, h.2.1, h.1, fun p hp h0 h1 h2 => h.2.2.2 p hp h2 h1 h0⟩

set_option maxRecDepth 1000000 in
/-- Counterexample to C11 as stated: `board_edge_three` holds only three
contiguous black stones `(0,1), (0,2), (0,3)`; the cells `(0,0)` and `(0,4)`
beyond both ends are on the board and empty; yet `evaluate_position` at either
endpoint is 41, not 1030, because on the three other axes the cell above the
border is off the board and counts as a blocked end (with the division applied
per axis the value would be 1009). -/
theorem evaluate_position_edge_three :
    lone_three board_edge_three BLACK 0 1 0 1 ∧
      holds board_edge_three 0 0 0 ∧ holds board_edge_three 0 0 4 ∧
      evaluate_position board_edge_three 0 1 BLACK = 41 ∧
      evaluate_position board_edge_three 0 3 BLACK = 41 ∧
      per_axis_sum board_edge_three 0 1 BLACK = 1009 ∧
      per_axis_sum board_edge_three 0 3 BLACK = 1009 := by
  decide

/-- C11 (amended): for every board whose only stones are three contiguous
stones of one side `c` (black or white) along one axis, with the cells just
beyond both ends of the run on the board and empty, `evaluate_position` at an
endpoint stone of the run that is not on the border of the board equals 1000
for the axis of the run plus 10 for each of the three other axes, 1030, with
no blocked-end division applied. -/
theorem evaluate_position_open_three (b : Board) (c x y dx dy : Int)
    (hc : c = BLACK ∨ c = WHITE) (hd : unit_step dx dy) (h : lone_three b c x y dx dy)
    (hends : holds b 0 (x - dx) (y - dy) ∧ holds b 0 (x + 3 * dx) (y + 3 * dy)) :
    ((0 < x ∧ x < BOARD_SIZE - 1 ∧ 0 < y ∧ y < BOARD_SIZE - 1) →
        evaluate_position b x y c = 1030) ∧
      ((0 < x + 2 * dx ∧ x + 2 * dx < BOARD_SIZE - 1 ∧
          0 < y + 2 * dy ∧ y + 2 * dy < BOARD_SIZE - 1) →
        evaluate_position b (x + 2 * dx) (y + 2 * dy) c = 1030) := by
  constructor
  · intro hint
    exact evaluate_position_lone_three b c x y dx dy hc hd h hint
      ⟨hends.2.1, hends.2.2.1, hends.2.2.2.1, hends.2.2.2.2.1⟩
  · intro hint
    have e1 : x + 2 * dx + 3 * -dx = x - dx := by ring
    have e2 : y + 2 * dy + 3 * -dy = y - dy := by ring
    exact evaluate_position_lone_three b c (x + 2 * dx) (y + 2 * dy) (-dx) (-dy) hc
      (unit_step_neg dx dy hd) (lone_three_reverse b c x y dx dy h) hint
      (by rw [e1, e2]; exact ⟨hends.1.1, hends.1.2.1, hends.1.2.2.1, hends.1.2.2.2.1⟩)

set_option maxRecDepth 1000000 in
/-- Instance of `evaluate_position_open_three`: the black three of
`board_mid_three`, at both endpoints `(5, 4)` and `(5, 6)`. -/
theorem evaluate_position_open_three_witness :
    evaluate_position board_mid_three 5 4 BLACK = 1030 ∧
      evaluate_position board_mid_three 5 6 BLACK = 1030 :=
  ⟨(evaluate_position_open_three board_mid_three BLACK 5 4 0 1 (by decide) (by decide)
      (by decide) (by decide)).1 (by decide),
    (evaluate_position_open_three board_mid_three BLACK 5 4 0 1 (by decide) (by decide)
      (by decide) (by decide)).2 (by decide)⟩

/-! ## C5: positions with few stones satisfy the bound on the evaluations -/

/-- The cells of the board are pairwise distinct. -/
theorem cells_nodup : cells.Nodup := by
  refine cells_pairwise.imp ?_
  intro a b h hab
  subst hab
  unfold row_major_lt at h
  omega

/-- The cells counted by `count_line` are on the board and hold the colour. -/
theorem count_line_holds (b : Board) (x y dx dy c : Int) (i : Int) (h0 : 0 ≤ i)
    (h1 : i < count_line b x y dx dy c) : holds b c (x + i * dx) (y + i * dy) := by
  have h := line_loop_holds b dx dy c LINE_FUEL x y i.toNat
    (by rw [Int.toNat_of_nonneg h0]; exact h1)
  rwa [Int.toNat_of_nonneg h0] at h

/-- A run of `n` cells of a line that all hold `c` has at most as many cells
as the board has stones of `c`. -/
theorem run_le_stones (b : Board) (c x y dx dy : Int) (hd : unit_step dx dy) (lo : Int)
    (n : Nat)
    (h : ∀ t : Nat, t < n → holds b c (x + (lo + t) * dx) (y + (lo + t) * dy)) :
    n ≤ stones b c := by
  have hnd : ((List.range n).map
      fun (t : Nat) => (x + (lo + t) * dx, y + (lo + t) * dy)).Nodup := by
    refine List.Nodup.map_on ?_ (List.nodup_range n)
    intro t1 _ t2 _ heq
    simp only [Prod.mk.injEq] at heq
    obtain ⟨h1, h2, h3⟩ := hd
    rcases h1 with h1 | h1 | h1 <;> rcases h2 with h2 | h2 | h2 <;> subst h1 <;> subst h2 <;>
      omega
  have hsub : ((List.range n).map
      fun (t : Nat) => (x + (lo + t) * dx, y + (lo + t) * dy))
      ⊆ cells.filter (fun p => decide (b.cell p.1 p.2 = c)) := by
    intro p hp
    obtain ⟨t, ht, rfl⟩ := List.mem_map.1 hp
    have hh := h t (List.mem_range.1 ht)
    rw [List.mem_filter]
    exact ⟨(mem_cells _).2 ⟨hh.1, hh.2.1, hh.2.2.1, hh.2.2.2.1⟩, by simpa using hh.2.2.2.2⟩
  have hlen := (hnd.subperm hsub).length_le
  rw [List.length_map, List.length_range] at hlen
  unfold stones
  rw [List.countP_eq_length_filter]
  exact hlen

/-- The total length of the line through `(x, y)` is at most the number of
stones of the colour. -/
theorem line_total_le_stones (b : Board) (x y dx dy c : Int) (hd : unit_step dx dy) :
    count_line b x y dx dy c + count_line b x y (-dx) (-dy) c - 1 ≤ (stones b c : Int) := by
  have hF := count_line_holds b x y dx dy c
  have hB := count_line_holds b x y (-dx) (-dy) c
  generalize count_line b x y dx dy c = F at *
  generalize count_line b x y (-dx) (-dy) c = B at *
  by_cases hpos : F + B - 1 ≤ 0
  · omega
  · have hn : ((F + B - 1).toNat : Int) = F + B - 1 := Int.toNat_of_nonneg (by omega)
    have hrun := run_le_stones b c x y dx dy hd (-(B - 1)) (F + B - 1).toNat (by
      intro t ht
      have ht2 : (t : Int) < F + B - 1 := by omega
      by_cases hi : 0 ≤ -(B - 1) + (t : Int)
      · exact hF _ hi (by omega)
      · have hh := hB (-(-(B - 1) + (t : Int))) (by omega) (by omega)
        have e1 : x + -(-(B - 1) + (t : Int)) * -dx = x + (-(B - 1) + (t : Int)) * dx := by
          ring
        have e2 : y + -(-(B - 1) + (t : Int)) * -dy = y + (-(B - 1) + (t : Int)) * dy := by
          ring
        rwa [e1, e2] at hh)
    omega

/-- With at most 4 stones of the colour, one axis adds at most 10000. -/
theorem eval_dir_step_few (b : Board) (x y c score : Int) (d : Int × Int) (h : 0 ≤ score)
    (hd : unit_step d.1 d.2) (hs : stones b c ≤ 4) :
    0 ≤ eval_dir_step b x y c score d ∧ eval_dir_step b x y c score d ≤ score + 10000 := by
  have ht := line_total_le_stones b x y d.1 d.2 c hd
  have ha : score ≤ add_line_score score
        (count_line b x y d.1 d.2 c + count_line b x y (-d.1) (-d.2) c - 1) ∧
      add_line_score score
        (count_line b x y d.1 d.2 c + count_line b x y (-d.1) (-d.2) c - 1) ≤ score + 10000 := by
    unfold add_line_score
    simp only [WIN_SCORE]
    split_ifs <;> omega
  unfold eval_dir_step
  simp only
  generalize add_line_score score
    (count_line b x y d.1 d.2 c + count_line b x y (-d.1) (-d.2) c - 1) = a at ha ⊢
  have h10 := tdiv_bounds a 10 (by omega) (by decide)
  have h3 := tdiv_bounds a 3 (by omega) (by decide)
  split_ifs <;> omega

/-- With at most 4 stones of the colour, `evaluate_position` is at most 40000. -/
theorem evaluate_position_few (b : Board) (x y c : Int) (hs : stones b c ≤ 4) :
    evaluate_position b x y c ≤ 40000 := by
  have h1 := eval_dir_step_few b x y c 0 (0, 1) (le_refl 0) (by decide) hs
  have h2 := eval_dir_step_few b x y c _ (1, 0) h1.1 (by decide) hs
  have h3 := eval_dir_step_few b x y c _ (1, 1) h2.1 (by decide) hs
  have h4 := eval_dir_step_few b x y c _ (1, -1) h3.1 (by decide) hs
  unfold evaluate_position
  simp only [dirs, List.foldl]
  omega

/-- With at most 4 stones of each side, each of the two sums of
`evaluate_board` grows by at most 40000 per stone of the side. -/
theorem eval_board_fold_few (s : GameState) (h1 : stones s.board s.my_color ≤ 4)
    (h2 : stones s.board s.opponent_color ≤ 4) :
    ∀ (l : List (Int × Int)) (acc : Int × Int),
      (l.foldl (eval_board_step s) acc).1
          ≤ acc.1 + 40000 * (l.countP fun p => decide (s.board.cell p.1 p.2 = s.my_color)) ∧
        (l.foldl (eval_board_step s) acc).2
          ≤ acc.2 + 40000 *
            (l.countP fun p => decide (s.board.cell p.1 p.2 = s.opponent_color)) := by
  intro l
  induction l with
  | nil => intro acc; simp
  | cons p rest ih =>
    intro acc
    have hm := evaluate_position_few s.board p.1 p.2 s.my_color h1
    have ho := evaluate_position_few s.board p.1 p.2 s.opponent_color h2
    have hrec := ih (eval_board_step s acc p)
    simp only [List.foldl_cons, List.countP_cons, decide_eq_true_eq, Nat.cast_add]
    have hstep : (eval_board_step s acc p).1
          ≤ acc.1 + 40000 * ((if s.board.cell p.1 p.2 = s.my_color then 1 else 0 : Nat) : Int) ∧
        (eval_board_step s acc p).2
          ≤ acc.2 + 40000 *
            ((if s.board.cell p.1 p.2 = s.opponent_color then 1 else 0 : Nat) : Int) := by
      unfold eval_board_step
      split_ifs <;> simp only [Nat.cast_one, Nat.cast_zero] <;> constructor <;> omega
    constructor
    · linarith [hrec.1, hstep.1]
    · linarith [hrec.2, hstep.2]

/-- With at most 4 stones of each side, `evaluate_board` lies in
`[-WIN_SCORE, WIN_SCORE]`. -/
theorem evaluate_board_few (s : GameState) (h1 : stones s.board s.my_color ≤ 4)
    (h2 : stones s.board s.opponent_color ≤ 4) :
    -WIN_SCORE ≤ evaluate_board s ∧ evaluate_board s ≤ WIN_SCORE := by
  have hlo := eval_board_fold_bounds s cells (0, 0) (le_refl 0) (le_refl 0)
  have hhi := eval_board_fold_few s h1 h2 cells (0, 0)
  have c1 : ((cells.countP fun p => decide (s.board.cell p.1 p.2 = s.my_color) : Nat) : Int)
      ≤ 4 := by
    have : stones s.board s.my_color ≤ 4 := h1
    unfold stones at this
    omega
  have c2 : ((cells.countP
      fun p => decide (s.board.cell p.1 p.2 = s.opponent_color) : Nat) : Int) ≤ 4 := by
    have : stones s.board s.opponent_color ≤ 4 := h2
    unfold stones at this
    omega
  unfold evaluate_board
  simp only [WIN_SCORE] at *
  constructor <;> omega

/-- Setting a cell changes no count over a list of cells that does not
contain it. -/
theorem countP_set_cell_eq (b : Board) (x y v c : Int) (hin : in_board x y)
    (l : List (Int × Int)) (hl : ∀ p ∈ l, in_board p.1 p.2) (hx : (x, y) ∉ l) :
    (l.countP fun p => decide ((set_cell b x y v).cell p.1 p.2 = c))
      = l.countP fun p => decide (b.cell p.1 p.2 = c) := by
  apply List.countP_congr
  intro p hp
  have hne : ¬ (p.1 = x ∧ p.2 = y) := fun h => hx (by
    have hpq : p = (x, y) := Prod.ext h.1 h.2
    rw [← hpq]
    exact hp)
  rw [cell_set_cell b x y v p.1 p.2 hin (hl p hp), if_neg hne]

/-- Setting one cell to `v` adds at most one stone of `v` and none of any
other colour, counted over any list of distinct cells. -/
theorem countP_set_cell_le (b : Board) (x y v c : Int) (hin : in_board x y) :
    ∀ l : List (Int × Int), l.Nodup → (∀ p ∈ l, in_board p.1 p.2) →
      (l.countP fun p => decide ((set_cell b x y v).cell p.1 p.2 = c))
        ≤ (l.countP fun p => decide (b.cell p.1 p.2 = c)) + (if v = c then 1 else 0) := by
  intro l
  induction l with
  | nil => intro _ _; simp
  | cons p rest ih =>
    intro hnd hl
    have hrest : ∀ q ∈ rest, in_board q.1 q.2 := fun q hq => hl q (List.mem_cons_of_mem _ hq)
    have hp := hl p (List.mem_cons_self _ _)
    have hcell := cell_set_cell b x y v p.1 p.2 hin hp
    rw [List.countP_cons, List.countP_cons, hcell]
    by_cases hpe : p.1 = x ∧ p.2 = y
    · have hpq : p = (x, y) := Prod.ext hpe.1 hpe.2
      have hx : (x, y) ∉ rest := by
        rw [← hpq]
        exact (List.nodup_cons.1 hnd).1
      rw [countP_set_cell_eq b x y v c hin rest hrest hx, if_pos hpe]
      simp only [decide_eq_true_eq]
      split_ifs <;> omega
    · have hrec := ih (List.nodup_cons.1 hnd).2 hrest
      rw [if_neg hpe]
      omega

/-- Placing a stone of `v` on the board adds at most one stone of `v` and
none of any other colour. -/
theorem stones_set_cell_le (b : Board) (x y v c : Int) (hin : in_board x y) :
    stones (set_cell b x y v) c ≤ stones b c + (if v = c then 1 else 0) :=
  countP_set_cell_le b x y v c hin cells cells_nodup (fun p hp => (mem_cells p).1 hp)

/-- A sufficient condition for the bound of C5: when the two sides have distinct
colours and neither can own more than 4 stones within the next `d` plies,
every static evaluation computed by the search to depth `d` lies in
`[-WIN_SCORE, WIN_SCORE]`. -/
theorem evals_bounded_few :
    ∀ (d : Nat) (flag : Bool) (s : GameState), s.my_color ≠ s.opponent_color →
      stones s.board s.my_color + (if flag then (d + 1) / 2 else d / 2) ≤ 4 →
      stones s.board s.opponent_color + (if flag then d / 2 else (d + 1) / 2) ≤ 4 →
      evals_bounded d flag s = true := by
  intro d
  induction d with
  | zero =>
    intro flag s _ h1 h2
    simp only [evals_bounded, decide_eq_true_eq]
    exact evaluate_board_few s (by omega) (by omega)
  | succ d ih =>
    intro flag s hne h1 h2
    have hleaf : -WIN_SCORE ≤ evaluate_board s ∧ evaluate_board s ≤ WIN_SCORE :=
      evaluate_board_few s (by omega) (by omega)
    have hcand : ∀ (g : Int × Int → Bool) (p : Int × Int),
        p ∈ (generate_moves s.board).takeWhile g → in_board p.1 p.2 := by
      intro g p hp
      have hv := generate_moves_valid s.board p ((List.takeWhile_prefix _).subset hp)
      exact ⟨hv.1, hv.2.1, hv.2.2.1, hv.2.2.2.1⟩
    cases flag with
    | true =>
      simp only [if_true] at h1 h2
      simp only [evals_bounded, if_true, Bool.not_true]
      by_cases hlen : (generate_moves s.board).length = 0
      · rw [if_pos hlen]
        simpa using hleaf
      · rw [if_neg hlen, List.all_eq_true]
        intro p hp
        have hin := hcand _ p hp
        have k1 := stones_set_cell_le s.board p.1 p.2 s.my_color s.my_color hin
        have k2 := stones_set_cell_le s.board p.1 p.2 s.my_color s.opponent_color hin
        rw [if_pos rfl] at k1
        rw [if_neg hne] at k2
        refine ih false (make_move s p.1 p.2 s.my_color) hne ?_ ?_
        · show stones (set_cell s.board p.1 p.2 s.my_color) s.my_color + _ ≤ 4
          simp only [Bool.false_eq_true, if_false]
          omega
        · show stones (set_cell s.board p.1 p.2 s.my_color) s.opponent_color + _ ≤ 4
          simp only [Bool.false_eq_true, if_false]
          omega
    | false =>
      simp only [Bool.false_eq_true, if_false] at h1 h2
      simp only [evals_bounded, Bool.false_eq_true, if_false, Bool.not_false]
      by_cases hlen : (generate_moves s.board).length = 0
      · rw [if_pos hlen]
        simpa using hleaf
      · rw [if_neg hlen, List.all_eq_true]
        intro p hp
        have hin := hcand _ p hp
        have k1 := stones_set_cell_le s.board p.1 p.2 s.opponent_color s.my_color hin
        have k2 := stones_set_cell_le s.board p.1 p.2 s.opponent_color s.opponent_color hin
        rw [if_neg (Ne.symm hne)] at k1
        rw [if_pos rfl] at k2
        refine ih true (make_move s p.1 p.2 s.opponent_color) hne ?_ ?_
        · show stones (set_cell s.board p.1 p.2 s.opponent_color) s.my_color + _ ≤ 4
          simp only [if_true]
          omega
        · show stones (set_cell s.board p.1 p.2 s.opponent_color) s.opponent_color + _ ≤ 4
          simp only [if_true]
          omega

/-- The same condition at the root: with distinct colours, at most one
stone of my side and at most one of the opponent, the bound holds below
every root candidate to depth `MAX_DEPTH - 1`. -/
theorem root_bounded_few (s : GameState) (hne : s.my_color ≠ s.opponent_color)
    (h1 : stones s.board s.my_color ≤ 1) (h2 : stones s.board s.opponent_color ≤ 1) :
    ∀ p ∈ generate_moves s.board,
      evals_bounded (MAX_DEPTH - 1) false (make_move s p.1 p.2 s.my_color) = true := by
  intro p hp
  have hv := generate_moves_valid s.board p hp
  have hin : in_board p.1 p.2 := ⟨hv.1, hv.2.1, hv.2.2.1, hv.2.2.2.1⟩
  have k1 := stones_set_cell_le s.board p.1 p.2 s.my_color s.my_color hin
  have k2 := stones_set_cell_le s.board p.1 p.2 s.my_color s.opponent_color hin
  rw [if_pos rfl] at k1
  rw [if_neg hne] at k2
  refine evals_bounded_few (MAX_DEPTH - 1) false (make_move s p.1 p.2 s.my_color) hne ?_ ?_
  · show stones (set_cell s.board p.1 p.2 s.my_color) s.my_color + _ ≤ 4
    simp only [Bool.false_eq_true, if_false, MAX_DEPTH]
    omega
  · show stones (set_cell s.board p.1 p.2 s.my_color) s.opponent_color + _ ≤ 4
    simp only [Bool.false_eq_true, if_false, MAX_DEPTH]
    omega

set_option maxRecDepth 1000000 in
/-- Instances of `alpha_beta_parity_bounded` on `board_corner`, where every
node of the search has several candidates: the search to depth 2 and to
depth 3 with white to move, and the root procedure with black to move, which
chooses between the three root candidates `(0, 1)`, `(1, 0)`, `(1, 1)` after a
search to depth `MAX_DEPTH - 1` below each of them. -/
theorem alpha_beta_parity_bounded_witness :
    (minimax never_late 2 INT_MIN INT_MAX false ⟨board_corner, BLACK, WHITE, 0⟩).1
        = (minimax_unpruned never_late 2 false ⟨board_corner, BLACK, WHITE, 0⟩).1 ∧
      (minimax never_late 3 INT_MIN INT_MAX false ⟨board_corner, BLACK, WHITE, 0⟩).1
        = (minimax_unpruned never_late 3 false ⟨board_corner, BLACK, WHITE, 0⟩).1 ∧
      generate_moves board_corner = [(0, 1), (1, 0), (1, 1)] ∧
      (root_loop never_late (minimax never_late (MAX_DEPTH - 1) INT_MIN INT_MAX false)
          [(0, 1), (1, 0), (1, 1)] INT_MIN (0, 1) ⟨board_corner, BLACK, WHITE, 0⟩).1
        = (root_loop never_late (minimax_unpruned never_late (MAX_DEPTH - 1) false)
          [(0, 1), (1, 0), (1, 1)] INT_MIN (0, 1) ⟨board_corner, BLACK, WHITE, 0⟩).1 ∧
      (get_best_move never_late ⟨board_corner, BLACK, WHITE, 0⟩).1
        = (get_best_move_with never_late (minimax_unpruned never_late (MAX_DEPTH - 1) false)
            ⟨board_corner, BLACK, WHITE, 0⟩).1 :=
  ⟨alpha_beta_parity_bounded.1 2 false ⟨board_corner, BLACK, WHITE, 0⟩
      (evals_bounded_few 2 false ⟨board_corner, BLACK, WHITE, 0⟩ (by decide) (by decide)
        (by decide)),
    alpha_beta_parity_bounded.1 3 false ⟨board_corner, BLACK, WHITE, 0⟩
      (evals_bounded_few 3 false ⟨board_corner, BLACK, WHITE, 0⟩ (by decide) (by decide)
        (by decide)),
    by decide,
    (alpha_beta_parity_bounded.2 ⟨board_corner, BLACK, WHITE, 0⟩
      (root_bounded_few ⟨board_corner, BLACK, WHITE, 0⟩ (by decide) (by decide)
        (by decide))).1,
    (alpha_beta_parity_bounded.2 ⟨board_corner, BLACK, WHITE, 0⟩
      (root_bounded_few ⟨board_corner, BLACK, WHITE, 0⟩ (by decide) (by decide)
        (by decide))).2.2⟩

/-! ## C10 (amended): the accumulated score -/

/-- The `if / else if` chain adds the base score of the line. -/
theorem add_line_score_eq (score total : Int) :
    add_line_score score total = score + base_score total := by
  unfold add_line_score base_score
  split_ifs <;> simp

/-- The base score is never negative. -/
theorem base_score_nonneg (T : Int) : 0 ≤ base_score T := by
  unfold base_score
  split_ifs <;> decide

/-- The divisor of an axis is 1, 3 or 10. -/
theorem axis_divisor_cases (b : Board) (x y color : Int) (d : Int × Int) :
    axis_divisor b x y color d = 1 ∨ axis_divisor b x y color d = 3 ∨
      axis_divisor b x y color d = 10 := by
  unfold axis_divisor
  simp only
  split_ifs <;> simp

/-- One iteration of the loop of `evaluate_position` adds the base score of
the axis and divides the accumulated score by the divisor of the axis. -/
theorem eval_dir_step_eq (b : Board) (x y color score : Int) (d : Int × Int) :
    eval_dir_step b x y color score d
      = Int.tdiv (score + axis_base b x y color d) (axis_divisor b x y color d) := by
  unfold eval_dir_step axis_base axis_divisor
  simp only [add_line_score_eq]
  split_ifs <;> simp_all

/-- The per-axis result of an axis is its base score divided by its divisor. -/
theorem axis_result_eq (b : Board) (x y color : Int) (d : Int × Int) :
    axis_result b x y color d
      = Int.tdiv (axis_base b x y color d) (axis_divisor b x y color d) := by
  unfold axis_result axis_base axis_divisor
  simp only
  split_ifs <;> simp_all

/-- Dividing an accumulated non-negative score gives at most the score
accumulated before plus the per-axis result. -/
theorem tdiv_add_le (p a k : Int) (hp : 0 ≤ p) (ha : 0 ≤ a)
    (hk : k = 1 ∨ k = 3 ∨ k = 10) :
    0 ≤ Int.tdiv (p + a) k ∧ Int.tdiv (p + a) k ≤ p + Int.tdiv a k := by
  rcases hk with h | h | h <;> subst h
  · rw [Int.tdiv_eq_ediv (by omega) (by decide), Int.tdiv_eq_ediv ha (by decide)]
    omega
  · rw [Int.tdiv_eq_ediv (by omega) (by decide), Int.tdiv_eq_ediv ha (by decide)]
    omega
  · rw [Int.tdiv_eq_ediv (by omega) (by decide), Int.tdiv_eq_ediv ha (by decide)]
    omega

/-- The accumulated score over any list of axes is at most the score before
plus the sum of the per-axis results. -/
theorem eval_dirs_fold_le (b : Board) (x y color : Int) :
    ∀ (l : List (Int × Int)) (score : Int), 0 ≤ score →
      l.foldl (eval_dir_step b x y color) score
        ≤ score + (l.map (axis_result b x y color)).sum := by
  intro l
  induction l with
  | nil => intro score _; simp
  | cons d rest ih =>
    intro score h
    have hs := tdiv_add_le score (axis_base b x y color d) (axis_divisor b x y color d) h
      (base_score_nonneg _) (axis_divisor_cases b x y color d)
    have h2 := ih (eval_dir_step b x y color score d) (by rw [eval_dir_step_eq]; exact hs.1)
    rw [eval_dir_step_eq] at h2
    have h3 := hs.2
    simp only [List.foldl_cons, List.map_cons, List.sum_cons]
    rw [eval_dir_step_eq, axis_result_eq b x y color d]
    linarith

/-- C10 (amended): for every board, cell `(x, y)` and side `c`,
`evaluate_position(x, y, c)` is the value of one accumulator run over the four
axes in the order horizontal, vertical, diagonal, anti-diagonal, starting from
0: for each axis the base score of the axis's run total is added and the
accumulated score is then divided (truncating) by 10 if both cells beyond the
ends of the run are blocked, by 3 if exactly one is, and left unchanged
otherwise.  A blocked end therefore also reduces the contributions of the axes
handled before: the value never exceeds the sum of the per-axis results, and
equals it when no axis after the first has a blocked end. -/
theorem evaluate_position_accumulates (b : Board) (x y c : Int) :
    evaluate_position b x y c = accumulated_score b x y c ∧
      evaluate_position b x y c
        = Int.tdiv (Int.tdiv (Int.tdiv (Int.tdiv (0 + axis_base b x y c (0, 1))
              (axis_divisor b x y c (0, 1)) + axis_base b x y c (1, 0))
            (axis_divisor b x y c (1, 0)) + axis_base b x y c (1, 1))
          (axis_divisor b x y c (1, 1)) + axis_base b x y c (1, -1))
        (axis_divisor b x y c (1, -1)) ∧
      (∀ d : Int × Int, axis_result b x y c d
        = Int.tdiv (axis_base b x y c d) (axis_divisor b x y c d)) ∧
      evaluate_position b x y c ≤ per_axis_sum b x y c ∧
      ((∀ d ∈ dirs.tail, axis_divisor b x y c d = 1) →
        evaluate_position b x y c = per_axis_sum b x y c) := by
  have hstep : eval_dir_step b x y c
      = fun acc d => Int.tdiv (acc + axis_base b x y c d) (axis_divisor b x y c d) := by
    funext acc d
    exact eval_dir_step_eq b x y c acc d
  have hexp : evaluate_position b x y c
      = Int.tdiv (Int.tdiv (Int.tdiv (Int.tdiv (0 + axis_base b x y c (0, 1))
            (axis_divisor b x y c (0, 1)) + axis_base b x y c (1, 0))
          (axis_divisor b x y c (1, 0)) + axis_base b x y c (1, 1))
        (axis_divisor b x y c (1, 1)) + axis_base b x y c (1, -1))
      (axis_divisor b x y c (1, -1)) := by
    unfold evaluate_position
    rw [hstep]
    rfl
  refine ⟨?_, hexp, axis_result_eq b x y c, ?_, ?_⟩
  · unfold evaluate_position accumulated_score
    rw [hstep]
  · have h := eval_dirs_fold_le b x y c dirs 0 (le_refl 0)
    unfold evaluate_position per_axis_sum
    linarith
  · intro h1
    have k1 := h1 (1, 0) (by decide)
    have k2 := h1 (1, 1) (by decide)
    have k3 := h1 (1, -1) (by decide)
    rw [hexp, k1, k2, k3]
    unfold per_axis_sum
    simp only [dirs, List.map_cons, List.map_nil, List.sum_cons, List.sum_nil, axis_result_eq,
      k1, k2, k3, Int.tdiv_one, zero_add, add_zero]
    ring

set_option maxRecDepth 1000000 in
/-- Instance of `evaluate_position_accumulates`: on `board_blocked_pair` the
black stone `(5, 5)` is blocked on the horizontal axis only, and the value is
the per-axis sum `10 / 3 + 10 + 10 + 10 = 33`. -/
theorem evaluate_position_accumulates_witness :
    evaluate_position board_blocked_pair 5 5 BLACK = per_axis_sum board_blocked_pair 5 5 BLACK ∧
      dirs.map (axis_divisor board_blocked_pair 5 5 BLACK) = [3, 1, 1, 1] ∧
      evaluate_position board_blocked_pair 5 5 BLACK = 33 :=
  ⟨(evaluate_position_accumulates board_blocked_pair 5 5 BLACK).2.2.2.2 (by decide),
    by decide, by decide⟩

end Gobang
